import Mathlib

/-!
# CFS: a FUSE filesystem indexed by a cache-oblivious lookup array

Shallow embedding of `src/cfs.c`.

* C arrays reached through a pointer (`COLA`, `FAT`, `heads`, `buf`) are total
  functions from the index to the element, so that an access with any index the
  code computes (also a sentinel) has a value in the model.
* C `int` values are `Int`; a store of a wider value into an `int` is written
  `toInt32`. Values of type `size_t` and `off_t` are integers and their arithmetic
  is exact.
* A file name is the list of its bytes up to the terminating NUL.
* `block` (`PAGE_SIZE`, from `<asm/page.h>`) is a parameter of the I/O functions;
  it is at least 1. Comparisons with it are comparisons of integers, exact for
  offsets and sizes in `[0, 2^31)`, the range the theorems on the I/O functions
  assume.
* A loop whose trip count is bounded by its arguments recurses on that bound: when
  the bound is used up the loop condition is false. The loop of `cfs_write` that
  frees a chain has no such bound and returns an `Option`.
-/

namespace CFS

/-! ## Constants of the source -/

/-- Number of COLA slots and FAT entries, `2^15 - 1`. -/
@[reducible] def numOfFiles : Int := 32767
/-- Longest admitted name. -/
@[reducible] def fileNameLen : Nat := 30
/-- Sentinel: unused slot, free block. -/
@[reducible] def EMPTY : Int := -1
/-- Sentinel: the entry is a directory. -/
@[reducible] def DIR : Int := -2
/-- Sentinel: last block of a chain. -/
@[reducible] def END : Int := -3

/-- Value of `ENOENT` in `<errno.h>`. -/
@[reducible] def ENOENT : Int := 2
/-- Value of `ENOMEM` in `<errno.h>`. -/
@[reducible] def ENOMEM : Int := 12
/-- Value of `EACCES` in `<errno.h>`. -/
@[reducible] def EACCES : Int := 13
/-- Value of `EEXIST` in `<errno.h>`. -/
@[reducible] def EEXIST : Int := 17
/-- Value of `ENOSPC` in `<errno.h>`. -/
@[reducible] def ENOSPC : Int := 28

/-- Record of one directory-tree node (`struct fileInfo`). -/
structure fileInfo where
  size : Int
  name : List Nat
  blockNum : Int
deriving DecidableEq

/-- Array store `a[i] = v`. -/
def upd {α : Type} (a : Int → α) (i : Int) (v : α) : Int → α :=
  fun j => if j = i then v else a j

/-- Store into the `heads` array of `merge`. -/
def updHead (heads : Nat → Int) (i : Nat) (v : Int) : Nat → Int :=
  fun j => if j = i then v else heads j

/-- Byte-wise comparison of two NUL-terminated strings; only the sign of the
result is used by the callers. -/
def strcmp : List Nat → List Nat → Int
  | [], [] => 0
  | [], _ :: _ => -1
  | _ :: _, [] => 1
  | a :: as, b :: bs => if a = b then strcmp as bs else (a : Int) - (b : Int)

/-- Recursion of `power`, on a bound for the depth. -/
def powerAux (a : Int) : Nat → Nat → Int
  | 0, _ => 1
  | fuel + 1, n =>
    if n = 0 then 1
    else
      let temp := powerAux a fuel (n / 2)
      if n % 2 = 0 then temp * temp else a * temp * temp

/-- Exponentiation by squaring, `power(a, n)`. -/
def power (a : Int) (n : Nat) : Int := powerAux a n n

/-! ## COLA -/

/-- First loop of `findMin`: the lowest table at or after `i` that still has a head. -/
def findMin_first (heads : Nat → Int) : Nat → Nat → Option Nat
  | 0, _ => none
  | n + 1, i => if heads i ≠ EMPTY then some i else findMin_first heads n (i + 1)

/-- Second loop of `findMin`: scan the remaining tables for a smaller head. -/
def findMin_scan (cola : Int → fileInfo) (heads : Nat → Int) :
    Nat → Nat → fileInfo → Nat → fileInfo × Nat
  | 0, _, min, minIndex => (min, minIndex)
  | n + 1, i, min, minIndex =>
    if heads i ≠ EMPTY ∧ strcmp min.name (cola (heads i)).name ≥ 0 then
      findMin_scan cola heads n (i + 1) (cola (heads i)) i
    else findMin_scan cola heads n (i + 1) min minIndex

/-- Effect of the loop `for (i = 2^m - 1; i < 2 * 2^m - 1; i++) cola[i].blockNum = EMPTY`. -/
def clearRun (cola : Int → fileInfo) (minIndex : Nat) : Int → fileInfo :=
  fun i =>
    if power 2 minIndex - 1 ≤ i ∧ i < 2 * power 2 minIndex - 1 then
      { cola i with blockNum := EMPTY }
    else cola i

/-- Consume the head of table `minIndex` (the block that occurs twice in `findMin`):
on the last element the table is retired and its run is cleared. -/
def advance (cola : Int → fileInfo) (heads : Nat → Int) (minIndex : Nat) :
    (Int → fileInfo) × (Nat → Int) :=
  if heads minIndex + 2 = power 2 (minIndex + 1) then
    (clearRun cola minIndex, updHead heads minIndex EMPTY)
  else (cola, updHead heads minIndex (heads minIndex + 1))

/-- Result of one `findMin` call: the element returned and the memory it leaves. -/
structure MinResult where
  min : fileInfo
  cola : Int → fileInfo
  heads : Nat → Int
  fiInserted : Bool

/-- Find the minimal element for merging (`findMin`). -/
def findMin (cola : Int → fileInfo) (heads : Nat → Int) (fi : fileInfo)
    (fiInserted : Bool) (numOfTabs : Nat) : MinResult :=
  match findMin_first heads numOfTabs 0 with
  | none => ⟨fi, cola, heads, fiInserted⟩
  | some m0 =>
    let r := findMin_scan cola heads (numOfTabs - (m0 + 1)) (m0 + 1) (cola (heads m0)) m0
    if fiInserted then
      ⟨r.1, (advance cola heads r.2).1, (advance cola heads r.2).2, fiInserted⟩
    else if strcmp fi.name r.1.name ≤ 0 then ⟨fi, cola, heads, true⟩
    else ⟨r.1, (advance cola heads r.2).1, (advance cola heads r.2).2, fiInserted⟩

/-- Loop `while (done <= i)` of `merge`; the first argument is `i + 1 - done`. -/
def merge_loop (i : Int) (numOfTabs : Nat) (fi : fileInfo) :
    Nat → Int → (Int → fileInfo) → (Nat → Int) → Bool → (Int → fileInfo)
  | 0, _, cola, _, _ => cola
  | n + 1, done, cola, heads, fiInserted =>
    let r := findMin cola heads fi fiInserted numOfTabs
    merge_loop i numOfTabs fi n (done + 1) (upd r.cola (i + done) r.min) r.heads r.fiInserted

/-- Merge tables `0 .. numOfTabs - 1` and `fi` into the run starting at `i` (`merge`). -/
def merge (i : Int) (numOfTabs : Nat) (fi : fileInfo) (cola : Int → fileInfo) :
    Int → fileInfo :=
  merge_loop i numOfTabs fi (i + 1).toNat 0 cola (fun j => power 2 j - 1) false

/-- Loop of `insert` looking for the first empty run; `none` is `return 0`.
From `i = 0` the loop body runs at most 15 times. -/
def insert_loop (cola : Int → fileInfo) : Nat → Int → Nat → Option (Int × Nat)
  | 0, _, _ => none
  | fuel + 1, i, numOfTabs =>
    if (cola i).blockNum ≠ EMPTY then
      if 2 * (2 * i + 1) + 1 > numOfFiles then none
      else insert_loop cola fuel (2 * i + 1) (numOfTabs + 1)
    else some (i, numOfTabs)

/-- Insert a new element into the COLA (`insert`): return value and array afterwards. -/
def insert (fi : fileInfo) (cola : Int → fileInfo) : Int × (Int → fileInfo) :=
  match insert_loop cola 15 0 0 with
  | none => (0, cola)
  | some (i, numOfTabs) =>
    if i = 0 then (1, upd cola 0 fi) else (1, merge i numOfTabs fi cola)

/-- Loop of `binSearch`; the first argument bounds `last - first + 1`. -/
def binSearch_loop (name : List Nat) (cola : Int → fileInfo) : Nat → Int → Int → Int
  | 0, _, _ => EMPTY
  | n + 1, first, last =>
    if first ≤ last then
      let mid := Int.tdiv (first + last) 2
      if strcmp name (cola mid).name = 0 then mid
      else if strcmp name (cola mid).name < 0 then binSearch_loop name cola n first (mid - 1)
      else binSearch_loop name cola n (mid + 1) last
    else EMPTY

/-- Binary search for `name` in `cola[f .. l]` (`binSearch`). -/
def binSearch (name : List Nat) (cola : Int → fileInfo) (f l : Int) : Int :=
  binSearch_loop name cola (l - f + 1).toNat f l

/-- Loop of `find` over the run starts `0, 1, 3, ...`; 15 of them satisfy
`2 * i + 1 <= numOfFiles`. -/
def find_loop (name : List Nat) (cola : Int → fileInfo) : Nat → Int → Int
  | 0, _ => EMPTY
  | n + 1, i =>
    if 2 * i + 1 ≤ numOfFiles then
      if (cola i).blockNum ≠ EMPTY then
        let cur := binSearch name cola i (2 * i)
        if cur ≠ EMPTY then cur else find_loop name cola n (2 * i + 1)
      else find_loop name cola n (2 * i + 1)
    else EMPTY

/-- Position of `name` in the COLA, or `EMPTY` (`find`). -/
def find (name : List Nat) (cola : Int → fileInfo) : Int :=
  find_loop name cola 15 0


/-! ## Pattern matching of `<regex.h>`

The source calls `regcomp`/`regexec` with `REG_EXTENDED | REG_NOSUB`.  They are
modelled for the fragment of extended regular expressions its patterns use:
ordinary bytes, `.`, and the postfix operators `*` and `+`; a match may start
anywhere in the string.  The model is exact for the fixed patterns `.*~.*` and `.+/`.
A pattern that `cfs_readdir` builds from a directory name is covered only when the
name has none of the other metacharacters of extended regular expressions. -/

/-- One-byte matcher of a pattern: `.` or an ordinary byte. -/
inductive ReAtom where
  | any
  | chr (c : Nat)
deriving DecidableEq

/-- Repetition attached to an atom. -/
inductive ReQuant where
  | one
  | star
  | plus
deriving DecidableEq

/-- Atom written by the pattern byte `c`. -/
def atomOf (c : Nat) : ReAtom := if c = 46 then ReAtom.any else ReAtom.chr c

/-- Does the atom accept the byte? -/
def atomMatches : ReAtom → Nat → Bool
  | ReAtom.any, _ => true
  | ReAtom.chr c, d => decide (c = d)

/-- Pattern compilation (`regcomp`): atoms with their postfix operator. -/
def parseRegex : List Nat → List (ReAtom × ReQuant)
  | [] => []
  | [c] => [(atomOf c, ReQuant.one)]
  | c :: q :: rest =>
    if q = 42 then (atomOf c, ReQuant.star) :: parseRegex rest
    else if q = 43 then (atomOf c, ReQuant.plus) :: parseRegex rest
    else (atomOf c, ReQuant.one) :: parseRegex (q :: rest)

/-- Matching of `a*` followed by the continuation `k`. -/
def starLoop (a : ReAtom) (k : List Nat → Bool) : List Nat → Bool
  | [] => k []
  | c :: cs => k (c :: cs) || (atomMatches a c && starLoop a k cs)

/-- Does a prefix of the string match the compiled pattern? -/
def matchHere : List (ReAtom × ReQuant) → List Nat → Bool
  | [] => fun _ => true
  | (a, ReQuant.one) :: items => fun s =>
    match s with
    | [] => false
    | c :: cs => atomMatches a c && matchHere items cs
  | (a, ReQuant.star) :: items => starLoop a (matchHere items)
  | (a, ReQuant.plus) :: items => fun s =>
    match s with
    | [] => false
    | c :: cs => atomMatches a c && starLoop a (matchHere items) cs

/-- Does the compiled pattern match at some position of the string (`regexec`)? -/
def matchAnywhere (items : List (ReAtom × ReQuant)) : List Nat → Bool
  | [] => matchHere items []
  | c :: cs => matchHere items (c :: cs) || matchAnywhere items cs

/-- Source function `match`: 1 when `pattern` matches somewhere in `string`, else 0. -/
def match_ (string pattern : List Nat) : Int :=
  if matchAnywhere (parseRegex pattern) string then 1 else 0

/-- Path validation (`checkPath`); `path + 1` is the tail of the byte list and
`path[1]` is the terminating NUL when the path has a single byte. -/
def checkPath (path : List Nat) : Int :=
  if path.tail.length > fileNameLen ∨ path.getD 1 0 = 46 ∨ match_ path [46, 42, 126, 46, 42] ≠ 0
  then 1 else 0

/-! ## Filesystem -/

/-- Conversion to a 32-bit `int`. -/
def toInt32 (x : Int) : Int := (x + 2147483648) % 4294967296 - 2147483648

/-- Contents of the backing file: the three mapped regions, as functions of the slot,
of the FAT word, and of the block and the byte in it. The three functions are
independent of each other, which is exact for indices inside a region (slots, words
and blocks `0 .. N - 1`); on the file an index outside its region addresses bytes of
a neighbouring region or of none. -/
structure State where
  COLA : Int → fileInfo
  FAT : Int → Int
  data : Int → Int → Nat

/-- Loop of `searchFAT`, `for (i = 0; i <= numOfFiles; i++)`. -/
def searchFAT_loop (FAT : Int → Int) : Nat → Int → Int
  | 0, _ => EMPTY
  | n + 1, i => if FAT i = EMPTY then i else searchFAT_loop FAT n (i + 1)

/-- Index of the first free FAT entry, or `EMPTY` (`searchFAT`). -/
def searchFAT (FAT : Int → Int) : Int := searchFAT_loop FAT 32768 0

/-- Fields of `struct stat` that `cfs_getattr` sets. -/
structure Stat where
  st_mode : Int
  st_nlink : Int
  st_size : Int
deriving DecidableEq

/-- Value of `S_IFDIR | 0777`. -/
@[reducible] def dirMode : Int := 16384 + 511
/-- Value of `S_IFREG | 0777`. -/
@[reducible] def regMode : Int := 32768 + 511

/-- Attributes of a path (`cfs_getattr`): return value and the stat buffer. -/
def cfs_getattr (st : State) (path : List Nat) (stbuf : Stat) : Int × Stat :=
  if checkPath path ≠ 0 then (-EACCES, stbuf)
  else if path = [47] then (0, ⟨dirMode, 2, 0⟩)
  else
    let pos := find path.tail st.COLA
    if pos ≠ EMPTY then
      if (st.COLA pos).blockNum ≠ DIR then (0, ⟨regMode, 1, (st.COLA pos).size⟩)
      else (0, ⟨dirMode, 2, 0⟩)
    else (-ENOENT, ⟨0, 0, 0⟩)

/-- Loop of `cfs_readdir` over the slots `i .. numOfFiles - 1`: the names handed to
`filler`, in order. -/
def readdir_loop (cola : Int → fileInfo) (path : List Nat) : Nat → Int → List (List Nat)
  | 0, _ => []
  | n + 1, i =>
    let here : List (List Nat) :=
      if (cola i).blockNum ≠ EMPTY then
        if path = [47] then
          if match_ (cola i).name [46, 43, 47] = 0 then [(cola i).name] else []
        else if match_ (cola i).name (path.tail ++ [47]) ≠ 0 then
          if match_ ((cola i).name.drop path.length) [46, 43, 47] = 0 then
            [(cola i).name.drop path.length]
          else []
        else []
      else []
    here ++ readdir_loop cola path n (i + 1)

/-- Directory listing (`cfs_readdir`): return value and the names handed to `filler`. -/
def cfs_readdir (st : State) (path : List Nat) : Int × List (List Nat) :=
  if checkPath path ≠ 0 then (-EACCES, [])
  else if path.tail.length > fileNameLen ∨ path.getD 1 0 = 46 then (-ENOENT, [])
  else (0, [46] :: [46, 46] :: readdir_loop st.COLA path 32767 0)

/-- Regular-file creation (`cfs_mknod`). -/
def cfs_mknod (st : State) (path : List Nat) : Int × State :=
  if checkPath path ≠ 0 then (-EACCES, st)
  else if find path.tail st.COLA ≠ EMPTY then (-EEXIST, st)
  else
    let fi : fileInfo := ⟨0, path.tail, searchFAT st.FAT⟩
    if fi.blockNum = EMPTY then (-ENOMEM, st)
    else
      let FAT1 := upd st.FAT fi.blockNum END
      let r := insert fi st.COLA
      if r.1 = 0 then (-ENOSPC, { st with FAT := FAT1 })
      else (0, { st with FAT := FAT1, COLA := r.2 })

/-- Access-time update (`cfs_utime`). -/
def cfs_utime (path : List Nat) : Int :=
  if checkPath path ≠ 0 then -EACCES else 0

/-- Directory creation (`cfs_mkdir`). -/
def cfs_mkdir (st : State) (path : List Nat) : Int × State :=
  if checkPath path ≠ 0 then (-EACCES, st)
  else
    let fi : fileInfo := ⟨0, path.tail, DIR⟩
    if find fi.name st.COLA ≠ EMPTY then (-EEXIST, st)
    else
      let r := insert fi st.COLA
      if r.1 = 0 then (-ENOSPC, st)
      else (0, { st with COLA := r.2 })

/-- File open (`cfs_open`). -/
def cfs_open (st : State) (path : List Nat) : Int :=
  if checkPath path ≠ 0 then -EACCES
  else if find path.tail st.COLA = EMPTY then -ENOENT
  else 0

/-- Effect of `memcpy(dst + d, src + s, n)` on the destination bytes. -/
def memcpy (dst : Int → Nat) (d : Int) (src : Int → Nat) (s : Int) (n : Int) : Int → Nat :=
  fun k => if d ≤ k ∧ k < d + n then src (s + (k - d)) else dst k

/-- Loop `while (tempOff > block)` of `cfs_write`; the first argument bounds `tempOff`.
The comparison is that of integers, which is what the source computes when `tempOff`
is not negative, that is for an offset in `[0, 2^31)`; `PAGE_SIZE` is unsigned there
and a negative `tempOff` would compare as a large value. -/
def write_walk (FAT : Int → Int) (block : Int) : Nat → Int → Int → Int × Int
  | 0, blockNum, tempOff => (blockNum, tempOff)
  | n + 1, blockNum, tempOff =>
    if tempOff > block then write_walk FAT block n (FAT blockNum) (tempOff - block)
    else (blockNum, tempOff)

/-- Loop `while (FAT[cur] != EMPTY && FAT[cur] != END)` of `cfs_write`, which frees
the chain after the last written block; `none` when it has not stopped within the
given number of steps. Returns the table and the final `cur`. -/
def trim_loop : Nat → (Int → Int) → Int → Option ((Int → Int) × Int)
  | 0, _, _ => none
  | n + 1, FAT, cur =>
    if FAT cur ≠ EMPTY ∧ FAT cur ≠ END then trim_loop n (upd FAT cur EMPTY) (FAT cur)
    else some (FAT, cur)

/-- How the block loop of `cfs_write` ends. -/
inductive WriteOut where
  | finished (FAT : Int → Int) (data : Int → Int → Nat) (written : Int)
  | noSpace (FAT : Int → Int) (data : Int → Int → Nat)

/-- Loop `while (left > 0)` of `cfs_write`; the first argument bounds `left`. -/
def write_loop (block : Int) (buf : Int → Nat) :
    Nat → (Int → Int) → (Int → Int → Nat) → Int → Int → Int → Option WriteOut
  | 0, FAT, data, _, _, written => some (WriteOut.finished FAT data written)
  | n + 1, FAT, data, blockNum, left, written =>
    if left > 0 then
      if left > block then
        let data1 := upd data blockNum (memcpy (data blockNum) 0 buf written block)
        let FAT1 := upd FAT blockNum (searchFAT FAT)
        if FAT1 blockNum = EMPTY then some (WriteOut.noSpace (upd FAT1 blockNum END) data1)
        else write_loop block buf n FAT1 data1 (FAT1 blockNum) (left - block) (written + block)
      else
        let data1 := upd data blockNum (memcpy (data blockNum) 0 buf written left)
        match trim_loop 4294967296 FAT (FAT blockNum) with
        | none => none
        | some (FAT1, cur) =>
          let FAT2 := upd (upd FAT1 cur EMPTY) blockNum END
          write_loop block buf n FAT2 data1 blockNum 0 (written + left)
    else some (WriteOut.finished FAT data written)

/-- Byte-range write (`cfs_write`): return value and state afterwards; `none` when
the chain-freeing loop does not stop. -/
def cfs_write (block : Int) (st : State) (path : List Nat) (buf : Int → Nat)
    (size offset : Int) : Option (Int × State) :=
  if checkPath path ≠ 0 then some (-EACCES, st)
  else
    let index := find path.tail st.COLA
    if index = EMPTY then some (-ENOENT, st)
    else
      let w := write_walk st.FAT block (toInt32 offset).toNat (st.COLA index).blockNum
        (toInt32 offset)
      let blockNum := w.1
      let tempOff := w.2
      let setSize := fun (cola : Int → fileInfo) (written : Int) =>
        upd cola index { cola index with size := toInt32 (written + offset) }
      if tempOff + size > block then
        let data1 := upd st.data blockNum
          (memcpy (st.data blockNum) tempOff buf 0 (block - tempOff))
        let written := block - tempOff
        let left := toInt32 (size - (block - tempOff))
        let FAT1 := upd st.FAT blockNum (searchFAT st.FAT)
        if FAT1 blockNum = EMPTY then
          some (-ENOMEM, { st with FAT := upd FAT1 blockNum END, data := data1 })
        else
          match write_loop block buf left.toNat FAT1 data1 (FAT1 blockNum) left written with
          | none => none
          | some (WriteOut.noSpace FAT2 data2) =>
            some (-ENOMEM, { st with FAT := FAT2, data := data2 })
          | some (WriteOut.finished FAT2 data2 written2) =>
            some (toInt32 size, ⟨setSize st.COLA written2, FAT2, data2⟩)
      else
        let data1 := upd st.data blockNum (memcpy (st.data blockNum) tempOff buf 0 size)
        some (toInt32 size, ⟨setSize st.COLA size, st.FAT, data1⟩)

/-- Size change (`cfs_truncate`); the slot that `find` returns is written without a
check of the result. -/
def cfs_truncate (st : State) (path : List Nat) (size : Int) : Int × State :=
  if checkPath path ≠ 0 then (-EACCES, st)
  else
    let index := find path.tail st.COLA
    (0, { st with COLA := upd st.COLA index { st.COLA index with size := toInt32 size } })

/-- Loop `while (tempOff >= block)` of `cfs_read`; the first argument bounds `tempOff`.
As in `write_walk` the comparison is exact for `tempOff` not negative. -/
def read_walk (FAT : Int → Int) (block : Int) : Nat → Int → Int → Int × Int
  | 0, blockNum, tempOff => (blockNum, tempOff)
  | n + 1, blockNum, tempOff =>
    if tempOff ≥ block then read_walk FAT block n (FAT blockNum) (tempOff - block)
    else (blockNum, tempOff)

/-- Loop `while (left > 0)` of `cfs_read`; the first argument bounds `left`.
Returns the user buffer. -/
def read_loop (FAT : Int → Int) (data : Int → Int → Nat) (block : Int) :
    Nat → (Int → Nat) → Int → Int → Int → (Int → Nat)
  | 0, buf, _, _, _ => buf
  | n + 1, buf, blockNum, left, read =>
    if left > 0 then
      if left > block then
        read_loop FAT data block n (memcpy buf read (data blockNum) 0 block) (FAT blockNum)
          (left - block) (read + block)
      else
        read_loop FAT data block n (memcpy buf read (data blockNum) 0 left) blockNum 0 read
    else buf

/-- Byte-range read (`cfs_read`): return value and the user buffer afterwards. -/
def cfs_read (block : Int) (st : State) (path : List Nat) (buf : Int → Nat)
    (size offset : Int) : Int × (Int → Nat) :=
  if checkPath path ≠ 0 then (-EACCES, buf)
  else
    let index := find path.tail st.COLA
    if index = EMPTY then (-ENOENT, buf)
    else if offset ≥ (st.COLA index).size then (0, buf)
    else
      let size1 :=
        if size + offset > (st.COLA index).size then (st.COLA index).size - offset
        else size
      let w := read_walk st.FAT block (toInt32 offset).toNat (st.COLA index).blockNum
        (toInt32 offset)
      let blockNum := w.1
      let tempOff := w.2
      if size1 + tempOff > block then
        let buf1 := memcpy buf 0 (st.data blockNum) tempOff (block - tempOff)
        let read := block - tempOff
        let left := toInt32 (size1 - (block - tempOff))
        (toInt32 size1, read_loop st.FAT st.data block left.toNat buf1 (st.FAT blockNum) left read)
      else
        (toInt32 size1, memcpy buf 0 (st.data blockNum) tempOff size1)

/-- Backing file as `main` initialises it: the head of every COLA slot and every FAT
entry of `[0, N)` is `EMPTY`, names are empty, sizes and data bytes are 0. `main`
stores nothing at indices outside `[0, N)`; the model has the same values there, while
on a fresh file the word that follows the FAT, at index `N`, is 0. -/
def initState : State :=
  ⟨fun _ => ⟨0, [], EMPTY⟩, fun _ => EMPTY, fun _ _ => 0⟩

/-! ## Properties of the COLA array -/

/-- Slot `j` lies in run `t`, the index range `[2^t - 1, 2^(t+1) - 1)`. -/
def inRun (t : Nat) (j : Int) : Prop := (2 : Int) ^ t - 1 ≤ j ∧ j < 2 ^ (t + 1) - 1

/-- Every slot of run `t` has head `EMPTY`. -/
def runEmpty (cola : Int → fileInfo) (t : Nat) : Prop :=
  ∀ j, inRun t j → (cola j).blockNum = EMPTY

/-- Every slot of run `t` holds an entry. -/
def runFull (cola : Int → fileInfo) (t : Nat) : Prop :=
  ∀ j, inRun t j → (cola j).blockNum ≠ EMPTY

/-- Run `t` is strictly ascending by name. -/
def runSorted (cola : Int → fileInfo) (t : Nat) : Prop :=
  ∀ j k, inRun t j → inRun t k → j < k → strcmp (cola j).name (cola k).name < 0

/-- The first slot of run `t` holds an entry: the test `find` and `insert` make. -/
def populated (cola : Int → fileInfo) (t : Nat) : Prop :=
  (cola ((2 : Int) ^ t - 1)).blockNum ≠ EMPTY

/-- I3: each of the 15 runs is entirely empty or entirely populated. -/
def colaShape (cola : Int → fileInfo) : Prop :=
  ∀ t, t < 15 → runEmpty cola t ∨ runFull cola t

/-- I1: each populated run is strictly sorted. -/
def colaSorted (cola : Int → fileInfo) : Prop :=
  ∀ t, t < 15 → runFull cola t → runSorted cola t

/-- I2: no name occurs in two populated slots. -/
def colaUnique (cola : Int → fileInfo) : Prop :=
  ∀ j k, 0 ≤ j → j < numOfFiles → 0 ≤ k → k < numOfFiles →
    (cola j).blockNum ≠ EMPTY → (cola k).blockNum ≠ EMPTY →
    (cola j).name = (cola k).name → j = k

/-- The COLA invariants I1-I3 together. -/
def colaInv (cola : Int → fileInfo) : Prop :=
  colaShape cola ∧ colaSorted cola ∧ colaUnique cola

/-- Some populated slot of the array carries `name`. -/
def present (cola : Int → fileInfo) (name : List Nat) : Prop :=
  ∃ j, 0 ≤ j ∧ j < numOfFiles ∧ (cola j).blockNum ≠ EMPTY ∧ (cola j).name = name

/-! ## Bookkeeping of a merge in progress -/

/-- Number of elements of table `j` the merge has consumed. -/
def consumed (heads : Nat → Int) (j : Nat) : Int :=
  if heads j = EMPTY then 2 ^ j else heads j - (2 ^ j - 1)

/-- Elements consumed from the tables `0 .. t - 1`. -/
def consumedTotal (heads : Nat → Int) : Nat → Int
  | 0 => 0
  | t + 1 => consumedTotal heads t + consumed heads t

/-- Slot `p` of table `j` has been consumed. -/
def taken (heads : Nat → Int) (j : Nat) (p : Int) : Prop :=
  heads j = EMPTY ∨ p < heads j

/-- State of `merge` after `done` iterations, as far as heads are concerned: each
table is either retired with its run cleared or intact with its head inside the run;
`done` counts the consumed elements and `fi`; slots outside the runs `0 .. t` are
untouched; the written part of the target run is populated. -/
structure MergeInv (orig : Int → fileInfo) (t : Nat) (done : Int)
    (cola : Int → fileInfo) (heads : Nat → Int) (ins : Bool) : Prop where
  runs : ∀ j, j < t → (heads j = EMPTY ∧ runEmpty cola j) ∨
    (inRun j (heads j) ∧ ∀ p, inRun j p → cola p = orig p)
  count : consumedTotal heads t + (if ins = true ∨ done = 2 ^ t then 1 else 0) = done
  nonneg : 0 ≤ done
  frame : ∀ p, (p < 0 ∨ 2 ^ (t + 1) - 1 ≤ p) → cola p = orig p
  outPop : ∀ q, 2 ^ t - 1 ≤ q → q < 2 ^ t - 1 + done → (cola q).blockNum ≠ EMPTY

/-- State of `merge` after `done` iterations, as far as names are concerned: the
written part of the target run is strictly sorted, lies below everything not yet
consumed, and holds exactly the consumed elements (and `fi` once it has gone out). -/
structure MergeOrd (orig : Int → fileInfo) (fi : fileInfo) (t : Nat) (done : Int)
    (cola : Int → fileInfo) (heads : Nat → Int) (ins : Bool) : Prop where
  sorted : ∀ q1 q2, 2 ^ t - 1 ≤ q1 → q1 < q2 → q2 < 2 ^ t - 1 + done →
    strcmp (cola q1).name (cola q2).name < 0
  below : ∀ q, 2 ^ t - 1 ≤ q → q < 2 ^ t - 1 + done → ∀ j p, j < t → inRun j p →
    ¬ taken heads j p → strcmp (cola q).name (orig p).name < 0
  belowFi : ¬ (ins = true ∨ done = 2 ^ t) → ∀ q, 2 ^ t - 1 ≤ q → q < 2 ^ t - 1 + done →
    strcmp (cola q).name fi.name < 0
  fromOrig : ∀ q, 2 ^ t - 1 ≤ q → q < 2 ^ t - 1 + done →
    (cola q = fi ∧ (ins = true ∨ done = 2 ^ t)) ∨
    ∃ j p, j < t ∧ inRun j p ∧ taken heads j p ∧ cola q = orig p
  toOut : ∀ j p, j < t → inRun j p → taken heads j p →
    ∃ q, 2 ^ t - 1 ≤ q ∧ q < 2 ^ t - 1 + done ∧ cola q = orig p
  fiOut : (ins = true ∨ done = 2 ^ t) →
    ∃ q, 2 ^ t - 1 ≤ q ∧ q < 2 ^ t - 1 + done ∧ cola q = fi

/-- What `merge` needs of the tables it reads: populated, each strictly sorted, names
distinct across the tables and distinct from the new name. -/
structure MergeHyp (orig : Int → fileInfo) (fi : fileInfo) (t : Nat) : Prop where
  sortedRuns : ∀ j, j < t → runSorted orig j
  distinct : ∀ j p k q, j < t → inRun j p → k < t → inRun k q →
    (orig p).name = (orig q).name → p = q
  fresh : ∀ j p, j < t → inRun j p → (orig p).name ≠ fi.name

/-! ## Counting entries by runs -/

/-- Capacity of the populated runs among the runs `0 .. k - 1`. -/
def popCount (cola : Int → fileInfo) : Nat → Int
  | 0 => 0
  | k + 1 => popCount cola k + (if (cola ((2 : Int) ^ k - 1)).blockNum ≠ EMPTY then 2 ^ k else 0)

/-- Array after inserting `es 0, ..., es (n - 1)`, in this order, into the array
that `main` initialises. -/
def insertSeq (es : Nat → fileInfo) : Nat → (Int → fileInfo)
  | 0 => initState.COLA
  | n + 1 => (insert (es n) (insertSeq es n)).2

/-! ## Sample data -/

/-- Array with the single entry `b` in run 0. -/
def cola1 : Int → fileInfo := (insert ⟨0, [98], 7⟩ initState.COLA).2

/-- Three-byte name of `n`, its digits to base 64 written from the byte `0` on. -/
def sampleName (n : Nat) : List Nat := [n / 4096 + 48, n / 64 % 64 + 48, n % 64 + 48]

/-- Directory entry named `sampleName n`. -/
def sampleEntry (n : Nat) : fileInfo := ⟨0, sampleName n, DIR⟩

/-- State whose FAT has no free entry: every word `searchFAT` reads is `END`. -/
def fatFullState : State := ⟨initState.COLA, fun _ => END, initState.data⟩

/-- Write buffer of three 4096-byte blocks: `A`s, then `B`s, then `C`s. -/
def bytes3 : Int → Nat := fun i => if i < 4096 then 65 else if i < 8192 then 66 else 67

/-- State whose FAT entries `0 .. N - 1` are all `END` while the word after them,
at index `N`, is `EMPTY`. -/
def fatLastFreeState : State :=
  ⟨initState.COLA, fun k => if k = numOfFiles then EMPTY else END, initState.data⟩

/-! ## Chains and further sample states -/

/-- Block reached from `head` by following `k` links of the FAT. -/
def chainAt (FAT : Int → Int) (head : Int) (k : Nat) : Int := FAT^[k] head

/-- State with the single file `/a` of recorded size 10000 whose chain is
`0 -> 1 -> 2 -> END`; every data byte is `X`. -/
def bigState : State :=
  ⟨upd initState.COLA 0 ⟨10000, [97], 0⟩,
    fun k => if k = 0 then 1 else if k = 1 then 2 else if k = 2 then END else EMPTY,
    fun _ _ => 88⟩

/-- Three-byte write buffer `END`. -/
def bufEND : Int → Nat := fun i => if i = 0 then 69 else if i = 1 then 78 else 68

/-- State after `cfs_mknod /a` on the fresh backing file, in which the word in
front of the FAT (index -1) holds 7. -/
def wordBeforeState : State :=
  ⟨(cfs_mknod initState [47, 97]).2.COLA,
    fun k => if k = 0 then END else if k = -1 then 7 else EMPTY,
    initState.data⟩

/-- State with the single one-block file `/a` and no free FAT word: every word that
`searchFAT` reads is `END`. -/
def noFreeState : State :=
  ⟨(cfs_mknod initState [47, 97]).2.COLA, fun _ => END, initState.data⟩

/-- State of `merge` after `done` iterations on an array of which nothing is assumed:
each table is either retired with its run cleared or intact with its head inside the
run; `done` counts the consumed elements and `fi`; slots outside the runs `0 .. t`
are untouched; before the first iteration every head is at the start of its run, and
from then on the first slot of the target run holds `fi` or the first element of a
table. -/
structure MergeRuns (orig : Int → fileInfo) (fi : fileInfo) (t : Nat) (done : Int)
    (cola : Int → fileInfo) (heads : Nat → Int) (ins : Bool) : Prop where
  runs : ∀ j, j < t → (heads j = EMPTY ∧ runEmpty cola j) ∨
    (inRun j (heads j) ∧ ∀ p, inRun j p → cola p = orig p)
  count : consumedTotal heads t + (if ins = true ∨ done = 2 ^ t then 1 else 0) = done
  nonneg : 0 ≤ done
  frame : ∀ p, (p < 0 ∨ 2 ^ (t + 1) - 1 ≤ p) → cola p = orig p
  start : done = 0 → ∀ j, j < t → heads j = 2 ^ j - 1
  first : 0 < done →
    cola (2 ^ t - 1) = fi ∨ ∃ j, j < t ∧ cola (2 ^ t - 1) = orig (2 ^ j - 1)

/-- State whose COLA is full, slot `j` holding the directory entry `sampleName j`,
and whose FAT is free. -/
def fullColaState : State :=
  ⟨fun j => sampleEntry j.toNat, fun _ => EMPTY, fun _ _ => 0⟩

/-- State with the single one-block file `/a` (chain `0 -> END`) in which block 1 is
the only free block. -/
def oneFreeState : State :=
  ⟨(cfs_mknod initState [47, 97]).2.COLA, fun k => if k = 1 then EMPTY else END,
    initState.data⟩
/-! ## Arithmetic of `power` and order facts of `strcmp` -/

theorem powerAux_eq (n : Nat) : ∀ fuel, n ≤ fuel → powerAux 2 fuel n = (2 : Int) ^ n := by
  induction n using Nat.strong_induction_on with
  | _ n ih =>
    intro fuel hf
    cases fuel with
    | zero =>
      have : n = 0 := by omega
      subst this; simp [powerAux]
    | succ fuel =>
      unfold powerAux
      by_cases hn : n = 0
      · simp [hn]
      · have hlt : n / 2 < n := by omega
        have hle : n / 2 ≤ fuel := by omega
        rw [if_neg hn]
        simp only [ih (n / 2) hlt fuel hle]
        by_cases hpar : n % 2 = 0
        · rw [if_pos hpar, ← pow_add]
          congr 1; omega
        · rw [if_neg hpar, mul_assoc, ← pow_add, ← pow_succ']
          congr 1; omega

theorem power_two (n : Nat) : power 2 n = (2 : Int) ^ n := powerAux_eq n n (le_refl n)

theorem two_pow_pos (t : Nat) : (1 : Int) ≤ 2 ^ t := by
  have : (0 : Int) < 2 ^ t := by positivity
  omega

theorem two_pow_succ (t : Nat) : (2 : Int) ^ (t + 1) = 2 * 2 ^ t := by
  rw [pow_succ]; ring

theorem strcmp_self (a : List Nat) : strcmp a a = 0 := by
  induction a with
  | nil => rfl
  | cons x xs ih => simp [strcmp, ih]

theorem strcmp_eq_zero : ∀ (a b : List Nat), strcmp a b = 0 → a = b
  | [], [] => fun _ => rfl
  | [], _ :: _ => fun h => by simp [strcmp] at h
  | _ :: _, [] => fun h => by simp [strcmp] at h
  | x :: xs, y :: ys => fun h => by
    unfold strcmp at h
    by_cases hxy : x = y
    · rw [if_pos hxy] at h
      rw [hxy, strcmp_eq_zero xs ys h]
    · rw [if_neg hxy] at h
      omega

theorem strcmp_eq_zero_iff (a b : List Nat) : strcmp a b = 0 ↔ a = b :=
  ⟨strcmp_eq_zero a b, fun h => h ▸ strcmp_self a⟩

theorem strcmp_swap : ∀ (a b : List Nat), strcmp a b < 0 ↔ 0 < strcmp b a
  | [], [] => by simp [strcmp]
  | [], _ :: _ => by simp [strcmp]
  | _ :: _, [] => by simp [strcmp]
  | x :: xs, y :: ys => by
    unfold strcmp
    by_cases hxy : x = y
    · rw [if_pos hxy, if_pos hxy.symm]
      exact strcmp_swap xs ys
    · rw [if_neg hxy, if_neg (Ne.symm hxy)]
      omega

theorem strcmp_trans : ∀ (a b c : List Nat), strcmp a b < 0 → strcmp b c < 0 → strcmp a c < 0
  | [], [], _ => fun h _ => by simp [strcmp] at h
  | [], _ :: _, [] => fun _ h => by simp [strcmp] at h
  | [], _ :: _, _ :: _ => fun _ _ => by simp [strcmp]
  | _ :: _, [], _ => fun h _ => by simp [strcmp] at h
  | _ :: _, _ :: _, [] => fun _ h => by simp [strcmp] at h
  | x :: xs, y :: ys, z :: zs => fun h1 h2 => by
    unfold strcmp at h1 h2 ⊢
    by_cases hxy : x = y
    · rw [if_pos hxy] at h1
      by_cases hyz : y = z
      · rw [if_pos hyz] at h2
        rw [if_pos (hxy.trans hyz)]
        exact strcmp_trans xs ys zs h1 h2
      · rw [if_neg hyz] at h2
        rw [if_neg (by omega)]
        omega
    · rw [if_neg hxy] at h1
      by_cases hyz : y = z
      · rw [if_pos hyz] at h2
        rw [if_neg (by omega)]
        omega
      · rw [if_neg hyz] at h2
        rw [if_neg (by omega)]
        omega

theorem strcmp_le_trans (a b c : List Nat) (h1 : strcmp a b ≤ 0) (h2 : strcmp b c < 0) :
    strcmp a c < 0 := by
  rcases lt_or_eq_of_le h1 with h | h
  · exact strcmp_trans a b c h h2
  · rw [strcmp_eq_zero a b h]; exact h2

theorem strcmp_trans_le (a b c : List Nat) (h1 : strcmp a b < 0) (h2 : strcmp b c ≤ 0) :
    strcmp a c < 0 := by
  rcases lt_or_eq_of_le h2 with h | h
  · exact strcmp_trans a b c h1 h
  · rw [← strcmp_eq_zero b c h]; exact h1

theorem strcmp_le_le (a b c : List Nat) (h1 : strcmp a b ≤ 0) (h2 : strcmp b c ≤ 0) :
    strcmp a c ≤ 0 := by
  rcases lt_or_eq_of_le h1 with h | h
  · exact le_of_lt (strcmp_trans_le a b c h h2)
  · rw [strcmp_eq_zero a b h]; exact h2

theorem strcmp_ge_iff (a b : List Nat) : strcmp a b ≥ 0 ↔ strcmp b a ≤ 0 := by
  have h := strcmp_swap b a
  constructor
  · intro h1
    by_contra h2
    have : 0 < strcmp b a := by omega
    have := (strcmp_swap a b).2 this
    omega
  · intro h1
    by_contra h2
    have : strcmp a b < 0 := by omega
    have := (strcmp_swap a b).1 this
    omega


/-! ## Lookup: `binSearch` and `find` -/

theorem two_pow_le (t : Nat) (h : t ≤ 15) : (2 : Int) ^ t ≤ 32768 := by
  have h1 : (2 : Int) ^ t ≤ 2 ^ 15 := pow_le_pow_right₀ (by norm_num) h
  norm_num at h1
  exact h1

theorem two_pow_lt_of_lt (s t : Nat) (h : s < t) : (2 : Int) ^ (s + 1) ≤ 2 ^ t :=
  pow_le_pow_right₀ (by norm_num) h

theorem inRun_first (t : Nat) : inRun t ((2 : Int) ^ t - 1) := by
  have := two_pow_pos t
  have := two_pow_succ t
  unfold inRun
  omega

theorem inRun_bounds (t : Nat) (ht : t < 15) (j : Int) (h : inRun t j) :
    0 ≤ j ∧ j < numOfFiles := by
  have h1 := two_pow_pos t
  have h2 := two_pow_le (t + 1) (by omega)
  unfold inRun at h
  simp only [numOfFiles]
  omega

theorem inRun_disjoint (s t : Nat) (j : Int) (hs : inRun s j) (ht : inRun t j) : s = t := by
  unfold inRun at hs ht
  rcases Nat.lt_trichotomy s t with h | h | h
  · have := two_pow_lt_of_lt s t h
    omega
  · exact h
  · have := two_pow_lt_of_lt t s h
    omega

theorem exists_run (j : Int) (h0 : 0 ≤ j) : ∀ n : Nat, j < 2 ^ n - 1 → ∃ t, t < n ∧ inRun t j := by
  intro n
  induction n with
  | zero => intro h; simp at h; omega
  | succ n ih =>
    intro h
    by_cases hj : j < 2 ^ n - 1
    · obtain ⟨t, ht, hr⟩ := ih hj
      exact ⟨t, by omega, hr⟩
    · exact ⟨n, by omega, by unfold inRun; omega⟩

theorem exists_run_of_bounds (j : Int) (h0 : 0 ≤ j) (h1 : j < numOfFiles) :
    ∃ t, t < 15 ∧ inRun t j :=
  exists_run j h0 15 (by simp only [numOfFiles] at h1; norm_num; omega)

theorem populated_of_runFull (cola : Int → fileInfo) (t : Nat) (h : runFull cola t) :
    populated cola t := h _ (inRun_first t)

theorem runFull_of_populated (cola : Int → fileInfo) (hs : colaShape cola) (t : Nat)
    (ht : t < 15) (h : populated cola t) : runFull cola t := by
  rcases hs t ht with he | hf
  · exact absurd (he _ (inRun_first t)) h
  · exact hf

theorem binSearch_loop_spec (name : List Nat) (cola : Int → fileInfo) (f l : Int) (hf : 0 ≤ f)
    (hsorted : ∀ j k, f ≤ j → j < k → k ≤ l → strcmp (cola j).name (cola k).name < 0) :
    ∀ (n : Nat) (first last : Int), f ≤ first → last ≤ l → last - first + 1 ≤ n →
      (∀ j, f ≤ j → j < first → 0 < strcmp name (cola j).name) →
      (∀ j, last < j → j ≤ l → strcmp name (cola j).name < 0) →
      (binSearch_loop name cola n first last = EMPTY ∧
          ∀ j, f ≤ j → j ≤ l → (cola j).name ≠ name) ∨
      (f ≤ binSearch_loop name cola n first last ∧ binSearch_loop name cola n first last ≤ l ∧
          (cola (binSearch_loop name cola n first last)).name = name) := by
  have hnone : ∀ first last : Int, last < first →
      (∀ j, f ≤ j → j < first → 0 < strcmp name (cola j).name) →
      (∀ j, last < j → j ≤ l → strcmp name (cola j).name < 0) →
      ∀ j, f ≤ j → j ≤ l → (cola j).name ≠ name := by
    intro first last hlt hlo hhi j hj1 hj2 heq
    have hz : strcmp name (cola j).name = 0 := by rw [heq]; exact strcmp_self name
    by_cases hjf : j < first
    · have := hlo j hj1 hjf; omega
    · have := hhi j (by omega) hj2; omega
  intro n
  induction n with
  | zero =>
    intro first last _ _ hn hlo hhi
    left
    exact ⟨rfl, hnone first last (by omega) hlo hhi⟩
  | succ n ih =>
    intro first last hff hll hn hlo hhi
    unfold binSearch_loop
    by_cases hle : first ≤ last
    · rw [if_pos hle]
      have hmid : Int.tdiv (first + last) 2 = (first + last) / 2 :=
        Int.tdiv_eq_ediv (by omega) (by norm_num)
      simp only [hmid]
      have hm1 : first ≤ (first + last) / 2 := by omega
      have hm2 : (first + last) / 2 ≤ last := by omega
      by_cases hz : strcmp name (cola ((first + last) / 2)).name = 0
      · rw [if_pos hz]
        right
        exact ⟨by omega, by omega, (strcmp_eq_zero _ _ hz).symm⟩
      · rw [if_neg hz]
        by_cases hneg : strcmp name (cola ((first + last) / 2)).name < 0
        · rw [if_pos hneg]
          apply ih first ((first + last) / 2 - 1) hff (by omega) (by omega) hlo
          intro j hj1 hj2
          by_cases hjm : j = (first + last) / 2
          · rw [hjm]; exact hneg
          · exact strcmp_trans _ _ _ hneg (hsorted _ j (by omega) (by omega) hj2)
        · rw [if_neg hneg]
          have hpos : 0 < strcmp name (cola ((first + last) / 2)).name := by omega
          apply ih ((first + last) / 2 + 1) last (by omega) hll (by omega) _ hhi
          intro j hj1 hj2
          by_cases hjm : j = (first + last) / 2
          · rw [hjm]; exact hpos
          · apply (strcmp_swap _ _).1
            exact strcmp_trans _ _ _ (hsorted j _ hj1 (by omega) (by omega))
              ((strcmp_swap _ _).2 hpos)
    · rw [if_neg hle]
      left
      exact ⟨rfl, hnone first last (by omega) hlo hhi⟩

theorem binSearch_run (name : List Nat) (cola : Int → fileInfo) (t : Nat)
    (hsorted : runSorted cola t) :
    (binSearch name cola (2 ^ t - 1) (2 * (2 ^ t - 1)) = EMPTY ∧
        ∀ j, inRun t j → (cola j).name ≠ name) ∨
    (inRun t (binSearch name cola (2 ^ t - 1) (2 * (2 ^ t - 1))) ∧
        (cola (binSearch name cola (2 ^ t - 1) (2 * (2 ^ t - 1)))).name = name) := by
  have hp := two_pow_pos t
  have hs := two_pow_succ t
  have h := binSearch_loop_spec name cola (2 ^ t - 1) (2 * (2 ^ t - 1)) (by omega)
    (fun j k hj hjk hk => hsorted j k (by unfold inRun; omega) (by unfold inRun; omega) hjk)
    (2 * ((2 : Int) ^ t - 1) - (2 ^ t - 1) + 1).toNat (2 ^ t - 1) (2 * (2 ^ t - 1)) (le_refl _)
    (le_refl _) (by omega) (fun j h1 h2 => by omega) (fun j h1 h2 => by omega)
  unfold binSearch
  rcases h with ⟨h1, h2⟩ | ⟨h1, h2, h3⟩
  · left
    exact ⟨h1, fun j hj => h2 j (by unfold inRun at hj; omega) (by unfold inRun at hj; omega)⟩
  · right
    exact ⟨by unfold inRun; omega, h3⟩

theorem find_loop_spec (name : List Nat) (cola : Int → fileInfo)
    (hsorted : ∀ t, t < 15 → populated cola t → runSorted cola t) :
    ∀ (n t : Nat), n + t = 15 →
      (find_loop name cola n (2 ^ t - 1) = EMPTY ∧
          ∀ s, t ≤ s → s < 15 → populated cola s → ∀ j, inRun s j → (cola j).name ≠ name) ∨
      (∃ s, t ≤ s ∧ s < 15 ∧ populated cola s ∧ inRun s (find_loop name cola n (2 ^ t - 1)) ∧
          (cola (find_loop name cola n (2 ^ t - 1))).name = name) := by
  intro n
  induction n with
  | zero =>
    intro t ht
    left
    exact ⟨rfl, fun s h1 h2 => by omega⟩
  | succ n ih =>
    intro t ht
    have hp := two_pow_pos t
    have hs := two_pow_succ t
    have hle := two_pow_le (t + 1) (by omega)
    have hnext : 2 * ((2 : Int) ^ t - 1) + 1 = 2 ^ (t + 1) - 1 := by omega
    unfold find_loop
    rw [if_pos (by simp only [numOfFiles]; omega), hnext]
    have hrest := ih (t + 1) (by omega)
    by_cases hpop : (cola (2 ^ t - 1)).blockNum ≠ EMPTY
    · rw [if_pos hpop]
      rcases binSearch_run name cola t (hsorted t (by omega) hpop) with ⟨h1, h2⟩ | ⟨h1, h2⟩
      · simp only [h1, ne_eq, not_true_eq_false, if_false]
        rcases hrest with ⟨h3, h4⟩ | ⟨s, h3, h4, h5, h6⟩
        · left
          refine ⟨h3, fun s hs1 hs2 hs3 => ?_⟩
          by_cases hst : s = t
          · subst hst; exact h2
          · exact h4 s (by omega) hs2 hs3
        · right
          exact ⟨s, by omega, h4, h5, h6⟩
      · have hne : binSearch name cola (2 ^ t - 1) (2 * (2 ^ t - 1)) ≠ EMPTY := by
          unfold inRun at h1
          simp only [EMPTY]
          omega
        simp only [hne, ne_eq, not_false_eq_true, if_true]
        right
        exact ⟨t, le_refl _, by omega, hpop, h1, h2⟩
    · rw [if_neg hpop]
      rcases hrest with ⟨h3, h4⟩ | ⟨s, h3, h4, h5, h6⟩
      · left
        refine ⟨h3, fun s hs1 hs2 hs3 => ?_⟩
        by_cases hst : s = t
        · subst hst; exact absurd hs3 hpop
        · exact h4 s (by omega) hs2 hs3
      · right
        exact ⟨s, by omega, h4, h5, h6⟩

theorem find_spec (name : List Nat) (cola : Int → fileInfo) (hinv : colaInv cola) :
    (find name cola = EMPTY ∧
        ∀ s, s < 15 → populated cola s → ∀ j, inRun s j → (cola j).name ≠ name) ∨
    (∃ s, s < 15 ∧ populated cola s ∧ inRun s (find name cola) ∧
        (cola (find name cola)).name = name) := by
  have h := find_loop_spec name cola
    (fun t ht hp => hinv.2.1 t ht (runFull_of_populated cola hinv.1 t ht hp)) 15 0 (by omega)
  simp only [pow_zero, sub_self] at h
  unfold find
  rcases h with ⟨h1, h2⟩ | ⟨s, _, h2, h3, h4⟩
  · left
    exact ⟨h1, fun s hs => h2 s (Nat.zero_le s) hs⟩
  · right
    exact ⟨s, h2, h3, h4⟩

/-! ## One step of the merge: `findMin` -/

theorem findMin_first_none (heads : Nat → Int) :
    ∀ (n i : Nat), findMin_first heads n i = none → ∀ j, i ≤ j → j < i + n → heads j = EMPTY := by
  intro n
  induction n with
  | zero => intro i _ j h1 h2; omega
  | succ n ih =>
    intro i h j h1 h2
    unfold findMin_first at h
    by_cases hi : heads i ≠ EMPTY
    · rw [if_pos hi] at h; cases h
    · rw [if_neg hi] at h
      by_cases hji : j = i
      · subst hji; exact not_not.1 hi
      · exact ih (i + 1) h j (by omega) (by omega)

theorem findMin_first_some (heads : Nat → Int) :
    ∀ (n i m : Nat), findMin_first heads n i = some m →
      i ≤ m ∧ m < i + n ∧ heads m ≠ EMPTY ∧ ∀ j, i ≤ j → j < m → heads j = EMPTY := by
  intro n
  induction n with
  | zero => intro i m h; simp [findMin_first] at h
  | succ n ih =>
    intro i m h
    unfold findMin_first at h
    by_cases hi : heads i ≠ EMPTY
    · rw [if_pos hi] at h
      cases h
      exact ⟨le_refl _, by omega, hi, fun j h1 h2 => by omega⟩
    · rw [if_neg hi] at h
      obtain ⟨h1, h2, h3, h4⟩ := ih (i + 1) m h
      refine ⟨by omega, by omega, h3, fun j hj1 hj2 => ?_⟩
      by_cases hji : j = i
      · subst hji; exact not_not.1 hi
      · exact h4 j (by omega) hj2

theorem findMin_scan_spec (cola : Int → fileInfo) (heads : Nat → Int) (lo : Nat) :
    ∀ (n i : Nat) (min : fileInfo) (mi : Nat),
      lo ≤ mi → mi < i → heads mi ≠ EMPTY → min = cola (heads mi) →
      (∀ j, lo ≤ j → j < i → heads j ≠ EMPTY → strcmp min.name (cola (heads j)).name ≤ 0) →
      lo ≤ (findMin_scan cola heads n i min mi).2 ∧
      (findMin_scan cola heads n i min mi).2 < i + n ∧
      heads (findMin_scan cola heads n i min mi).2 ≠ EMPTY ∧
      (findMin_scan cola heads n i min mi).1 =
        cola (heads (findMin_scan cola heads n i min mi).2) ∧
      ∀ j, lo ≤ j → j < i + n → heads j ≠ EMPTY →
        strcmp (findMin_scan cola heads n i min mi).1.name (cola (heads j)).name ≤ 0 := by
  intro n
  induction n with
  | zero =>
    intro i min mi h1 h2 h3 h4 h5
    exact ⟨h1, by simpa [findMin_scan] using h2, h3, h4, fun j hj1 hj2 hj3 => h5 j hj1 (by omega) hj3⟩
  | succ n ih =>
    intro i min mi h1 h2 h3 h4 h5
    unfold findMin_scan
    by_cases hc : heads i ≠ EMPTY ∧ strcmp min.name (cola (heads i)).name ≥ 0
    · rw [if_pos hc]
      have hnew : ∀ j, lo ≤ j → j < i + 1 → heads j ≠ EMPTY →
          strcmp (cola (heads i)).name (cola (heads j)).name ≤ 0 := by
        intro j hj1 hj2 hj3
        by_cases hji : j = i
        · subst hji; rw [strcmp_self]
        · exact strcmp_le_le _ _ _ ((strcmp_ge_iff _ _).1 hc.2) (h5 j hj1 (by omega) hj3)
      obtain ⟨r1, r2, r3, r4, r5⟩ := ih (i + 1) (cola (heads i)) i (by omega) (by omega) hc.1 rfl hnew
      exact ⟨r1, by omega, r3, r4, fun j hj1 hj2 hj3 => r5 j hj1 (by omega) hj3⟩
    · rw [if_neg hc]
      have hnew : ∀ j, lo ≤ j → j < i + 1 → heads j ≠ EMPTY →
          strcmp min.name (cola (heads j)).name ≤ 0 := by
        intro j hj1 hj2 hj3
        by_cases hji : j = i
        · subst hji
          by_contra hgt
          exact hc ⟨hj3, by omega⟩
        · exact h5 j hj1 (by omega) hj3
      obtain ⟨r1, r2, r3, r4, r5⟩ := ih (i + 1) min mi h1 (by omega) h3 h4 hnew
      exact ⟨r1, by omega, r3, r4, fun j hj1 hj2 hj3 => r5 j hj1 (by omega) hj3⟩

/-- The three ways a `findMin` call ends: nothing left but `fi`; `fi` goes first;
the least head `m` is returned and consumed. -/
theorem findMin_cases (cola : Int → fileInfo) (heads : Nat → Int) (fi : fileInfo)
    (ins : Bool) (t : Nat) :
    ((∀ j, j < t → heads j = EMPTY) ∧ findMin cola heads fi ins t = ⟨fi, cola, heads, ins⟩) ∨
    (∃ m, m < t ∧ heads m ≠ EMPTY ∧
      (∀ j, j < t → heads j ≠ EMPTY →
        strcmp (cola (heads m)).name (cola (heads j)).name ≤ 0) ∧
      ((ins = false ∧ strcmp fi.name (cola (heads m)).name ≤ 0 ∧
          findMin cola heads fi ins t = ⟨fi, cola, heads, true⟩) ∨
       ((ins = true ∨ 0 < strcmp fi.name (cola (heads m)).name) ∧
          findMin cola heads fi ins t =
            ⟨cola (heads m), (advance cola heads m).1, (advance cola heads m).2, ins⟩))) := by
  unfold findMin
  cases hfirst : findMin_first heads t 0 with
  | none =>
    left
    exact ⟨fun j hj => findMin_first_none heads t 0 hfirst j (Nat.zero_le j) (by omega), rfl⟩
  | some m0 =>
    right
    obtain ⟨_, f2, f3, f4⟩ := findMin_first_some heads t 0 m0 hfirst
    have hinit : ∀ j, 0 ≤ j → j < m0 + 1 → heads j ≠ EMPTY →
        strcmp (cola (heads m0)).name (cola (heads j)).name ≤ 0 := by
      intro j _ hj2 hj3
      by_cases hjm : j = m0
      · subst hjm; rw [strcmp_self]
      · exact absurd (f4 j (Nat.zero_le j) (by omega)) hj3
    obtain ⟨_, r2, r3, r4, r5⟩ := findMin_scan_spec cola heads 0 (t - (m0 + 1)) (m0 + 1)
      (cola (heads m0)) m0 (Nat.zero_le _) (by omega) f3 rfl hinit
    refine ⟨(findMin_scan cola heads (t - (m0 + 1)) (m0 + 1) (cola (heads m0)) m0).2,
      by omega, r3, ?_, ?_⟩
    · intro j hj1 hj2
      rw [← r4]
      exact r5 j (Nat.zero_le j) (by omega) hj2
    · simp only []
      cases ins with
      | true =>
        right
        simp only [if_true]
        exact ⟨Or.inl trivial, by rw [← r4]⟩
      | false =>
        simp only [Bool.false_eq_true, if_false]
        by_cases hfi : strcmp fi.name
            (findMin_scan cola heads (t - (m0 + 1)) (m0 + 1) (cola (heads m0)) m0).1.name ≤ 0
        · left
          rw [if_pos hfi]
          exact ⟨trivial, by rw [← r4]; exact hfi, rfl⟩
        · right
          rw [if_neg hfi]
          exact ⟨Or.inr (by rw [← r4]; omega), by rw [← r4]⟩

/-! ## Counting the consumed elements -/

theorem consumedTotal_congr (h1 h2 : Nat → Int) :
    ∀ t, (∀ j, j < t → h1 j = h2 j) → consumedTotal h1 t = consumedTotal h2 t := by
  intro t
  induction t with
  | zero => intro _; rfl
  | succ t ih =>
    intro h
    unfold consumedTotal
    rw [ih (fun j hj => h j (by omega))]
    unfold consumed
    rw [h t (by omega)]

theorem consumedTotal_step (h1 h2 : Nat → Int) (m : Nat)
    (hother : ∀ j, j ≠ m → h2 j = h1 j) (hm : consumed h2 m = consumed h1 m + 1) :
    ∀ t, m < t → consumedTotal h2 t = consumedTotal h1 t + 1 := by
  intro t
  induction t with
  | zero => intro h; omega
  | succ t ih =>
    intro h
    unfold consumedTotal
    by_cases hmt : m = t
    · subst hmt
      rw [consumedTotal_congr h2 h1 m (fun j hj => hother j (by omega)), hm]
      omega
    · rw [ih (by omega)]
      have : consumed h2 t = consumed h1 t := by
        unfold consumed
        rw [hother t (Ne.symm hmt)]
      omega

theorem consumedTotal_le (heads : Nat → Int) :
    ∀ t, (∀ j, j < t → consumed heads j ≤ 2 ^ j) → consumedTotal heads t ≤ 2 ^ t - 1 := by
  intro t
  induction t with
  | zero => intro _; simp [consumedTotal]
  | succ t ih =>
    intro h
    unfold consumedTotal
    have h1 := ih (fun j hj => h j (by omega))
    have h2 := h t (by omega)
    have h3 := two_pow_succ t
    omega

theorem consumedTotal_lt (heads : Nat → Int) (m : Nat) (hm : consumed heads m < 2 ^ m) :
    ∀ t, m < t → (∀ j, j < t → consumed heads j ≤ 2 ^ j) →
      consumedTotal heads t < 2 ^ t - 1 := by
  intro t
  induction t with
  | zero => intro h; omega
  | succ t ih =>
    intro hmt h
    unfold consumedTotal
    have h3 := two_pow_succ t
    have h2 := h t (by omega)
    by_cases hmt2 : m = t
    · subst hmt2
      have h1 := consumedTotal_le heads m (fun j hj => h j (by omega))
      omega
    · have h1 := ih (by omega) (fun j hj => h j (by omega))
      omega

theorem consumedTotal_all (heads : Nat → Int) :
    ∀ t, (∀ j, j < t → heads j = EMPTY) → consumedTotal heads t = 2 ^ t - 1 := by
  intro t
  induction t with
  | zero => intro _; simp [consumedTotal]
  | succ t ih =>
    intro h
    unfold consumedTotal
    rw [ih (fun j hj => h j (by omega))]
    have h3 := two_pow_succ t
    unfold consumed
    rw [if_pos (h t (by omega))]
    omega

theorem consumedTotal_init : ∀ t, consumedTotal (fun j => power 2 j - 1) t = 0 := by
  intro t
  induction t with
  | zero => rfl
  | succ t ih =>
    unfold consumedTotal
    rw [ih]
    unfold consumed
    have hp := two_pow_pos t
    simp only [power_two]
    rw [if_neg (by simp only [EMPTY]; omega)]
    omega

theorem consumed_bounds (orig cola : Int → fileInfo) (heads : Nat → Int) (j : Nat)
    (h : (heads j = EMPTY ∧ runEmpty cola j) ∨
      (inRun j (heads j) ∧ ∀ p, inRun j p → cola p = orig p)) :
    consumed heads j ≤ 2 ^ j ∧ (heads j ≠ EMPTY → consumed heads j < 2 ^ j) ∧
      (heads j ≠ EMPTY → inRun j (heads j)) := by
  have hp := two_pow_pos j
  have hs := two_pow_succ j
  unfold consumed
  rcases h with ⟨h1, _⟩ | ⟨h1, _⟩
  · rw [if_pos h1]
    exact ⟨le_refl _, fun h => absurd h1 h, fun h => absurd h1 h⟩
  · have hne : heads j ≠ EMPTY := by
      unfold inRun at h1
      simp only [EMPTY]
      omega
    rw [if_neg hne]
    unfold inRun at h1
    exact ⟨by omega, fun _ => by omega, fun _ => by unfold inRun; omega⟩

theorem clearRun_out (cola : Int → fileInfo) (m : Nat) (p : Int) (h : ¬ inRun m p) :
    clearRun cola m p = cola p := by
  have hs := two_pow_succ m
  unfold inRun at h
  show (if power 2 m - 1 ≤ p ∧ p < 2 * power 2 m - 1 then _ else cola p) = cola p
  rw [power_two, if_neg (by omega)]

theorem clearRun_in (cola : Int → fileInfo) (m : Nat) (p : Int) (h : inRun m p) :
    (clearRun cola m p).blockNum = EMPTY := by
  have hs := two_pow_succ m
  unfold inRun at h
  show (if power 2 m - 1 ≤ p ∧ p < 2 * power 2 m - 1 then
    ({ cola p with blockNum := EMPTY } : fileInfo) else cola p).blockNum = EMPTY
  rw [power_two, if_pos (by omega)]

/-- What consuming the head of table `m` does to the heads and to the array. -/
theorem advance_spec (cola : Int → fileInfo) (heads : Nat → Int) (m : Nat)
    (hin : inRun m (heads m)) :
    (∀ j, j ≠ m → (advance cola heads m).2 j = heads j) ∧
    consumed (advance cola heads m).2 m = consumed heads m + 1 ∧
    (∀ p, ¬ inRun m p → (advance cola heads m).1 p = cola p) ∧
    (((advance cola heads m).2 m = EMPTY ∧ runEmpty (advance cola heads m).1 m) ∨
      ((advance cola heads m).2 m = heads m + 1 ∧ inRun m (heads m + 1) ∧
        (advance cola heads m).1 = cola)) := by
  have hp := two_pow_pos m
  have hs := two_pow_succ m
  have hne : heads m ≠ EMPTY := by
    unfold inRun at hin
    simp only [EMPTY]
    omega
  unfold advance
  rw [power_two]
  by_cases hlast : heads m + 2 = 2 ^ (m + 1)
  · rw [if_pos hlast]
    refine ⟨fun j hj => by simp [updHead, hj], ?_, ?_, ?_⟩
    · unfold consumed
      simp only [updHead, if_true]
      rw [if_neg hne]
      omega
    · exact fun p hp2 => clearRun_out cola m p hp2
    · left
      exact ⟨by simp [updHead], fun p hp2 => clearRun_in cola m p hp2⟩
  · rw [if_neg hlast]
    unfold inRun at hin
    refine ⟨fun j hj => by simp [updHead, hj], ?_, fun p _ => rfl, ?_⟩
    · unfold consumed
      simp only [updHead, if_true]
      rw [if_neg hne, if_neg (by simp only [EMPTY]; omega)]
      omega
    · right
      exact ⟨by simp [updHead], by unfold inRun; omega, rfl⟩

/-! ## The merge loop keeps its bookkeeping -/

theorem upd_ne {α : Type} (a : Int → α) (i j : Int) (v : α) (h : j ≠ i) : upd a i v j = a j := by
  simp [upd, h]

theorem upd_eq {α : Type} (a : Int → α) (i : Int) (v : α) : upd a i v i = v := by
  simp [upd]

theorem lowRun_lt (j t : Nat) (hj : j < t) (p : Int) (hp : inRun j p) :
    0 ≤ p ∧ p < 2 ^ t - 1 := by
  have h1 := two_pow_pos j
  have h2 := two_pow_lt_of_lt j t hj
  unfold inRun at hp
  omega

theorem mergeInv_heads (orig cola : Int → fileInfo) (t : Nat) (done : Int) (heads : Nat → Int)
    (ins : Bool) (inv : MergeInv orig t done cola heads ins) :
    (∀ j, j < t → consumed heads j ≤ 2 ^ j) ∧
    (∀ j, j < t → heads j ≠ EMPTY → consumed heads j < 2 ^ j) ∧
    (∀ j, j < t → heads j ≠ EMPTY → inRun j (heads j) ∧ ∀ p, inRun j p → cola p = orig p) := by
  refine ⟨fun j hj => (consumed_bounds orig cola heads j (inv.runs j hj)).1,
    fun j hj => (consumed_bounds orig cola heads j (inv.runs j hj)).2.1, fun j hj hne => ?_⟩
  rcases inv.runs j hj with ⟨h1, _⟩ | h1
  · exact absurd h1 hne
  · exact h1

theorem mergeInv_step (orig : Int → fileInfo) (fi : fileInfo) (t : Nat) (done : Int)
    (cola : Int → fileInfo) (heads : Nat → Int) (ins : Bool)
    (hfull : ∀ j, j < t → runFull orig j) (hfi : fi.blockNum ≠ EMPTY)
    (inv : MergeInv orig t done cola heads ins) (hd : done < 2 ^ t) :
    MergeInv orig t (done + 1)
      (upd (findMin cola heads fi ins t).cola (2 ^ t - 1 + done) (findMin cola heads fi ins t).min)
      (findMin cola heads fi ins t).heads (findMin cola heads fi ins t).fiInserted := by
  have hpt := two_pow_pos t
  have hst := two_pow_succ t
  have hnn := inv.nonneg
  obtain ⟨hb1, hb2, hb3⟩ := mergeInv_heads orig cola t done heads ins inv
  have hlow : ∀ j, j < t → ∀ p, inRun j p → p ≠ 2 ^ t - 1 + done := by
    intro j hj p hp
    have := lowRun_lt j t hj p hp
    omega
  -- storing the output keeps the tables `0 .. t - 1` as they are
  have hkeep : ∀ (c : Int → fileInfo) (v : fileInfo) (h : Nat → Int),
      (∀ j, j < t → (h j = EMPTY ∧ runEmpty c j) ∨
        (inRun j (h j) ∧ ∀ p, inRun j p → c p = orig p)) →
      ∀ j, j < t → (h j = EMPTY ∧ runEmpty (upd c (2 ^ t - 1 + done) v) j) ∨
        (inRun j (h j) ∧ ∀ p, inRun j p → upd c (2 ^ t - 1 + done) v p = orig p) := by
    intro c v h hr j hj
    rcases hr j hj with ⟨h1, h2⟩ | ⟨h1, h2⟩
    · left
      exact ⟨h1, fun p hp => by rw [upd_ne _ _ _ _ (hlow j hj p hp)]; exact h2 p hp⟩
    · right
      exact ⟨h1, fun p hp => by rw [upd_ne _ _ _ _ (hlow j hj p hp)]; exact h2 p hp⟩
  have hframe : ∀ (c : Int → fileInfo) (v : fileInfo),
      (∀ p, (p < 0 ∨ 2 ^ (t + 1) - 1 ≤ p) → c p = orig p) →
      ∀ p, (p < 0 ∨ 2 ^ (t + 1) - 1 ≤ p) → upd c (2 ^ t - 1 + done) v p = orig p := by
    intro c v hc p hp
    rw [upd_ne _ _ _ _ (by omega)]
    exact hc p hp
  have hout : ∀ (c : Int → fileInfo) (v : fileInfo), v.blockNum ≠ EMPTY →
      (∀ q, 2 ^ t - 1 ≤ q → q < 2 ^ t - 1 + done → (c q).blockNum ≠ EMPTY) →
      ∀ q, 2 ^ t - 1 ≤ q → q < 2 ^ t - 1 + (done + 1) →
        (upd c (2 ^ t - 1 + done) v q).blockNum ≠ EMPTY := by
    intro c v hv hc q hq1 hq2
    by_cases hq : q = 2 ^ t - 1 + done
    · rw [hq, upd_eq]; exact hv
    · rw [upd_ne _ _ _ _ hq]
      exact hc q hq1 (by omega)
  rcases findMin_cases cola heads fi ins t with ⟨hall, hres⟩ | ⟨m, hm, hmne, _, hcase⟩
  · -- only `fi` is left
    rw [hres]
    dsimp only
    have hcnt := consumedTotal_all heads t hall
    have hc := inv.count
    have hflag : ¬ (ins = true ∨ done = 2 ^ t) := by
      intro hf
      rw [if_pos hf] at hc
      omega
    rw [if_neg hflag] at hc
    exact {
      runs := hkeep cola fi heads inv.runs
      count := by rw [if_pos (Or.inr (by omega))]; omega
      nonneg := by omega
      frame := hframe cola fi inv.frame
      outPop := hout cola fi hfi inv.outPop }
  · have hc := inv.count
    rcases hcase with ⟨hins, _, hres⟩ | ⟨hwhy, hres⟩
    · -- `fi` goes out before the least head
      rw [hres]
      dsimp only
      have hflag : ¬ (ins = true ∨ done = 2 ^ t) := by
        intro hf
        rcases hf with hf | hf
        · rw [hins] at hf; cases hf
        · omega
      rw [if_neg hflag] at hc
      exact {
        runs := hkeep cola fi heads inv.runs
        count := by rw [if_pos (Or.inl rfl)]; omega
        nonneg := by omega
        frame := hframe cola fi inv.frame
        outPop := hout cola fi hfi inv.outPop }
    · -- the least head goes out and is consumed
      rw [hres]
      dsimp only
      obtain ⟨hin, hintact⟩ := hb3 m hm hmne
      obtain ⟨a1, a2, a3, a4⟩ := advance_spec cola heads m hin
      have hcnt := consumedTotal_step heads (advance cola heads m).2 m a1 a2 t hm
      have hlt := consumedTotal_lt heads m (hb2 m hm hmne) t hm hb1
      have hruns : ∀ j, j < t →
          ((advance cola heads m).2 j = EMPTY ∧ runEmpty (advance cola heads m).1 j) ∨
          (inRun j ((advance cola heads m).2 j) ∧
            ∀ p, inRun j p → (advance cola heads m).1 p = orig p) := by
        intro j hj
        by_cases hjm : j = m
        · subst hjm
          rcases a4 with ⟨h1, h2⟩ | ⟨h1, h2, h3⟩
          · exact Or.inl ⟨h1, h2⟩
          · right
            rw [h1, h3]
            exact ⟨h2, hintact⟩
        · have hsame : ∀ p, inRun j p → (advance cola heads m).1 p = cola p :=
            fun p hp => a3 p (fun hmp => hjm (inRun_disjoint j m p hp hmp))
          rw [a1 j hjm]
          rcases inv.runs j hj with ⟨h1, h2⟩ | ⟨h1, h2⟩
          · exact Or.inl ⟨h1, fun p hp => by rw [hsame p hp]; exact h2 p hp⟩
          · exact Or.inr ⟨h1, fun p hp => by rw [hsame p hp]; exact h2 p hp⟩
      have hnotin : ∀ p, (p < 0 ∨ 2 ^ t - 1 ≤ p) → ¬ inRun m p := by
        intro p hp hmp
        have := lowRun_lt m t hm p hmp
        omega
      exact {
        runs := hkeep _ _ _ hruns
        count := by
          rw [hcnt]
          by_cases hf : ins = true ∨ done = 2 ^ t
          · rw [if_pos hf] at hc
            rcases hf with hf | hf
            · rw [if_pos (Or.inl hf)]; omega
            · omega
          · rw [if_neg hf] at hc
            rw [if_neg (by
              intro hf2
              rcases hf2 with hf2 | hf2
              · exact hf (Or.inl hf2)
              · omega)]
            omega
        nonneg := by omega
        frame := hframe _ _ (fun p hp => by
          rw [a3 p (hnotin p (by omega))]
          exact inv.frame p hp)
        outPop := hout _ _ (by rw [hintact _ hin]; exact hfull m hm _ hin) (fun q hq1 hq2 => by
          rw [a3 q (hnotin q (Or.inr hq1))]
          exact inv.outPop q hq1 hq2) }

/-! ## The merge loop keeps its output sorted and complete -/

/-- Appending one element `v` to the written part of the target run. -/
theorem mergeOrd_push (orig : Int → fileInfo) (fi : fileInfo) (t : Nat) (done : Int)
    (cola c1 : Int → fileInfo) (heads heads1 : Nat → Int) (ins ins1 : Bool) (v : fileInfo)
    (hnn : 0 ≤ done)
    (ord : MergeOrd orig fi t done cola heads ins)
    (hc : ∀ q, 2 ^ t - 1 ≤ q → q < 2 ^ t - 1 + done → c1 q = cola q)
    (htaken : ∀ j p, j < t → inRun j p → taken heads j p → taken heads1 j p)
    (hflag : (ins = true ∨ done = 2 ^ t) → (ins1 = true ∨ done + 1 = 2 ^ t))
    (habove : ∀ q, 2 ^ t - 1 ≤ q → q < 2 ^ t - 1 + done → strcmp (cola q).name v.name < 0)
    (hbelow : ∀ j p, j < t → inRun j p → ¬ taken heads1 j p → strcmp v.name (orig p).name < 0)
    (hbelowFi : ¬ (ins1 = true ∨ done + 1 = 2 ^ t) → strcmp v.name fi.name < 0)
    (hsrc : (v = fi ∧ (ins1 = true ∨ done + 1 = 2 ^ t)) ∨
      ∃ j p, j < t ∧ inRun j p ∧ taken heads1 j p ∧ v = orig p)
    (hnewTaken : ∀ j p, j < t → inRun j p → taken heads1 j p → taken heads j p ∨ v = orig p)
    (hnewFlag : (ins1 = true ∨ done + 1 = 2 ^ t) → (ins = true ∨ done = 2 ^ t) ∨ v = fi) :
    MergeOrd orig fi t (done + 1) (upd c1 (2 ^ t - 1 + done) v) heads1 ins1 := by
  have hold : ∀ q, 2 ^ t - 1 ≤ q → q < 2 ^ t - 1 + done →
      upd c1 (2 ^ t - 1 + done) v q = cola q := by
    intro q h1 h2
    rw [upd_ne _ _ _ _ (by omega)]
    exact hc q h1 h2
  have hlast : upd c1 (2 ^ t - 1 + done) v (2 ^ t - 1 + done) = v := upd_eq _ _ _
  have hsplit : ∀ q, q < 2 ^ t - 1 + (done + 1) → q < 2 ^ t - 1 + done ∨ q = 2 ^ t - 1 + done := by
    intro q h; omega
  exact {
    sorted := by
      intro q1 q2 h1 h12 h2
      rcases hsplit q2 h2 with h | h
      · rw [hold q1 h1 (by omega), hold q2 (by omega) h]
        exact ord.sorted q1 q2 h1 h12 h
      · rw [h, hlast, hold q1 h1 (by omega)]
        exact habove q1 h1 (by omega)
    below := by
      intro q h1 h2 j p hj hp hnt
      rcases hsplit q h2 with h | h
      · rw [hold q h1 h]
        exact ord.below q h1 h j p hj hp (fun ht => hnt (htaken j p hj hp ht))
      · rw [h, hlast]
        exact hbelow j p hj hp hnt
    belowFi := by
      intro hnf q h1 h2
      rcases hsplit q h2 with h | h
      · rw [hold q h1 h]
        exact ord.belowFi (fun hf => hnf (hflag hf)) q h1 h
      · rw [h, hlast]
        exact hbelowFi hnf
    fromOrig := by
      intro q h1 h2
      rcases hsplit q h2 with h | h
      · rw [hold q h1 h]
        rcases ord.fromOrig q h1 h with ⟨e1, e2⟩ | ⟨j, p, e1, e2, e3, e4⟩
        · exact Or.inl ⟨e1, hflag e2⟩
        · exact Or.inr ⟨j, p, e1, e2, htaken j p e1 e2 e3, e4⟩
      · rw [h, hlast]
        exact hsrc
    toOut := by
      intro j p hj hp ht
      rcases hnewTaken j p hj hp ht with h | h
      · obtain ⟨q, e1, e2, e3⟩ := ord.toOut j p hj hp h
        exact ⟨q, e1, by omega, by rw [hold q e1 e2]; exact e3⟩
      · exact ⟨2 ^ t - 1 + done, by omega, by omega, by rw [hlast]; exact h⟩
    fiOut := by
      intro hf
      rcases hnewFlag hf with h | h
      · obtain ⟨q, e1, e2, e3⟩ := ord.fiOut h
        exact ⟨q, e1, by omega, by rw [hold q e1 e2]; exact e3⟩
      · exact ⟨2 ^ t - 1 + done, by omega, by omega, by rw [hlast]; exact h⟩ }

theorem advance_taken (cola : Int → fileInfo) (heads : Nat → Int) (m : Nat)
    (hin : inRun m (heads m)) (j : Nat) (p : Int) (hp : inRun j p) :
    taken (advance cola heads m).2 j p ↔ taken heads j p ∨ (j = m ∧ p = heads m) := by
  obtain ⟨a1, _, _, a4⟩ := advance_spec cola heads m hin
  have hne : heads m ≠ EMPTY := by
    unfold inRun at hin
    have := two_pow_pos m
    simp only [EMPTY]
    omega
  unfold taken
  by_cases hjm : j = m
  · subst hjm
    rcases a4 with ⟨h1, _⟩ | ⟨h1, h2, _⟩
    · -- the head was the last slot of the run
      have hlast : heads j + 2 = 2 ^ (j + 1) := by
        by_contra hcon
        unfold advance at h1
        rw [power_two, if_neg hcon] at h1
        simp only [updHead, if_true] at h1
        unfold inRun at hin
        have := two_pow_pos j
        simp only [EMPTY] at h1
        omega
      constructor
      · intro _
        unfold inRun at hp
        by_cases hlt : p < heads j
        · exact Or.inl (Or.inr hlt)
        · exact Or.inr ⟨rfl, by omega⟩
      · intro _; exact Or.inl h1
    · rw [h1]
      have hne2 : heads j + 1 ≠ EMPTY := by
        unfold inRun at h2
        have := two_pow_pos j
        simp only [EMPTY]
        omega
      constructor
      · intro h
        rcases h with h | h
        · exact absurd h hne2
        · by_cases hlt : p < heads j
          · exact Or.inl (Or.inr hlt)
          · exact Or.inr ⟨rfl, by omega⟩
      · intro h
        rcases h with (h | h) | ⟨_, h⟩
        · exact absurd h hne
        · exact Or.inr (by omega)
        · exact Or.inr (by omega)
  · rw [a1 j hjm]
    constructor
    · intro h; exact Or.inl h
    · intro h
      rcases h with h | ⟨h, _⟩
      · exact h
      · exact absurd h hjm

theorem mergeOrd_step (orig : Int → fileInfo) (fi : fileInfo) (t : Nat) (done : Int)
    (cola : Int → fileInfo) (heads : Nat → Int) (ins : Bool)
    (hyp : MergeHyp orig fi t)
    (inv : MergeInv orig t done cola heads ins)
    (ord : MergeOrd orig fi t done cola heads ins) (hd : done < 2 ^ t) :
    MergeOrd orig fi t (done + 1)
      (upd (findMin cola heads fi ins t).cola (2 ^ t - 1 + done) (findMin cola heads fi ins t).min)
      (findMin cola heads fi ins t).heads (findMin cola heads fi ins t).fiInserted := by
  have hnn := inv.nonneg
  obtain ⟨hb1, hb2, hb3⟩ := mergeInv_heads orig cola t done heads ins inv
  have hc := inv.count
  -- an element not yet consumed is not below the head of its table
  have hrest : ∀ j p, j < t → inRun j p → ¬ taken heads j p →
      heads j ≠ EMPTY ∧ strcmp (orig (heads j)).name (orig p).name ≤ 0 := by
    intro j p hj hp hnt
    unfold taken at hnt
    have hne : heads j ≠ EMPTY := fun h => hnt (Or.inl h)
    refine ⟨hne, ?_⟩
    by_cases hpe : p = heads j
    · rw [hpe, strcmp_self]
    · exact le_of_lt (hyp.sortedRuns j hj (heads j) p (hb3 j hj hne).1 hp
        (by have : ¬ p < heads j := fun h => hnt (Or.inr h); omega))
  rcases findMin_cases cola heads fi ins t with ⟨hall, hres⟩ | ⟨m, hm, hmne, hmin, hcase⟩
  · -- only `fi` is left
    rw [hres]
    dsimp only
    have hcnt := consumedTotal_all heads t hall
    have hflag : ¬ (ins = true ∨ done = 2 ^ t) := by
      intro hf
      rw [if_pos hf] at hc
      omega
    rw [if_neg hflag] at hc
    exact mergeOrd_push orig fi t done cola cola heads heads ins ins fi hnn ord
      (fun _ _ _ => rfl) (fun _ _ _ _ h => h) (fun hf => absurd hf hflag)
      (fun q h1 h2 => ord.belowFi hflag q h1 h2)
      (fun j p hj _ hnt => absurd (Or.inl (hall j hj)) hnt)
      (fun hnf => absurd (Or.inr (by omega)) hnf)
      (Or.inl ⟨rfl, Or.inr (by omega)⟩)
      (fun _ _ _ _ h => Or.inl h)
      (fun _ => Or.inr rfl)
  · rcases hcase with ⟨hins, hle, hres⟩ | ⟨hwhy, hres⟩
    · -- `fi` goes out before the least head
      rw [hres]
      dsimp only
      have hflag : ¬ (ins = true ∨ done = 2 ^ t) := by
        intro hf
        rcases hf with hf | hf
        · rw [hins] at hf; cases hf
        · omega
      exact mergeOrd_push orig fi t done cola cola heads heads ins true fi hnn ord
        (fun _ _ _ => rfl) (fun _ _ _ _ h => h) (fun _ => Or.inl rfl)
        (fun q h1 h2 => ord.belowFi hflag q h1 h2)
        (fun j p hj hp hnt => by
          obtain ⟨hne, hjp⟩ := hrest j p hj hp hnt
          have h1 := hmin j hj hne
          rw [(hb3 m hm hmne).2 _ (hb3 m hm hmne).1, (hb3 j hj hne).2 _ (hb3 j hj hne).1] at h1
          have h2 : strcmp fi.name (orig (heads m)).name ≤ 0 := by
            rw [← (hb3 m hm hmne).2 _ (hb3 m hm hmne).1]; exact hle
          have h3 := strcmp_le_le _ _ _ h2 (strcmp_le_le _ _ _ h1 hjp)
          rcases lt_or_eq_of_le h3 with h4 | h4
          · exact h4
          · exact absurd (strcmp_eq_zero _ _ h4).symm (hyp.fresh j p hj hp))
        (fun hnf => absurd (Or.inl rfl) hnf)
        (Or.inl ⟨rfl, Or.inl rfl⟩)
        (fun _ _ _ _ h => Or.inl h)
        (fun _ => Or.inr rfl)
    · -- the least head goes out and is consumed
      rw [hres]
      dsimp only
      obtain ⟨hin, hintact⟩ := hb3 m hm hmne
      obtain ⟨_, _, a3, _⟩ := advance_spec cola heads m hin
      have hlt := consumedTotal_lt heads m (hb2 m hm hmne) t hm hb1
      have hnotTaken : ¬ taken heads m (heads m) := by
        unfold taken
        intro h
        rcases h with h | h
        · exact hmne h
        · omega
      have hv : cola (heads m) = orig (heads m) := hintact _ hin
      rw [hv]
      exact mergeOrd_push orig fi t done cola _ heads _ ins ins (orig (heads m)) hnn ord
        (fun q h1 _ => a3 q (fun hmq => by
          have := lowRun_lt m t hm q hmq
          omega))
        (fun j p _ hp h => (advance_taken cola heads m hin j p hp).2 (Or.inl h))
        (fun hf => by
          rcases hf with hf | hf
          · exact Or.inl hf
          · omega)
        (fun q h1 h2 => ord.below q h1 h2 m (heads m) hm hin hnotTaken)
        (fun j p hj hp hnt => by
          have hnt1 : ¬ taken heads j p :=
            fun h => hnt ((advance_taken cola heads m hin j p hp).2 (Or.inl h))
          obtain ⟨hne, hjp⟩ := hrest j p hj hp hnt1
          have h1 := hmin j hj hne
          rw [hv, (hb3 j hj hne).2 _ (hb3 j hj hne).1] at h1
          have h3 := strcmp_le_le _ _ _ h1 hjp
          rcases lt_or_eq_of_le h3 with h4 | h4
          · exact h4
          · exfalso
            have hpe := hyp.distinct m (heads m) j p hm hin hj hp (strcmp_eq_zero _ _ h4)
            have hjm : j = m := inRun_disjoint j m p hp (hpe ▸ hin)
            exact hnt ((advance_taken cola heads m hin j p hp).2 (Or.inr ⟨hjm, hpe.symm⟩)))
        (fun hnf => by
          rcases hwhy with h | h
          · exact absurd (Or.inl h) hnf
          · rw [hv] at h
            exact (strcmp_swap _ _).2 h)
        (Or.inr ⟨m, heads m, hm, hin,
          (advance_taken cola heads m hin m (heads m) hin).2 (Or.inr ⟨rfl, rfl⟩), rfl⟩)
        (fun j p _ hp h => by
          rcases (advance_taken cola heads m hin j p hp).1 h with h1 | ⟨_, h2⟩
          · exact Or.inl h1
          · exact Or.inr (by rw [h2]))
        (fun hf => by
          rcases hf with hf | hf
          · exact Or.inl (Or.inl hf)
          · by_cases hi : ins = true
            · exact Or.inl (Or.inl hi)
            · exfalso
              rw [if_neg (by
                intro h
                rcases h with h | h
                · exact hi h
                · omega)] at hc
              omega)

/-! ## What `merge` and `insert` leave behind -/

theorem merge_loop_inv (orig : Int → fileInfo) (fi : fileInfo) (t : Nat)
    (hfull : ∀ j, j < t → runFull orig j) (hfi : fi.blockNum ≠ EMPTY) :
    ∀ (n : Nat) (done : Int) (cola : Int → fileInfo) (heads : Nat → Int) (ins : Bool),
      MergeInv orig t done cola heads ins → done + n = 2 ^ t →
      ∃ heads1 ins1,
        MergeInv orig t (2 ^ t) (merge_loop (2 ^ t - 1) t fi n done cola heads ins) heads1 ins1 := by
  intro n
  induction n with
  | zero =>
    intro done cola heads ins inv hn
    have hd : done = 2 ^ t := by simpa using hn
    subst hd
    exact ⟨heads, ins, inv⟩
  | succ n ih =>
    intro done cola heads ins inv hn
    unfold merge_loop
    exact ih (done + 1) _ _ _
      (mergeInv_step orig fi t done cola heads ins hfull hfi inv (by push_cast at hn; omega))
      (by push_cast at hn; omega)

theorem merge_loop_ord (orig : Int → fileInfo) (fi : fileInfo) (t : Nat)
    (hfull : ∀ j, j < t → runFull orig j) (hfi : fi.blockNum ≠ EMPTY)
    (hyp : MergeHyp orig fi t) :
    ∀ (n : Nat) (done : Int) (cola : Int → fileInfo) (heads : Nat → Int) (ins : Bool),
      MergeInv orig t done cola heads ins → MergeOrd orig fi t done cola heads ins →
      done + n = 2 ^ t →
      ∃ heads1 ins1,
        MergeInv orig t (2 ^ t) (merge_loop (2 ^ t - 1) t fi n done cola heads ins) heads1 ins1 ∧
        MergeOrd orig fi t (2 ^ t) (merge_loop (2 ^ t - 1) t fi n done cola heads ins)
          heads1 ins1 := by
  intro n
  induction n with
  | zero =>
    intro done cola heads ins inv ord hn
    have hd : done = 2 ^ t := by simpa using hn
    subst hd
    exact ⟨heads, ins, inv, ord⟩
  | succ n ih =>
    intro done cola heads ins inv ord hn
    unfold merge_loop
    exact ih (done + 1) _ _ _
      (mergeInv_step orig fi t done cola heads ins hfull hfi inv (by push_cast at hn; omega))
      (mergeOrd_step orig fi t done cola heads ins hyp inv ord (by push_cast at hn; omega))
      (by push_cast at hn; omega)

theorem mergeInv_init (cola : Int → fileInfo) (t : Nat) :
    MergeInv cola t 0 cola (fun j => power 2 j - 1) false := by
  have hpt := two_pow_pos t
  exact {
    runs := fun j _ => Or.inr ⟨by simp only [power_two]; exact inRun_first j, fun _ _ => rfl⟩
    count := by
      rw [consumedTotal_init, if_neg (by
        intro h
        rcases h with h | h
        · cases h
        · omega)]
      rfl
    nonneg := le_refl _
    frame := fun _ _ => rfl
    outPop := fun q h1 h2 => by omega }

theorem mergeOrd_init (cola : Int → fileInfo) (fi : fileInfo) (t : Nat) :
    MergeOrd cola fi t 0 cola (fun j => power 2 j - 1) false := by
  have hpt := two_pow_pos t
  exact {
    sorted := fun q1 q2 h1 h2 h3 => by omega
    below := fun q h1 h2 => by omega
    belowFi := fun _ q h1 h2 => by omega
    fromOrig := fun q h1 h2 => by omega
    toOut := fun j p _ hp ht => by
      exfalso
      unfold taken at ht
      simp only [power_two] at ht
      have := two_pow_pos j
      unfold inRun at hp
      simp only [EMPTY] at ht
      omega
    fiOut := fun h => by
      exfalso
      rcases h with h | h
      · cases h
      · omega }

theorem merge_fuel (t : Nat) : (((2 : Int) ^ t - 1 + 1).toNat : Int) = 2 ^ t := by
  have := two_pow_pos t
  rw [Int.toNat_of_nonneg (by omega)]
  omega

theorem mergeInv_final (orig cola : Int → fileInfo) (t : Nat) (heads : Nat → Int) (ins : Bool)
    (inv : MergeInv orig t (2 ^ t) cola heads ins) :
    (∀ j, j < t → heads j = EMPTY) ∧ (∀ j, j < t → runEmpty cola j) ∧ runFull cola t ∧
      ∀ p, (p < 0 ∨ 2 ^ (t + 1) - 1 ≤ p) → cola p = orig p := by
  obtain ⟨hb1, hb2, _⟩ := mergeInv_heads orig cola t (2 ^ t) heads ins inv
  have hc := inv.count
  rw [if_pos (Or.inr rfl)] at hc
  have hall : ∀ j, j < t → heads j = EMPTY := by
    intro j hj
    by_contra hne
    have := consumedTotal_lt heads j (hb2 j hj hne) t hj hb1
    omega
  refine ⟨hall, fun j hj => ?_, fun q hq => ?_, inv.frame⟩
  · rcases inv.runs j hj with ⟨_, h⟩ | ⟨h, _⟩
    · exact h
    · exfalso
      have := two_pow_pos j
      have he := hall j hj
      unfold inRun at h
      simp only [EMPTY] at he
      omega
  · have := two_pow_succ t
    unfold inRun at hq
    exact inv.outPop q hq.1 (by omega)

/-- Shape of the array after `merge`: the source runs are cleared, the target run is
populated, nothing else moves. -/
theorem merge_shape (cola : Int → fileInfo) (fi : fileInfo) (t : Nat)
    (hfull : ∀ j, j < t → runFull cola j) (hfi : fi.blockNum ≠ EMPTY) :
    (∀ j, j < t → runEmpty (merge (2 ^ t - 1) t fi cola) j) ∧
    runFull (merge (2 ^ t - 1) t fi cola) t ∧
    ∀ p, (p < 0 ∨ 2 ^ (t + 1) - 1 ≤ p) → merge (2 ^ t - 1) t fi cola p = cola p := by
  obtain ⟨heads1, ins1, inv⟩ := merge_loop_inv cola fi t hfull hfi ((2 : Int) ^ t - 1 + 1).toNat 0
    cola _ false (mergeInv_init cola t) (by rw [merge_fuel]; omega)
  obtain ⟨_, h2, h3, h4⟩ := mergeInv_final cola _ t heads1 ins1 inv
  exact ⟨h2, h3, h4⟩

/-- Contents of the target run after `merge`: strictly sorted, and exactly the
elements of the source runs together with `fi`. -/
theorem merge_contents (cola : Int → fileInfo) (fi : fileInfo) (t : Nat)
    (hfull : ∀ j, j < t → runFull cola j) (hfi : fi.blockNum ≠ EMPTY)
    (hyp : MergeHyp cola fi t) :
    runSorted (merge (2 ^ t - 1) t fi cola) t ∧
    (∀ q, inRun t q → merge (2 ^ t - 1) t fi cola q = fi ∨
      ∃ j p, j < t ∧ inRun j p ∧ merge (2 ^ t - 1) t fi cola q = cola p) ∧
    (∀ j p, j < t → inRun j p → ∃ q, inRun t q ∧ merge (2 ^ t - 1) t fi cola q = cola p) ∧
    ∃ q, inRun t q ∧ merge (2 ^ t - 1) t fi cola q = fi := by
  obtain ⟨heads1, ins1, inv, ord⟩ := merge_loop_ord cola fi t hfull hfi hyp
    ((2 : Int) ^ t - 1 + 1).toNat 0 cola _ false (mergeInv_init cola t) (mergeOrd_init cola fi t)
    (by rw [merge_fuel]; omega)
  obtain ⟨hall, _, _, _⟩ := mergeInv_final cola _ t heads1 ins1 inv
  have hs := two_pow_succ t
  have hrun : ∀ q, inRun t q ↔ (2 ^ t - 1 ≤ q ∧ q < 2 ^ t - 1 + 2 ^ t) := by
    intro q; unfold inRun; constructor <;> intro h <;> omega
  refine ⟨?_, ?_, ?_, ?_⟩
  · intro q1 q2 h1 h2 h12
    exact ord.sorted q1 q2 ((hrun q1).1 h1).1 h12 ((hrun q2).1 h2).2
  · intro q hq
    rcases ord.fromOrig q ((hrun q).1 hq).1 ((hrun q).1 hq).2 with ⟨h, _⟩ | ⟨j, p, h1, h2, _, h4⟩
    · exact Or.inl h
    · exact Or.inr ⟨j, p, h1, h2, h4⟩
  · intro j p hj hp
    obtain ⟨q, h1, h2, h3⟩ := ord.toOut j p hj hp (Or.inl (hall j hj))
    exact ⟨q, (hrun q).2 ⟨h1, h2⟩, h3⟩
  · obtain ⟨q, h1, h2, h3⟩ := ord.fiOut (Or.inr rfl)
    exact ⟨q, (hrun q).2 ⟨h1, h2⟩, h3⟩

theorem insert_loop_spec (cola : Int → fileInfo) :
    ∀ (n t : Nat), n + t = 15 →
      (insert_loop cola n (2 ^ t - 1) t = none ∧ ∀ s, t ≤ s → s < 15 → populated cola s) ∨
      (∃ s, t ≤ s ∧ s < 15 ∧ insert_loop cola n (2 ^ t - 1) t = some (2 ^ s - 1, s) ∧
        ¬ populated cola s ∧ ∀ r, t ≤ r → r < s → populated cola r) := by
  intro n
  induction n with
  | zero =>
    intro t ht
    left
    exact ⟨rfl, fun s h1 h2 => by omega⟩
  | succ n ih =>
    intro t ht
    have hs := two_pow_succ t
    have hs2 := two_pow_succ (t + 1)
    unfold insert_loop
    by_cases hpop : (cola (2 ^ t - 1)).blockNum ≠ EMPTY
    · rw [if_pos hpop]
      by_cases ht14 : t = 14
      · subst ht14
        left
        refine ⟨by norm_num, fun s h1 h2 => ?_⟩
        have : s = 14 := by omega
        subst this
        exact hpop
      · have hle := two_pow_le (t + 1 + 1) (by omega)
        have hnext : 2 * ((2 : Int) ^ t - 1) + 1 = 2 ^ (t + 1) - 1 := by omega
        rw [if_neg (by simp only [numOfFiles]; omega), hnext]
        rcases ih (t + 1) (by omega) with ⟨h1, h2⟩ | ⟨s, h1, h2, h3, h4, h5⟩
        · left
          refine ⟨h1, fun s hs1 hs2 => ?_⟩
          by_cases hst : s = t
          · subst hst; exact hpop
          · exact h2 s (by omega) hs2
        · right
          refine ⟨s, by omega, h2, h3, h4, fun r hr1 hr2 => ?_⟩
          by_cases hrt : r = t
          · subst hrt; exact hpop
          · exact h5 r (by omega) hr2
    · rw [if_neg hpop]
      right
      exact ⟨t, le_refl _, by omega, rfl, hpop, fun r h1 h2 => by omega⟩

theorem merge_zero (fi : fileInfo) (cola : Int → fileInfo) :
    merge 0 0 fi cola = upd cola 0 fi := by
  rfl

/-- The two ways `insert` ends: every run populated, nothing done; or the lowest
unpopulated run `t` receives the merge of the runs below it and the new element. -/
theorem insert_cases (fi : fileInfo) (cola : Int → fileInfo) :
    ((∀ s, s < 15 → populated cola s) ∧ insert fi cola = (0, cola)) ∨
    (∃ t, t < 15 ∧ ¬ populated cola t ∧ (∀ r, r < t → populated cola r) ∧
      insert fi cola = (1, merge (2 ^ t - 1) t fi cola)) := by
  have h := insert_loop_spec cola 15 0 (by omega)
  simp only [pow_zero, sub_self] at h
  unfold insert
  rcases h with ⟨h1, h2⟩ | ⟨t, _, h2, h3, h4, h5⟩
  · left
    rw [h1]
    exact ⟨fun s hs => h2 s (Nat.zero_le s) hs, rfl⟩
  · right
    refine ⟨t, h2, h4, fun r hr => h5 r (Nat.zero_le r) hr, ?_⟩
    rw [h3]
    dsimp only
    by_cases ht0 : t = 0
    · subst ht0
      simp only [pow_zero, sub_self, if_true]
      rw [merge_zero]
    · have hp : (2 : Int) ^ 1 ≤ 2 ^ t := pow_le_pow_right₀ (by norm_num) (by omega)
      rw [if_neg (by norm_num at hp; omega)]

/-! ## `insert` on an array that satisfies the invariants -/

theorem mergeHyp_of_inv (cola : Int → fileInfo) (fi : fileInfo) (t : Nat) (ht : t < 15)
    (hinv : colaInv cola) (hfresh : ¬ present cola fi.name)
    (hlow : ∀ r, r < t → populated cola r) :
    (∀ j, j < t → runFull cola j) ∧ MergeHyp cola fi t := by
  have hfull : ∀ j, j < t → runFull cola j :=
    fun j hj => runFull_of_populated cola hinv.1 j (by omega) (hlow j hj)
  refine ⟨hfull, ?_⟩
  exact {
    sortedRuns := fun j hj => hinv.2.1 j (by omega) (hfull j hj)
    distinct := fun j p k q hj hp hk hq hname =>
      hinv.2.2 p q (inRun_bounds j (by omega) p hp).1 (inRun_bounds j (by omega) p hp).2
        (inRun_bounds k (by omega) q hq).1 (inRun_bounds k (by omega) q hq).2
        (hfull j hj p hp) (hfull k hk q hq) hname
    fresh := fun j p hj hp hname =>
      hfresh ⟨p, (inRun_bounds j (by omega) p hp).1, (inRun_bounds j (by omega) p hp).2,
        hfull j hj p hp, hname⟩ }

/-- Where a populated slot of the merged array comes from. -/
theorem merge_slot_cases (cola : Int → fileInfo) (fi : fileInfo) (t : Nat) (ht : t < 15)
    (hinv : colaInv cola) (hfi : fi.blockNum ≠ EMPTY) (hfresh : ¬ present cola fi.name)
    (hlow : ∀ r, r < t → populated cola r) (q : Int) (h0 : 0 ≤ q) (h1 : q < numOfFiles)
    (hq : (merge (2 ^ t - 1) t fi cola q).blockNum ≠ EMPTY) :
    (inRun t q ∧ (merge (2 ^ t - 1) t fi cola q = fi ∨
      ∃ j p, j < t ∧ inRun j p ∧ merge (2 ^ t - 1) t fi cola q = cola p)) ∨
    (2 ^ (t + 1) - 1 ≤ q ∧ merge (2 ^ t - 1) t fi cola q = cola q) := by
  obtain ⟨hfull, hyp⟩ := mergeHyp_of_inv cola fi t ht hinv hfresh hlow
  obtain ⟨s1, s2, s3⟩ := merge_shape cola fi t hfull hfi
  obtain ⟨_, c2, _, _⟩ := merge_contents cola fi t hfull hfi hyp
  obtain ⟨s, hs, hrun⟩ := exists_run_of_bounds q h0 h1
  rcases Nat.lt_trichotomy s t with hst | hst | hst
  · exact absurd (s1 s hst q hrun) hq
  · subst hst
    exact Or.inl ⟨hrun, c2 q hrun⟩
  · right
    have := two_pow_lt_of_lt t s hst
    unfold inRun at hrun
    exact ⟨by omega, s3 q (Or.inr (by omega))⟩

/-- After a successful `insert` the invariants hold again, the new element is in the
array, and the populated records are those from before together with the new one. -/
theorem insert_spec (cola : Int → fileInfo) (fi : fileInfo) (t : Nat) (ht : t < 15)
    (hinv : colaInv cola) (hfi : fi.blockNum ≠ EMPTY) (hfresh : ¬ present cola fi.name)
    (hne : ¬ populated cola t) (hlow : ∀ r, r < t → populated cola r) :
    colaInv (merge (2 ^ t - 1) t fi cola) ∧
    (∃ q, 0 ≤ q ∧ q < numOfFiles ∧ (merge (2 ^ t - 1) t fi cola q).blockNum ≠ EMPTY ∧
      merge (2 ^ t - 1) t fi cola q = fi) ∧
    (∀ q, 0 ≤ q → q < numOfFiles → (merge (2 ^ t - 1) t fi cola q).blockNum ≠ EMPTY →
      merge (2 ^ t - 1) t fi cola q = fi ∨
      ∃ p, 0 ≤ p ∧ p < numOfFiles ∧ (cola p).blockNum ≠ EMPTY ∧
        merge (2 ^ t - 1) t fi cola q = cola p) ∧
    (∀ p, 0 ≤ p → p < numOfFiles → (cola p).blockNum ≠ EMPTY →
      ∃ q, 0 ≤ q ∧ q < numOfFiles ∧ (merge (2 ^ t - 1) t fi cola q).blockNum ≠ EMPTY ∧
        merge (2 ^ t - 1) t fi cola q = cola p) := by
  obtain ⟨hfull, hyp⟩ := mergeHyp_of_inv cola fi t ht hinv hfresh hlow
  obtain ⟨s1, s2, s3⟩ := merge_shape cola fi t hfull hfi
  obtain ⟨c1, c2, c3, c4⟩ := merge_contents cola fi t hfull hfi hyp
  have hcases := merge_slot_cases cola fi t ht hinv hfi hfresh hlow
  have hempty_t : runEmpty cola t := by
    rcases hinv.1 t ht with h | h
    · exact h
    · exact absurd (populated_of_runFull cola t h) hne
  have hhigh : ∀ s, t < s → ∀ p, inRun s p → merge (2 ^ t - 1) t fi cola p = cola p := by
    intro s hts p hp
    have := two_pow_lt_of_lt t s hts
    unfold inRun at hp
    exact s3 p (Or.inr (by omega))
  -- a populated slot of the new array, seen as a record of the old array or as `fi`
  have hsrc : ∀ q, 0 ≤ q → q < numOfFiles → (merge (2 ^ t - 1) t fi cola q).blockNum ≠ EMPTY →
      merge (2 ^ t - 1) t fi cola q = fi ∨
      ∃ p, 0 ≤ p ∧ p < numOfFiles ∧ (cola p).blockNum ≠ EMPTY ∧
        merge (2 ^ t - 1) t fi cola q = cola p := by
    intro q h0 h1 hq
    rcases hcases q h0 h1 hq with ⟨_, h | ⟨j, p, hj, hp, he⟩⟩ | ⟨_, he⟩
    · exact Or.inl h
    · exact Or.inr ⟨p, (inRun_bounds j (by omega) p hp).1, (inRun_bounds j (by omega) p hp).2,
        hfull j hj p hp, he⟩
    · exact Or.inr ⟨q, h0, h1, by rw [← he]; exact hq, he⟩
  -- names in the target run differ from names above it
  have hmixed : ∀ q k, inRun t q → 2 ^ (t + 1) - 1 ≤ k → k < numOfFiles →
      (cola k).blockNum ≠ EMPTY → (merge (2 ^ t - 1) t fi cola q).name ≠ (cola k).name := by
    intro q k hq hk1 hk2 hkpop hname
    have hk0 : 0 ≤ k := by have := two_pow_pos (t + 1); omega
    rcases c2 q hq with h | ⟨j, p, hj, hp, he⟩
    · rw [h] at hname
      exact hfresh ⟨k, hk0, hk2, hkpop, hname.symm⟩
    · rw [he] at hname
      have hpk := hinv.2.2 p k (inRun_bounds j (by omega) p hp).1
        (inRun_bounds j (by omega) p hp).2 hk0 hk2 (hfull j hj p hp) hkpop hname
      have := lowRun_lt j t hj p hp
      have := two_pow_succ t
      have := two_pow_pos t
      omega
  refine ⟨⟨?_, ?_, ?_⟩, ?_, hsrc, ?_⟩
  · -- I3
    intro s hs
    rcases Nat.lt_trichotomy s t with hst | hst | hst
    · exact Or.inl (s1 s hst)
    · subst hst; exact Or.inr s2
    · rcases hinv.1 s hs with h | h
      · exact Or.inl (fun p hp => by rw [hhigh s hst p hp]; exact h p hp)
      · exact Or.inr (fun p hp => by rw [hhigh s hst p hp]; exact h p hp)
  · -- I1
    intro s hs hf
    rcases Nat.lt_trichotomy s t with hst | hst | hst
    · exact absurd (s1 s hst _ (inRun_first s)) (hf _ (inRun_first s))
    · subst hst; exact c1
    · have hfc : runFull cola s := fun p hp => by rw [← hhigh s hst p hp]; exact hf p hp
      intro j k hj hk hjk
      rw [hhigh s hst j hj, hhigh s hst k hk]
      exact hinv.2.1 s hs hfc j k hj hk hjk
  · -- I2
    intro j k hj0 hj1 hk0 hk1 hjp hkp hname
    rcases hcases j hj0 hj1 hjp with ⟨hjr, _⟩ | ⟨hjr, hje⟩
    · rcases hcases k hk0 hk1 hkp with ⟨hkr, _⟩ | ⟨hkr, hke⟩
      · by_contra hjk
        rcases lt_or_gt_of_ne hjk with h | h
        · have := c1 j k hjr hkr h
          rw [hname, strcmp_self] at this
          omega
        · have := c1 k j hkr hjr h
          rw [hname, strcmp_self] at this
          omega
      · exfalso
        rw [hke] at hname hkp
        exact hmixed j k hjr hkr hk1 hkp hname
    · rcases hcases k hk0 hk1 hkp with ⟨hkr, _⟩ | ⟨hkr, hke⟩
      · exfalso
        rw [hje] at hname hjp
        exact hmixed k j hkr hjr hj1 hjp hname.symm
      · rw [hje, hke] at hname
        rw [hje] at hjp
        rw [hke] at hkp
        exact hinv.2.2 j k hj0 hj1 hk0 hk1 hjp hkp hname
  · obtain ⟨q, hq, he⟩ := c4
    exact ⟨q, (inRun_bounds t ht q hq).1, (inRun_bounds t ht q hq).2, s2 q hq, he⟩
  · intro p hp0 hp1 hpp
    obtain ⟨s, hs, hrun⟩ := exists_run_of_bounds p hp0 hp1
    rcases Nat.lt_trichotomy s t with hst | hst | hst
    · obtain ⟨q, hq, he⟩ := c3 s p hst hrun
      exact ⟨q, (inRun_bounds t ht q hq).1, (inRun_bounds t ht q hq).2, s2 q hq, he⟩
    · subst hst
      exact absurd (hempty_t p hrun) hpp
    · exact ⟨p, hp0, hp1, by rw [hhigh s hst p hrun]; exact hpp, hhigh s hst p hrun⟩

/-! ## `find` on an array that satisfies the invariants -/

theorem populated_of_slot (cola : Int → fileInfo) (hs : colaShape cola) (s : Nat) (h15 : s < 15)
    (j : Int) (hj : inRun s j) (hpop : (cola j).blockNum ≠ EMPTY) : populated cola s := by
  rcases hs s h15 with h | h
  · exact absurd (h j hj) hpop
  · exact populated_of_runFull cola s h

theorem find_found (cola : Int → fileInfo) (hinv : colaInv cola) (name : List Nat)
    (h : find name cola ≠ EMPTY) :
    0 ≤ find name cola ∧ find name cola < numOfFiles ∧
      (cola (find name cola)).blockNum ≠ EMPTY ∧ (cola (find name cola)).name = name := by
  rcases find_spec name cola hinv with ⟨h1, _⟩ | ⟨s, h1, h2, h3, h4⟩
  · exact absurd h1 h
  · exact ⟨(inRun_bounds s h1 _ h3).1, (inRun_bounds s h1 _ h3).2,
      runFull_of_populated cola hinv.1 s h1 h2 _ h3, h4⟩

theorem find_eq_EMPTY_iff (cola : Int → fileInfo) (hinv : colaInv cola) (name : List Nat) :
    find name cola = EMPTY ↔ ¬ present cola name := by
  constructor
  · intro h ⟨j, h0, h1, hpop, hname⟩
    rcases find_spec name cola hinv with ⟨_, h2⟩ | ⟨s, h1, _, h3, _⟩
    · obtain ⟨s, hs, hrun⟩ := exists_run_of_bounds j h0 h1
      exact h2 s hs (populated_of_slot cola hinv.1 s hs j hrun hpop) j hrun hname
    · have := (inRun_bounds s h1 _ h3).1
      rw [h] at this
      simp only [EMPTY] at this
      omega
  · intro h
    by_contra hne
    obtain ⟨h0, h1, h2, h3⟩ := find_found cola hinv name hne
    exact h ⟨_, h0, h1, h2, h3⟩

theorem find_unique (cola : Int → fileInfo) (hinv : colaInv cola) (name : List Nat) (j : Int)
    (h0 : 0 ≤ j) (h1 : j < numOfFiles) (hpop : (cola j).blockNum ≠ EMPTY)
    (hname : (cola j).name = name) : find name cola = j := by
  have hne : find name cola ≠ EMPTY :=
    fun h => (find_eq_EMPTY_iff cola hinv name).1 h ⟨j, h0, h1, hpop, hname⟩
  obtain ⟨f0, f1, f2, f3⟩ := find_found cola hinv name hne
  exact hinv.2.2 _ j f0 f1 h0 h1 f2 hpop (by rw [f3, hname])

theorem colaInv_init : colaInv initState.COLA := by
  refine ⟨fun t _ => Or.inl (fun j _ => rfl), fun t _ hf => ?_, fun j k _ _ _ _ hj => ?_⟩
  · exact absurd rfl (hf _ (inRun_first t))
  · exact absurd rfl hj

theorem not_present_init (name : List Nat) : ¬ present initState.COLA name := by
  intro ⟨j, _, _, h, _⟩
  exact h rfl

/-- Everything `insert` does on an array with the invariants and a new name. -/
theorem insert_ok (cola : Int → fileInfo) (e : fileInfo) (hinv : colaInv cola)
    (hroom : ∃ t, t < 15 ∧ ¬ populated cola t) (he : e.blockNum ≠ EMPTY)
    (hfresh : ¬ present cola e.name) :
    (insert e cola).1 = 1 ∧ colaInv (insert e cola).2 ∧
    (∃ q, 0 ≤ q ∧ q < numOfFiles ∧ ((insert e cola).2 q).blockNum ≠ EMPTY ∧
      (insert e cola).2 q = e) ∧
    (∀ q, 0 ≤ q → q < numOfFiles → ((insert e cola).2 q).blockNum ≠ EMPTY →
      (insert e cola).2 q = e ∨
      ∃ p, 0 ≤ p ∧ p < numOfFiles ∧ (cola p).blockNum ≠ EMPTY ∧ (insert e cola).2 q = cola p) ∧
    (∀ p, 0 ≤ p → p < numOfFiles → (cola p).blockNum ≠ EMPTY →
      ∃ q, 0 ≤ q ∧ q < numOfFiles ∧ ((insert e cola).2 q).blockNum ≠ EMPTY ∧
        (insert e cola).2 q = cola p) := by
  rcases insert_cases e cola with ⟨hall, _⟩ | ⟨t, ht, hne, hlow, hres⟩
  · obtain ⟨t, ht, hn⟩ := hroom
    exact absurd (hall t ht) hn
  · rw [hres]
    exact ⟨rfl, insert_spec cola e t ht hinv he hfresh hne hlow⟩

/-- Lookup after `insert`: the new name is found at a slot holding the new record;
every other name is found exactly when it was found before, with the same record. -/
theorem find_after_insert (cola : Int → fileInfo) (e : fileInfo) (hinv : colaInv cola)
    (hroom : ∃ t, t < 15 ∧ ¬ populated cola t) (he : e.blockNum ≠ EMPTY)
    (hfresh : ¬ present cola e.name) :
    (find e.name (insert e cola).2 ≠ EMPTY ∧
      (insert e cola).2 (find e.name (insert e cola).2) = e) ∧
    ∀ n, n ≠ e.name →
      (find n (insert e cola).2 = EMPTY ↔ find n cola = EMPTY) ∧
      (find n cola ≠ EMPTY → (insert e cola).2 (find n (insert e cola).2) = cola (find n cola)) := by
  obtain ⟨_, hinv2, ⟨q, q0, q1, qpop, qe⟩, hsrc, hdst⟩ := insert_ok cola e hinv hroom he hfresh
  refine ⟨?_, fun n hn => ⟨?_, ?_⟩⟩
  · have hq := find_unique (insert e cola).2 hinv2 e.name q q0 q1 qpop (by rw [qe])
    rw [hq]
    exact ⟨by simp only [EMPTY]; omega, qe⟩
  · rw [find_eq_EMPTY_iff _ hinv2, find_eq_EMPTY_iff _ hinv]
    constructor
    · intro h ⟨p, p0, p1, ppop, pname⟩
      obtain ⟨r, r0, r1, rpop, re⟩ := hdst p p0 p1 ppop
      exact h ⟨r, r0, r1, rpop, by rw [re]; exact pname⟩
    · intro h ⟨r, r0, r1, rpop, rname⟩
      rcases hsrc r r0 r1 rpop with h1 | ⟨p, p0, p1, ppop, pe⟩
      · rw [h1] at rname
        exact hn rname.symm
      · exact h ⟨p, p0, p1, ppop, by rw [← pe]; exact rname⟩
  · intro hf
    obtain ⟨p0, p1, ppop, pname⟩ := find_found cola hinv n hf
    obtain ⟨r, r0, r1, rpop, re⟩ := hdst _ p0 p1 ppop
    rw [find_unique (insert e cola).2 hinv2 n r r0 r1 rpop (by rw [re]; exact pname)]
    exact re

/-! ## Capacity: the populated runs count the entries -/

theorem popCount_le (cola : Int → fileInfo) : ∀ k, popCount cola k ≤ 2 ^ k - 1 := by
  intro k
  induction k with
  | zero => simp [popCount]
  | succ k ih =>
    unfold popCount
    have := two_pow_succ k
    have := two_pow_pos k
    split <;> omega

theorem popCount_lt (cola : Int → fileInfo) (t : Nat) (h : ¬ populated cola t) :
    ∀ k, t < k → popCount cola k < 2 ^ k - 1 := by
  intro k
  induction k with
  | zero => intro h; omega
  | succ k ih =>
    intro hk
    unfold popCount
    have h1 := two_pow_succ k
    have h2 := two_pow_pos k
    have h3 := popCount_le cola k
    by_cases htk : t = k
    · subst htk
      have h4 : ¬ (cola ((2 : Int) ^ t - 1)).blockNum ≠ EMPTY := h
      rw [if_neg h4]
      omega
    · have := ih (by omega)
      split <;> omega

theorem popCount_full (cola : Int → fileInfo) :
    ∀ k, (∀ j, j < k → populated cola j) → popCount cola k = 2 ^ k - 1 := by
  intro k
  induction k with
  | zero => intro _; simp [popCount]
  | succ k ih =>
    intro h
    unfold popCount
    have h4 : (cola ((2 : Int) ^ k - 1)).blockNum ≠ EMPTY := h k (by omega)
    rw [ih (fun j hj => h j (by omega)), if_pos h4]
    have := two_pow_succ k
    omega

theorem popCount_none (cola : Int → fileInfo) :
    ∀ k, (∀ j, j < k → ¬ populated cola j) → popCount cola k = 0 := by
  intro k
  induction k with
  | zero => intro _; rfl
  | succ k ih =>
    intro h
    unfold popCount
    have h4 : ¬ (cola ((2 : Int) ^ k - 1)).blockNum ≠ EMPTY := h k (by omega)
    rw [ih (fun j hj => h j (by omega)), if_neg h4]
    rfl

theorem popCount_insert (cola c1 : Int → fileInfo) (t : Nat)
    (hlow : ∀ j, j < t → populated cola j) (hlow1 : ∀ j, j < t → ¬ populated c1 j)
    (ht : ¬ populated cola t) (ht1 : populated c1 t)
    (hhigh : ∀ j, t < j → c1 (2 ^ j - 1) = cola (2 ^ j - 1)) :
    ∀ k, t + 1 ≤ k → popCount c1 k = popCount cola k + 1 := by
  intro k hk
  induction k, hk using Nat.le_induction with
  | base =>
    unfold popCount
    have h4 : ¬ (cola ((2 : Int) ^ t - 1)).blockNum ≠ EMPTY := ht
    have h5 : (c1 ((2 : Int) ^ t - 1)).blockNum ≠ EMPTY := ht1
    rw [popCount_none c1 t hlow1, popCount_full cola t hlow, if_pos h5, if_neg h4]
    omega
  | succ k hk ih =>
    unfold popCount
    rw [ih, hhigh k (by omega)]
    omega

/-- A successful `insert` keeps I3 and adds one to the entry count. -/
theorem insert_shape (cola : Int → fileInfo) (fi : fileInfo) (hs : colaShape cola)
    (hfi : fi.blockNum ≠ EMPTY) (hroom : ∃ t, t < 15 ∧ ¬ populated cola t) :
    (insert fi cola).1 = 1 ∧ colaShape (insert fi cola).2 ∧
      popCount (insert fi cola).2 15 = popCount cola 15 + 1 := by
  rcases insert_cases fi cola with ⟨hall, _⟩ | ⟨t, ht, hne, hlow, hres⟩
  · obtain ⟨t, ht, hn⟩ := hroom
    exact absurd (hall t ht) hn
  · rw [hres]
    dsimp only
    have hfull : ∀ j, j < t → runFull cola j :=
      fun j hj => runFull_of_populated cola hs j (by omega) (hlow j hj)
    obtain ⟨s1, s2, s3⟩ := merge_shape cola fi t hfull hfi
    have hhigh : ∀ s, t < s → ∀ p, inRun s p → merge (2 ^ t - 1) t fi cola p = cola p := by
      intro s hts p hp
      have := two_pow_lt_of_lt t s hts
      unfold inRun at hp
      exact s3 p (Or.inr (by omega))
    refine ⟨rfl, ?_, ?_⟩
    · intro s hs15
      rcases Nat.lt_trichotomy s t with hst | hst | hst
      · exact Or.inl (s1 s hst)
      · subst hst; exact Or.inr s2
      · rcases hs s hs15 with h | h
        · exact Or.inl (fun p hp => by rw [hhigh s hst p hp]; exact h p hp)
        · exact Or.inr (fun p hp => by rw [hhigh s hst p hp]; exact h p hp)
    · exact popCount_insert cola _ t hlow
        (fun j hj hp => hp (s1 j hj _ (inRun_first j))) hne
        (populated_of_runFull _ t s2) (fun j hj => hhigh j hj _ (inRun_first j)) 15 (by omega)

theorem all_populated_iff (cola : Int → fileInfo) :
    (∀ t, t < 15 → populated cola t) ↔ popCount cola 15 = 32767 := by
  constructor
  · intro h
    rw [popCount_full cola 15 h]
    norm_num
  · intro h t ht
    by_contra hn
    have := popCount_lt cola t hn 15 ht
    norm_num at this
    omega

theorem insertSeq_count (es : Nat → fileInfo) (hes : ∀ n, (es n).blockNum ≠ EMPTY) :
    ∀ n, n ≤ 32767 → colaShape (insertSeq es n) ∧ popCount (insertSeq es n) 15 = n := by
  intro n
  induction n with
  | zero =>
    intro _
    refine ⟨colaInv_init.1, ?_⟩
    exact popCount_none _ 15 (fun j _ h => h rfl)
  | succ n ih =>
    intro hn
    obtain ⟨h1, h2⟩ := ih (by omega)
    have hroom : ∃ t, t < 15 ∧ ¬ populated (insertSeq es n) t := by
      by_contra hcon
      push_neg at hcon
      have := (all_populated_iff _).1 hcon
      omega
    obtain ⟨_, r2, r3⟩ := insert_shape (insertSeq es n) (es n) h1 (hes n) hroom
    refine ⟨r2, ?_⟩
    show popCount (insert (es n) (insertSeq es n)).2 15 = _
    rw [r3, h2]
    push_cast
    rfl

/-! ## Path validation -/

theorem starLoop_any_true (s : List Nat) : starLoop ReAtom.any (fun _ => true) s = true := by
  cases s with
  | nil => rfl
  | cons c cs => simp [starLoop]

theorem matchHere_tilde_tail (s : List Nat) :
    matchHere [(ReAtom.chr 126, ReQuant.one), (ReAtom.any, ReQuant.star)] s = true ↔
      s.head? = some 126 := by
  cases s with
  | nil => simp [matchHere]
  | cons c cs =>
    simp only [matchHere, starLoop_any_true, Bool.and_true, atomMatches, decide_eq_true_eq,
      List.head?_cons, Option.some.injEq]
    exact eq_comm

theorem starLoop_tilde (s : List Nat) :
    starLoop ReAtom.any
      (matchHere [(ReAtom.chr 126, ReQuant.one), (ReAtom.any, ReQuant.star)]) s = true ↔
      126 ∈ s := by
  induction s with
  | nil => simp [starLoop, matchHere]
  | cons c cs ih =>
    unfold starLoop
    rw [Bool.or_eq_true, Bool.and_eq_true, matchHere_tilde_tail, ih]
    simp only [atomMatches, true_and, List.head?_cons, Option.some.injEq, List.mem_cons]
    constructor
    · rintro (h | h)
      · exact Or.inl h.symm
      · exact Or.inr h
    · rintro (h | h)
      · exact Or.inl h.symm
      · exact Or.inr h

theorem matchAnywhere_tilde (s : List Nat) :
    matchAnywhere (parseRegex [46, 42, 126, 46, 42]) s = true ↔ 126 ∈ s := by
  have hp : parseRegex [46, 42, 126, 46, 42] =
      [(ReAtom.any, ReQuant.star), (ReAtom.chr 126, ReQuant.one), (ReAtom.any, ReQuant.star)] := by
    decide
  rw [hp]
  induction s with
  | nil => simp [matchAnywhere, matchHere, starLoop]
  | cons c cs ih =>
    have h : matchHere [(ReAtom.any, ReQuant.star), (ReAtom.chr 126, ReQuant.one),
        (ReAtom.any, ReQuant.star)] (c :: cs) = true ↔ 126 ∈ c :: cs := starLoop_tilde (c :: cs)
    unfold matchAnywhere
    simp only [Bool.or_eq_true, ih, h, List.mem_cons]
    tauto

/-- The pattern `.*~.*` matches exactly the strings that contain `~`. -/
theorem match_tilde (s : List Nat) : match_ s [46, 42, 126, 46, 42] ≠ 0 ↔ 126 ∈ s := by
  unfold match_
  rw [← matchAnywhere_tilde]
  by_cases h : matchAnywhere (parseRegex [46, 42, 126, 46, 42]) s = true
  · simp [h]
  · simp [h]

theorem checkPath_eq_one (path : List Nat) :
    checkPath path = 1 ↔ (path.tail.length > fileNameLen ∨ path.getD 1 0 = 46 ∨ 126 ∈ path) := by
  have hm := match_tilde path
  unfold checkPath
  split
  · rename_i h
    rw [hm] at h
    exact ⟨fun _ => h, fun _ => rfl⟩
  · rename_i h
    rw [hm] at h
    exact ⟨fun h1 => by omega, fun h1 => absurd h1 h⟩

theorem checkPath_values (path : List Nat) : checkPath path = 0 ∨ checkPath path = 1 := by
  unfold checkPath
  split
  · exact Or.inr rfl
  · exact Or.inl rfl

theorem second_byte (path : List Nat) : path.getD 1 0 = 46 ↔ path.tail.head? = some 46 := by
  cases path with
  | nil => simp
  | cons a rest =>
    cases rest with
    | nil => simp
    | cons b rest2 => simp

/-! ## Block allocation and creation -/

theorem searchFAT_loop_spec (FAT : Int → Int) :
    ∀ (n : Nat) (i : Int),
      (searchFAT_loop FAT n i = EMPTY ∧ ∀ k, i ≤ k → k < i + n → FAT k ≠ EMPTY) ∨
      (i ≤ searchFAT_loop FAT n i ∧ searchFAT_loop FAT n i < i + n ∧
        FAT (searchFAT_loop FAT n i) = EMPTY ∧
        ∀ k, i ≤ k → k < searchFAT_loop FAT n i → FAT k ≠ EMPTY) := by
  intro n
  induction n with
  | zero =>
    intro i
    left
    exact ⟨rfl, fun k h1 h2 => by simp at h2; omega⟩
  | succ n ih =>
    intro i
    unfold searchFAT_loop
    by_cases h : FAT i = EMPTY
    · rw [if_pos h]
      right
      exact ⟨le_refl _, by push_cast; omega, h, fun k h1 h2 => by omega⟩
    · rw [if_neg h]
      rcases ih (i + 1) with ⟨h1, h2⟩ | ⟨h1, h2, h3, h4⟩
      · left
        refine ⟨h1, fun k hk1 hk2 => ?_⟩
        by_cases hki : k = i
        · rw [hki]; exact h
        · exact h2 k (by omega) (by push_cast at hk2; omega)
      · right
        refine ⟨by omega, by push_cast; omega, h3, fun k hk1 hk2 => ?_⟩
        by_cases hki : k = i
        · rw [hki]; exact h
        · exact h4 k (by omega) hk2

/-- Result of `searchFAT`: the least index in `[0, numOfFiles]` whose word is `EMPTY`,
or `EMPTY` when there is none. -/
theorem searchFAT_spec (FAT : Int → Int) :
    (searchFAT FAT = EMPTY ∧ ∀ k, 0 ≤ k → k ≤ numOfFiles → FAT k ≠ EMPTY) ∨
    (0 ≤ searchFAT FAT ∧ searchFAT FAT ≤ numOfFiles ∧ FAT (searchFAT FAT) = EMPTY ∧
      ∀ k, 0 ≤ k → k < searchFAT FAT → FAT k ≠ EMPTY) := by
  unfold searchFAT
  rcases searchFAT_loop_spec FAT 32768 0 with ⟨h1, h2⟩ | ⟨h1, h2, h3, h4⟩
  · left
    exact ⟨h1, fun k hk1 hk2 => h2 k hk1 (by simp only [numOfFiles] at hk2; push_cast; omega)⟩
  · right
    exact ⟨h1, by simp only [numOfFiles]; push_cast at h2; omega, h3, h4⟩

theorem searchFAT_free (FAT : Int → Int)
    (hfree : ∃ b, 0 ≤ b ∧ b < numOfFiles ∧ FAT b = EMPTY) :
    0 ≤ searchFAT FAT ∧ searchFAT FAT < numOfFiles ∧ FAT (searchFAT FAT) = EMPTY ∧
      ∀ k, 0 ≤ k → k < searchFAT FAT → FAT k ≠ EMPTY := by
  obtain ⟨b, b0, b1, bE⟩ := hfree
  rcases searchFAT_spec FAT with ⟨_, h2⟩ | ⟨h1, _, h3, h4⟩
  · exact absurd bE (h2 b b0 (by omega))
  · refine ⟨h1, ?_, h3, h4⟩
    by_contra hge
    exact h4 b b0 (by omega) bE

theorem not_present_of_find (cola : Int → fileInfo) (hinv : colaInv cola) (name : List Nat)
    (h : find name cola = EMPTY) : ¬ present cola name :=
  (find_eq_EMPTY_iff cola hinv name).1 h

/-- Unfolding of `cfs_mknod` along its successful path. -/
theorem mknod_unfold (st : State) (path : List Nat) (hpath : checkPath path = 0)
    (habs : find path.tail st.COLA = EMPTY) (hne : searchFAT st.FAT ≠ EMPTY)
    (hins : (insert ⟨0, path.tail, searchFAT st.FAT⟩ st.COLA).1 = 1) :
    cfs_mknod st path =
      (0, ⟨(insert ⟨0, path.tail, searchFAT st.FAT⟩ st.COLA).2,
        upd st.FAT (searchFAT st.FAT) END, st.data⟩) := by
  unfold cfs_mknod
  rw [if_neg (by rw [hpath]; simp), if_neg (by rw [habs]; simp)]
  simp only [hne, if_false, hins]
  rfl

/-- A successful `cfs_mknod`: the state it leaves. -/
theorem mknod_ok (st : State) (path : List Nat) (hinv : colaInv st.COLA)
    (hroom : ∃ t, t < 15 ∧ ¬ populated st.COLA t)
    (hfree : ∃ b, 0 ≤ b ∧ b < numOfFiles ∧ st.FAT b = EMPTY)
    (hpath : checkPath path = 0) (habs : find path.tail st.COLA = EMPTY) :
    cfs_mknod st path =
      (0, ⟨(insert ⟨0, path.tail, searchFAT st.FAT⟩ st.COLA).2,
        upd st.FAT (searchFAT st.FAT) END, st.data⟩) := by
  obtain ⟨b0, _, _, _⟩ := searchFAT_free st.FAT hfree
  have hne : searchFAT st.FAT ≠ EMPTY := by simp only [EMPTY]; omega
  exact mknod_unfold st path hpath habs hne
    (insert_ok st.COLA ⟨0, path.tail, searchFAT st.FAT⟩ hinv hroom hne
      (not_present_of_find st.COLA hinv _ habs)).1

/-- A successful `cfs_mkdir`: the state it leaves. -/
theorem mkdir_ok (st : State) (path : List Nat) (hinv : colaInv st.COLA)
    (hroom : ∃ t, t < 15 ∧ ¬ populated st.COLA t)
    (hpath : checkPath path = 0) (habs : find path.tail st.COLA = EMPTY) :
    cfs_mkdir st path = (0, ⟨(insert ⟨0, path.tail, DIR⟩ st.COLA).2, st.FAT, st.data⟩) := by
  have hdir : (⟨0, path.tail, DIR⟩ : fileInfo).blockNum ≠ EMPTY := by
    show DIR ≠ EMPTY
    decide
  obtain ⟨h1, _⟩ := insert_ok st.COLA ⟨0, path.tail, DIR⟩ hinv hroom hdir
    (not_present_of_find st.COLA hinv _ habs)
  unfold cfs_mkdir
  rw [if_neg (by rw [hpath]; simp)]
  simp only [habs, h1]
  rfl

/-- Creating a path that the index already holds changes nothing. -/
theorem create_existing (st : State) (path : List Nat) (hpath : checkPath path = 0)
    (hpres : find path.tail st.COLA ≠ EMPTY) :
    cfs_mknod st path = (-EEXIST, st) ∧ cfs_mkdir st path = (-EEXIST, st) := by
  constructor
  · unfold cfs_mknod
    rw [if_neg (by rw [hpath]; simp), if_pos hpres]
  · unfold cfs_mkdir
    rw [if_neg (by rw [hpath]; simp)]
    simp only [hpres, ne_eq, not_false_eq_true, if_true]

/-- Result of `cfs_mknod` when `searchFAT` finds no free word. -/
theorem mknod_no_block (st : State) (path : List Nat)
    (hfull : ∀ b, 0 ≤ b → b ≤ numOfFiles → st.FAT b ≠ EMPTY)
    (hpath : checkPath path = 0) (habs : find path.tail st.COLA = EMPTY) :
    cfs_mknod st path = (-ENOMEM, st) := by
  have hs : searchFAT st.FAT = EMPTY := by
    rcases searchFAT_spec st.FAT with ⟨h1, _⟩ | ⟨h1, h2, h3, _⟩
    · exact h1
    · exact absurd h3 (hfull _ h1 h2)
  unfold cfs_mknod
  rw [if_neg (by rw [hpath]; simp), if_neg (by rw [habs]; simp)]
  simp only [hs, if_true]

/-! ## Return value of `cfs_read` -/

theorem toInt32_id (x : Int) (h0 : -2147483648 ≤ x) (h1 : x < 2147483648) : toInt32 x = x := by
  unfold toInt32
  omega

theorem cola1_eq : cola1 = upd initState.COLA 0 ⟨0, [98], 7⟩ := rfl

theorem colaInv_cola1 : colaInv cola1 :=
  (insert_ok initState.COLA ⟨0, [98], 7⟩ colaInv_init ⟨0, by decide, fun h => h rfl⟩
    (by decide) (not_present_init _)).2.1

theorem cola1_high (j : Int) (hj : j ≠ 0) : (cola1 j).blockNum = EMPTY := by
  rw [cola1_eq, upd_ne _ _ _ _ hj]
  rfl

theorem runEmpty_cola1 : runEmpty cola1 1 := by
  intro j hj
  unfold inRun at hj
  exact cola1_high j (by norm_num at hj; omega)

theorem not_present_cola1 : ¬ present cola1 [97] := by
  intro ⟨j, _, _, hpop, hname⟩
  by_cases hj : j = 0
  · subst hj
    revert hname
    decide
  · exact hpop (cola1_high j hj)

theorem sampleEntry_head (n : Nat) : (sampleEntry n).blockNum ≠ EMPTY := by
  show DIR ≠ EMPTY
  decide

theorem fatFull_no_free (b : Int) : fatFullState.FAT b ≠ EMPTY := by
  show END ≠ EMPTY
  decide

theorem sampleName_inj (m n : Nat) (h : sampleName m = sampleName n) : m = n := by
  unfold sampleName at h
  simp only [List.cons.injEq, and_true] at h
  omega

/-- With run 0 unpopulated `insert` stores into slot 0. -/
theorem insert_slot_zero (fi : fileInfo) (cola : Int → fileInfo) (h0 : ¬ populated cola 0) :
    insert fi cola = (1, upd cola 0 fi) := by
  rcases insert_cases fi cola with ⟨hall, _⟩ | ⟨t, _, _, hlow, hres⟩
  · exact absurd (hall 0 (by decide)) h0
  · have ht : t = 0 := by
      by_contra hne
      exact h0 (hlow 0 (by omega))
    subst ht
    rw [hres]
    simp only [pow_zero, sub_self]
    rw [merge_zero]

/-- The scan of `searchFAT` includes index `N`: when only that word is `EMPTY`,
`cfs_mknod` succeeds and marks it. -/
theorem mknod_takes_word_N :
    (∀ b, 0 ≤ b → b < numOfFiles → fatLastFreeState.FAT b ≠ EMPTY) ∧
    (cfs_mknod fatLastFreeState [47, 97]).1 = 0 ∧
    (cfs_mknod fatLastFreeState [47, 97]).2.FAT numOfFiles = END := by
  have hfat : ∀ k, fatLastFreeState.FAT k = if k = numOfFiles then EMPTY else END :=
    fun _ => rfl
  have hs : searchFAT fatLastFreeState.FAT = numOfFiles := by
    rcases searchFAT_spec fatLastFreeState.FAT with ⟨_, h2⟩ | ⟨_, _, h3, _⟩
    · exact absurd (by rw [hfat, if_pos rfl]) (h2 numOfFiles (by decide) (le_refl _))
    · rw [hfat] at h3
      by_contra hne
      rw [if_neg hne] at h3
      exact absurd h3 (by decide)
  have hne : searchFAT fatLastFreeState.FAT ≠ EMPTY := by rw [hs]; decide
  have hm := mknod_unfold fatLastFreeState [47, 97] (by decide) (by decide) hne
    (by rw [insert_slot_zero _ _ (fun h => h rfl)])
  rw [hm]
  refine ⟨fun b _ hb => ?_, rfl, ?_⟩
  · rw [hfat, if_neg (by omega)]
    decide
  · dsimp only
    rw [hs, upd_eq]

/-! ## The write path -/

theorem write_walk_stay (FAT : Int → Int) (block : Int) (n : Nat) (b t : Int)
    (ht : t ≤ block) : write_walk FAT block n b t = (b, t) := by
  cases n with
  | zero => rfl
  | succ n =>
    unfold write_walk
    rw [if_neg (by omega)]

theorem write_walk_bounds (FAT : Int → Int) (block : Int) (hb : 1 ≤ block) :
    ∀ (n : Nat) (b t : Int), 0 ≤ t → t ≤ n →
      0 ≤ (write_walk FAT block n b t).2 ∧ (write_walk FAT block n b t).2 ≤ block := by
  intro n
  induction n with
  | zero =>
    intro b t h0 hn
    simp only [write_walk]
    push_cast at hn
    omega
  | succ n ih =>
    intro b t h0 hn
    unfold write_walk
    by_cases hgt : t > block
    · rw [if_pos hgt]
      exact ih (FAT b) (t - block) (by omega) (by push_cast at hn; omega)
    · rw [if_neg hgt]
      exact ⟨h0, by omega⟩

/-- When the block loop of `cfs_write` runs to its end it has added `left` to `written`. -/
theorem write_loop_written (block : Int) (buf : Int → Nat) (hb : 1 ≤ block) :
    ∀ (n : Nat) (FAT : Int → Int) (data : Int → Int → Nat) (b left written : Int)
      (F : Int → Int) (D : Int → Int → Nat) (w : Int),
      0 ≤ left → left ≤ n →
      write_loop block buf n FAT data b left written = some (WriteOut.finished F D w) →
      w = written + left := by
  intro n
  induction n with
  | zero =>
    intro FAT data b left written F D w h0 hn h
    simp only [write_loop, Option.some.injEq, WriteOut.finished.injEq] at h
    push_cast at hn
    omega
  | succ n ih =>
    intro FAT data b left written F D w h0 hn h
    unfold write_loop at h
    by_cases hpos : left > 0
    · rw [if_pos hpos] at h
      by_cases hgt : left > block
      · rw [if_pos hgt] at h
        dsimp only at h
        split at h
        · cases h
        · have := ih _ _ _ _ _ F D w (by omega) (by push_cast at hn; omega) h
          omega
      · rw [if_neg hgt] at h
        dsimp only at h
        split at h
        · cases h
        · have := ih _ _ _ _ _ F D w (le_refl 0) (by positivity) h
          omega
    · rw [if_neg hpos] at h
      simp only [Option.some.injEq, WriteOut.finished.injEq] at h
      omega

/-- Result of `cfs_write` when the data leaves the block it starts in and
`searchFAT` finds no free word. -/
theorem write_first_nomem (block : Int) (st : State) (path : List Nat) (buf : Int → Nat)
    (size offset : Int) (hpath : checkPath path = 0) (hfind : find path.tail st.COLA ≠ EMPTY)
    (hcross : (write_walk st.FAT block (toInt32 offset).toNat
      (st.COLA (find path.tail st.COLA)).blockNum (toInt32 offset)).2 + size > block)
    (hfull : searchFAT st.FAT = EMPTY) :
    cfs_write block st path buf size offset =
      some (-ENOMEM,
        ⟨st.COLA,
          upd (upd st.FAT (write_walk st.FAT block (toInt32 offset).toNat
            (st.COLA (find path.tail st.COLA)).blockNum (toInt32 offset)).1 (searchFAT st.FAT))
            (write_walk st.FAT block (toInt32 offset).toNat
              (st.COLA (find path.tail st.COLA)).blockNum (toInt32 offset)).1 END,
          upd st.data (write_walk st.FAT block (toInt32 offset).toNat
            (st.COLA (find path.tail st.COLA)).blockNum (toInt32 offset)).1
            (memcpy (st.data (write_walk st.FAT block (toInt32 offset).toNat
              (st.COLA (find path.tail st.COLA)).blockNum (toInt32 offset)).1)
              (write_walk st.FAT block (toInt32 offset).toNat
                (st.COLA (find path.tail st.COLA)).blockNum (toInt32 offset)).2 buf 0
              (block - (write_walk st.FAT block (toInt32 offset).toNat
                (st.COLA (find path.tail st.COLA)).blockNum (toInt32 offset)).2))⟩) := by
  unfold cfs_write
  rw [if_neg (by rw [hpath]; simp)]
  dsimp only
  rw [if_neg hfind, if_pos hcross, if_pos (by rw [upd_eq]; exact hfull)]

/-- Whenever `cfs_write` returns `-ENOMEM` the COLA is as before. -/
theorem write_nomem_cola (block : Int) (st st1 : State) (path : List Nat) (buf : Int → Nat)
    (size offset : Int) (hsize : 0 ≤ size ∧ size < 2147483648)
    (h : cfs_write block st path buf size offset = some (-ENOMEM, st1)) :
    st1.COLA = st.COLA := by
  have hts : toInt32 size = size := toInt32_id _ (by omega) (by omega)
  unfold cfs_write at h
  by_cases hcp : checkPath path ≠ 0
  · rw [if_pos hcp] at h
    simp only [Option.some.injEq, Prod.mk.injEq] at h
    rw [← h.2]
  rw [if_neg hcp] at h
  dsimp only at h
  by_cases hfind : find path.tail st.COLA = EMPTY
  · rw [if_pos hfind] at h
    simp only [Option.some.injEq, Prod.mk.injEq] at h
    rw [← h.2]
  rw [if_neg hfind, hts] at h
  split at h
  · split at h
    · simp only [Option.some.injEq, Prod.mk.injEq] at h
      rw [← h.2]
    · split at h
      · cases h
      · simp only [Option.some.injEq, Prod.mk.injEq] at h
        rw [← h.2]
      · simp only [Option.some.injEq, Prod.mk.injEq, ENOMEM] at h
        omega
  · simp only [Option.some.injEq, Prod.mk.injEq, ENOMEM] at h
    omega

theorem noFree_search : searchFAT noFreeState.FAT = EMPTY := by
  rcases searchFAT_spec noFreeState.FAT with ⟨h1, _⟩ | ⟨_, _, h3, _⟩
  · exact h1
  · exact absurd h3 (by decide)

/-! ## Root listing -/

theorem matchHere_slash (s : List Nat) :
    matchHere [(ReAtom.chr 47, ReQuant.one)] s = true ↔ s.head? = some 47 := by
  cases s with
  | nil => simp [matchHere]
  | cons c cs =>
    simp only [matchHere, Bool.and_true, atomMatches, decide_eq_true_eq, List.head?_cons,
      Option.some.injEq]
    exact eq_comm

theorem starLoop_slash (s : List Nat) :
    starLoop ReAtom.any (matchHere [(ReAtom.chr 47, ReQuant.one)]) s = true ↔ 47 ∈ s := by
  induction s with
  | nil => simp [starLoop, matchHere]
  | cons c cs ih =>
    unfold starLoop
    rw [Bool.or_eq_true, Bool.and_eq_true, matchHere_slash, ih]
    simp only [atomMatches, true_and, List.head?_cons, Option.some.injEq, List.mem_cons]
    constructor
    · rintro (h | h)
      · exact Or.inl h.symm
      · exact Or.inr h
    · rintro (h | h)
      · exact Or.inl h.symm
      · exact Or.inr h

theorem matchAnywhere_slash (s : List Nat) :
    matchAnywhere (parseRegex [46, 43, 47]) s = true ↔ 47 ∈ s.tail := by
  have hp : parseRegex [46, 43, 47] =
      [(ReAtom.any, ReQuant.plus), (ReAtom.chr 47, ReQuant.one)] := by
    decide
  rw [hp]
  induction s with
  | nil => simp [matchAnywhere, matchHere]
  | cons c cs ih =>
    have h : matchHere [(ReAtom.any, ReQuant.plus), (ReAtom.chr 47, ReQuant.one)] (c :: cs) =
        true ↔ 47 ∈ cs := by
      simp only [matchHere, atomMatches, Bool.true_and]
      exact starLoop_slash cs
    unfold matchAnywhere
    simp only [Bool.or_eq_true, ih, h, List.tail_cons]
    constructor
    · rintro (h1 | h1)
      · exact h1
      · exact List.mem_of_mem_tail h1
    · exact fun h1 => Or.inl h1

/-- The pattern `.+/` matches exactly the strings with a `/` after the first byte. -/
theorem match_slash (s : List Nat) : match_ s [46, 43, 47] = 0 ↔ 47 ∉ s.tail := by
  unfold match_
  rw [← matchAnywhere_slash]
  by_cases h : matchAnywhere (parseRegex [46, 43, 47]) s = true
  · simp [h]
  · simp [h]

theorem slash_tail (s : List Nat) (h : s.head? ≠ some 47) : 47 ∉ s.tail ↔ 47 ∉ s := by
  cases s with
  | nil => simp
  | cons c cs =>
    simp only [List.head?_cons, ne_eq, Option.some.injEq] at h
    simp only [List.tail_cons, List.mem_cons, not_or]
    exact ⟨fun h1 => ⟨fun h2 => h h2.symm, h1⟩, fun h1 => h1.2⟩

theorem readdir_root_mem (cola : Int → fileInfo) :
    ∀ (n : Nat) (i : Int) (x : List Nat),
      x ∈ readdir_loop cola [47] n i ↔
        ∃ j, i ≤ j ∧ j < i + n ∧ (cola j).blockNum ≠ EMPTY ∧ 47 ∉ (cola j).name.tail ∧
          (cola j).name = x := by
  intro n
  induction n with
  | zero =>
    intro i x
    simp only [readdir_loop, List.not_mem_nil, false_iff]
    rintro ⟨j, h1, h2, _⟩
    push_cast at h2
    omega
  | succ n ih =>
    intro i x
    unfold readdir_loop
    dsimp only
    rw [List.mem_append, ih (i + 1) x, if_pos rfl]
    constructor
    · rintro (h | ⟨j, h1, h2, h3⟩)
      · by_cases hp : (cola i).blockNum ≠ EMPTY
        · rw [if_pos hp] at h
          by_cases hm : match_ (cola i).name [46, 43, 47] = 0
          · rw [if_pos hm, List.mem_singleton] at h
            exact ⟨i, le_refl _, by push_cast; omega, hp, (match_slash _).1 hm, h.symm⟩
          · rw [if_neg hm] at h
            cases h
        · rw [if_neg hp] at h
          cases h
      · exact ⟨j, by omega, by push_cast; omega, h3⟩
    · rintro ⟨j, h1, h2, h3, h4, h5⟩
      by_cases hji : j = i
      · left
        subst hji
        rw [if_pos h3, if_pos ((match_slash _).2 h4), List.mem_singleton]
        exact h5.symm
      · right
        exact ⟨j, by omega, by push_cast at h2; omega, h3, h4, h5⟩

theorem readdir_root_nodup (cola : Int → fileInfo) (huniq : colaUnique cola) :
    ∀ (n : Nat) (i : Int), 0 ≤ i → i + n ≤ numOfFiles →
      (readdir_loop cola [47] n i).Nodup := by
  intro n
  induction n with
  | zero => intro i _ _; simp [readdir_loop]
  | succ n ih =>
    intro i h0 hn
    push_cast at hn
    have hrest := ih (i + 1) (by omega) (by omega)
    unfold readdir_loop
    dsimp only
    rw [if_pos rfl]
    by_cases hp : (cola i).blockNum ≠ EMPTY
    · rw [if_pos hp]
      by_cases hm : match_ (cola i).name [46, 43, 47] = 0
      · rw [if_pos hm]
        rw [List.singleton_append, List.nodup_cons]
        refine ⟨fun hmem => ?_, hrest⟩
        obtain ⟨j, h1, h2, h3, _, h5⟩ := (readdir_root_mem cola n (i + 1) _).1 hmem
        have := huniq j i (by omega) (by omega) h0 (by omega) h3 hp h5
        omega
      · rw [if_neg hm]
        exact hrest
    · rw [if_neg hp]
      exact hrest

theorem cola1_lead (j : Int) (_h0 : 0 ≤ j) (_h1 : j < numOfFiles)
    (hp : (cola1 j).blockNum ≠ EMPTY) : (cola1 j).name.head? ≠ some 47 := by
  by_cases hj : j = 0
  · subst hj
    decide
  · exact absurd (cola1_high j hj) hp

/-! ## The populated runs spell the number of entries in binary -/

theorem popCount_nonneg (cola : Int → fileInfo) : ∀ k, 0 ≤ popCount cola k := by
  intro k
  induction k with
  | zero => simp [popCount]
  | succ k ih =>
    unfold popCount
    have := two_pow_pos k
    split <;> omega

theorem popCount_bit (cola : Int → fileInfo) :
    ∀ k j, j < k →
      popCount cola k / 2 ^ j % 2 = if (cola ((2 : Int) ^ j - 1)).blockNum ≠ EMPTY then 1 else 0 := by
  intro k
  induction k with
  | zero => intro j h; omega
  | succ k ih =>
    intro j hj
    have hk0 := popCount_nonneg cola k
    have hk1 := popCount_le cola k
    have hpk := two_pow_pos k
    have hpj := two_pow_pos j
    unfold popCount
    by_cases hjk : j = k
    · subst hjk
      by_cases hp : (cola ((2 : Int) ^ j - 1)).blockNum ≠ EMPTY
      · rw [if_pos hp]
        have h1 : (popCount cola j + 2 ^ j) / 2 ^ j = popCount cola j / 2 ^ j + 1 := by
          have := Int.add_mul_ediv_right (popCount cola j) 1 (c := 2 ^ j) (by omega)
          rw [one_mul] at this
          exact this
        rw [h1, Int.ediv_eq_zero_of_lt hk0 (by omega), if_pos hp]
        rfl
      · rw [if_neg hp, add_zero, Int.ediv_eq_zero_of_lt hk0 (by omega), if_neg hp]
        rfl
    · have hlt : j < k := by omega
      by_cases hp : (cola ((2 : Int) ^ k - 1)).blockNum ≠ EMPTY
      · rw [if_pos hp]
        have hsplit : (2 : Int) ^ k = 2 * 2 ^ (k - j - 1) * 2 ^ j := by
          rw [mul_assoc, ← pow_add, ← pow_succ']
          congr 1
          omega
        have h1 : (popCount cola k + 2 ^ k) / 2 ^ j =
            popCount cola k / 2 ^ j + 2 * 2 ^ (k - j - 1) := by
          rw [hsplit]
          exact Int.add_mul_ediv_right _ _ (by omega)
        rw [h1, Int.add_mul_emod_self_left]
        exact ih j hlt
      · rw [if_neg hp, add_zero]
        exact ih j hlt

/-- Runs and bits: when the populated runs have total capacity `n`, run `j` is
populated exactly when bit `j` of `n` is set. -/
theorem populated_iff_testBit (cola : Int → fileInfo) (n j : Nat) (hj : j < 15)
    (hn : popCount cola 15 = n) : populated cola j ↔ n.testBit j = true := by
  have h := popCount_bit cola 15 j hj
  rw [hn] at h
  rw [Nat.testBit_to_div_mod, decide_eq_true_eq]
  have hcast : ((n / 2 ^ j % 2 : Nat) : Int) = (n : Int) / 2 ^ j % 2 := by
    push_cast
    rfl
  unfold populated
  constructor
  · intro hp
    rw [if_pos hp] at h
    omega
  · intro hb hp
    rw [if_neg (not_not.2 hp)] at h
    omega

/-! ## The read path -/

theorem div_mod_shift (block y q : Int) (hb : 1 ≤ block) :
    (y + q * block) / block = y / block + q ∧ (y + q * block) % block = y % block :=
  ⟨Int.add_mul_ediv_right y q (by omega), Int.add_mul_emod_self⟩

theorem div_mod_small (block x q : Int) (hb : 1 ≤ block) (h0 : 0 ≤ x) (h1 : x < block) :
    (x + q * block) / block = q ∧ (x + q * block) % block = x := by
  obtain ⟨d1, d2⟩ := div_mod_shift block x q hb
  rw [d1, d2, Int.ediv_eq_zero_of_lt h0 h1, Int.emod_eq_of_lt h0 h1]
  exact ⟨by omega, rfl⟩

theorem chainAt_zero (FAT : Int → Int) (head : Int) : chainAt FAT head 0 = head := rfl

theorem chainAt_succ (FAT : Int → Int) (head : Int) (k : Nat) :
    chainAt FAT head (k + 1) = FAT (chainAt FAT head k) :=
  Function.iterate_succ_apply' FAT k head

theorem chainAt_shift (FAT : Int → Int) (head : Int) (k : Nat) :
    chainAt FAT (FAT head) k = chainAt FAT head (k + 1) :=
  (Function.iterate_succ_apply FAT k head).symm

theorem chainAt_add (FAT : Int → Int) (head : Int) (a b : Nat) :
    chainAt FAT (chainAt FAT head b) a = chainAt FAT head (a + b) :=
  (Function.iterate_add_apply FAT a b head).symm

/-- The walk of `cfs_read` to the block that contains position `t`. -/
theorem read_walk_spec (FAT : Int → Int) (block : Int) (hb : 1 ≤ block) :
    ∀ (n : Nat) (b t : Int), 0 ≤ t → t ≤ n →
      read_walk FAT block n b t = (chainAt FAT b (t / block).toNat, t % block) := by
  intro n
  induction n with
  | zero =>
    intro b t h0 hn
    have ht : t = 0 := by push_cast at hn; omega
    subst ht
    simp [read_walk, chainAt]
  | succ n ih =>
    intro b t h0 hn
    unfold read_walk
    by_cases hge : t ≥ block
    · rw [if_pos hge, ih (FAT b) (t - block) (by omega) (by push_cast at hn; omega)]
      obtain ⟨d1, d2⟩ := div_mod_shift block (t - block) 1 hb
      rw [one_mul, sub_add_cancel] at d1 d2
      have hq : 0 ≤ (t - block) / block := Int.ediv_nonneg (by omega) (by omega)
      have hk : (t / block).toNat = ((t - block) / block).toNat + 1 := by omega
      rw [chainAt_shift, hk, d2]
    · rw [if_neg hge, Int.ediv_eq_zero_of_lt h0 (by omega), Int.emod_eq_of_lt h0 (by omega)]
      rfl

/-- The block loop of `cfs_read` fills `buf[read .. read + left)` from the chain that
starts at `b`. -/
theorem read_loop_spec (FAT : Int → Int) (data : Int → Int → Nat) (block : Int)
    (hb : 1 ≤ block) :
    ∀ (n : Nat) (buf : Int → Nat) (b left read : Int), 0 ≤ left → left ≤ n →
      ∀ j, read_loop FAT data block n buf b left read j =
        if read ≤ j ∧ j < read + left then
          data (chainAt FAT b ((j - read) / block).toNat) ((j - read) % block)
        else buf j := by
  intro n
  induction n with
  | zero =>
    intro buf b left read h0 hn j
    push_cast at hn
    rw [if_neg (by omega)]
    rfl
  | succ n ih =>
    intro buf b left read h0 hn j
    unfold read_loop
    by_cases hpos : left > 0
    · rw [if_pos hpos]
      by_cases hgt : left > block
      · rw [if_pos hgt, ih _ _ _ _ (by omega) (by push_cast at hn; omega)]
        by_cases hin : read + block ≤ j ∧ j < read + block + (left - block)
        · rw [if_pos hin, if_pos (by omega)]
          obtain ⟨d1, d2⟩ := div_mod_shift block (j - (read + block)) 1 hb
          have he : j - (read + block) + 1 * block = j - read := by omega
          rw [he] at d1 d2
          have hq : 0 ≤ (j - (read + block)) / block := Int.ediv_nonneg (by omega) (by omega)
          have hk : ((j - read) / block).toNat = ((j - (read + block)) / block).toNat + 1 := by
            omega
          rw [chainAt_shift, hk, d2]
        · rw [if_neg hin]
          unfold memcpy
          by_cases hfirst : read ≤ j ∧ j < read + block
          · rw [if_pos hfirst, if_pos (by omega)]
            obtain ⟨d1, d2⟩ := div_mod_small block (j - read) 0 hb (by omega) (by omega)
            rw [zero_mul, add_zero] at d1 d2
            rw [d1, d2, zero_add]
            rfl
          · rw [if_neg hfirst, if_neg (by omega)]
      · rw [if_neg hgt, ih _ _ _ _ (le_refl 0) (by positivity), if_neg (by omega)]
        unfold memcpy
        by_cases hfirst : read ≤ j ∧ j < read + left
        · rw [if_pos hfirst, if_pos hfirst]
          obtain ⟨d1, d2⟩ := div_mod_small block (j - read) 0 hb (by omega) (by omega)
          rw [zero_mul, add_zero] at d1 d2
          rw [d1, d2, zero_add]
          rfl
        · rw [if_neg hfirst, if_neg hfirst]
    · rw [if_neg hpos, if_neg (by omega)]

/-- Result of `cfs_read` in closed form: the clamped length and the buffer filled
from the chain of the file. -/
theorem read_spec (block : Int) (st : State) (path : List Nat) (buf : Int → Nat)
    (size offset : Int) (hb : 1 ≤ block) (hpath : checkPath path = 0)
    (hfind : find path.tail st.COLA ≠ EMPTY) (hoff : 0 ≤ offset)
    (hlt : offset < (st.COLA (find path.tail st.COLA)).size)
    (hs : (st.COLA (find path.tail st.COLA)).size < 2147483648) (hsize : 0 ≤ size) :
    cfs_read block st path buf size offset =
      (min size ((st.COLA (find path.tail st.COLA)).size - offset),
        fun j =>
          if 0 ≤ j ∧ j < min size ((st.COLA (find path.tail st.COLA)).size - offset) then
            st.data (chainAt st.FAT (st.COLA (find path.tail st.COLA)).blockNum
              ((offset + j) / block).toNat) ((offset + j) % block)
          else buf j) := by
  have hto : toInt32 offset = offset := toInt32_id _ (by omega) (by omega)
  have hc : (if size + offset > (st.COLA (find path.tail st.COLA)).size
      then (st.COLA (find path.tail st.COLA)).size - offset else size) =
      min size ((st.COLA (find path.tail st.COLA)).size - offset) := by
    by_cases h : size + offset > (st.COLA (find path.tail st.COLA)).size
    · rw [if_pos h, min_eq_right (by omega)]
    · rw [if_neg h, min_eq_left (by omega)]
  have hc0 : 0 ≤ min size ((st.COLA (find path.tail st.COLA)).size - offset) :=
    le_min hsize (by omega)
  have hc1 : min size ((st.COLA (find path.tail st.COLA)).size - offset) < 2147483648 :=
    lt_of_le_of_lt (min_le_right _ _) (by omega)
  have hq : 0 ≤ offset / block := Int.ediv_nonneg hoff (by omega)
  have hr0 : 0 ≤ offset % block := Int.emod_nonneg _ (by omega)
  have hr1 : offset % block < block := Int.emod_lt_of_pos _ (by omega)
  have hsplit : offset = offset % block + offset / block * block := by
    have := Int.emod_add_ediv offset block
    rw [mul_comm] at this
    omega
  -- positions in the block where the read starts
  have hsame : ∀ j, 0 ≤ j → offset % block + j < block →
      (offset + j) / block = offset / block ∧ (offset + j) % block = offset % block + j := by
    intro j hj0 hj1
    have h := div_mod_small block (offset % block + j) (offset / block) hb (by omega) hj1
    have he : offset % block + j + offset / block * block = offset + j := by omega
    rw [he] at h
    exact h
  unfold cfs_read
  rw [if_neg (by rw [hpath]; simp)]
  dsimp only
  rw [if_neg hfind, if_neg (by omega), hc, hto,
    read_walk_spec st.FAT block hb offset.toNat _ offset hoff (by omega),
    toInt32_id _ (by omega) (by omega)]
  dsimp only
  generalize hcdef : min size ((st.COLA (find path.tail st.COLA)).size - offset) = c at *
  by_cases hcross : c + offset % block > block
  · rw [if_pos hcross, toInt32_id _ (by omega) (by omega)]
    congr 1
    funext j
    rw [read_loop_spec st.FAT st.data block hb _ _ _ _ _ (by omega) (by omega)]
    by_cases hin : block - offset % block ≤ j ∧
        j < block - offset % block + (c - (block - offset % block))
    · rw [if_pos hin, if_pos (by omega)]
      obtain ⟨d1, d2⟩ := div_mod_shift block (j - (block - offset % block))
        (offset / block + 1) hb
      have he : j - (block - offset % block) + (offset / block + 1) * block = offset + j := by
        have : (offset / block + 1) * block = offset / block * block + block := by ring
        omega
      rw [he] at d1 d2
      have hq2 : 0 ≤ (j - (block - offset % block)) / block :=
        Int.ediv_nonneg (by omega) (by omega)
      have hk : ((offset + j) / block).toNat =
          ((j - (block - offset % block)) / block).toNat + ((offset / block).toNat + 1) := by
        omega
      rw [← chainAt_succ st.FAT _ (offset / block).toNat, chainAt_add, hk, d2]
    · rw [if_neg hin]
      unfold memcpy
      by_cases hfirst : 0 ≤ j ∧ j < 0 + (block - offset % block)
      · rw [if_pos hfirst, if_pos (by omega)]
        obtain ⟨d1, d2⟩ := hsame j hfirst.1 (by omega)
        rw [d1, d2]
        congr 1
        omega
      · rw [if_neg hfirst, if_neg (by omega)]
  · rw [if_neg hcross]
    congr 1
    funext j
    unfold memcpy
    by_cases hfirst : 0 ≤ j ∧ j < 0 + c
    · rw [if_pos hfirst, if_pos (by omega)]
      obtain ⟨d1, d2⟩ := hsame j hfirst.1 (by omega)
      rw [d1, d2]
      congr 1
      omega
    · rw [if_neg hfirst, if_neg (by omega)]

/-- Two tables that agree on the links of the first `K` chain blocks give the same
chain up to block `K`. -/
theorem chainAt_congr (F1 F2 : Int → Int) (head : Int) (K : Nat)
    (h : ∀ i, i < K → F1 (chainAt F2 head i) = F2 (chainAt F2 head i)) :
    ∀ i, i ≤ K → chainAt F1 head i = chainAt F2 head i := by
  intro i
  induction i with
  | zero => intro _; rfl
  | succ i ih =>
    intro hi
    rw [chainAt_succ, chainAt_succ, ih (by omega), h i (by omega)]
/-! ## The merge on an arbitrary array -/

theorem mergeRuns_step (orig : Int → fileInfo) (fi : fileInfo) (t : Nat) (done : Int)
    (cola : Int → fileInfo) (heads : Nat → Int) (ins : Bool)
    (inv : MergeRuns orig fi t done cola heads ins) (hd : done < 2 ^ t) :
    MergeRuns orig fi t (done + 1)
      (upd (findMin cola heads fi ins t).cola (2 ^ t - 1 + done) (findMin cola heads fi ins t).min)
      (findMin cola heads fi ins t).heads (findMin cola heads fi ins t).fiInserted := by
  have hpt := two_pow_pos t
  have hst := two_pow_succ t
  have hnn := inv.nonneg
  have hb1 : ∀ j, j < t → consumed heads j ≤ 2 ^ j :=
    fun j hj => (consumed_bounds orig cola heads j (inv.runs j hj)).1
  have hb2 : ∀ j, j < t → heads j ≠ EMPTY → consumed heads j < 2 ^ j :=
    fun j hj => (consumed_bounds orig cola heads j (inv.runs j hj)).2.1
  have hb3 : ∀ j, j < t → heads j ≠ EMPTY →
      inRun j (heads j) ∧ ∀ p, inRun j p → cola p = orig p := by
    intro j hj hne
    rcases inv.runs j hj with ⟨h1, _⟩ | h1
    · exact absurd h1 hne
    · exact h1
  have hlow : ∀ j, j < t → ∀ p, inRun j p → p ≠ 2 ^ t - 1 + done := by
    intro j hj p hp
    have := lowRun_lt j t hj p hp
    omega
  have hkeep : ∀ (c : Int → fileInfo) (v : fileInfo) (h : Nat → Int),
      (∀ j, j < t → (h j = EMPTY ∧ runEmpty c j) ∨
        (inRun j (h j) ∧ ∀ p, inRun j p → c p = orig p)) →
      ∀ j, j < t → (h j = EMPTY ∧ runEmpty (upd c (2 ^ t - 1 + done) v) j) ∨
        (inRun j (h j) ∧ ∀ p, inRun j p → upd c (2 ^ t - 1 + done) v p = orig p) := by
    intro c v h hr j hj
    rcases hr j hj with ⟨h1, h2⟩ | ⟨h1, h2⟩
    · left
      exact ⟨h1, fun p hp => by rw [upd_ne _ _ _ _ (hlow j hj p hp)]; exact h2 p hp⟩
    · right
      exact ⟨h1, fun p hp => by rw [upd_ne _ _ _ _ (hlow j hj p hp)]; exact h2 p hp⟩
  have hframe : ∀ (c : Int → fileInfo) (v : fileInfo),
      (∀ p, (p < 0 ∨ 2 ^ (t + 1) - 1 ≤ p) → c p = orig p) →
      ∀ p, (p < 0 ∨ 2 ^ (t + 1) - 1 ≤ p) → upd c (2 ^ t - 1 + done) v p = orig p := by
    intro c v hc p hp
    rw [upd_ne _ _ _ _ (by omega)]
    exact hc p hp
  -- the first slot of the target run: written now, or kept from an earlier iteration
  have hfirst : ∀ (c : Int → fileInfo) (v : fileInfo),
      (done = 0 → v = fi ∨ ∃ j, j < t ∧ v = orig (2 ^ j - 1)) →
      c (2 ^ t - 1) = cola (2 ^ t - 1) →
      0 < done + 1 →
      upd c (2 ^ t - 1 + done) v (2 ^ t - 1) = fi ∨
        ∃ j, j < t ∧ upd c (2 ^ t - 1 + done) v (2 ^ t - 1) = orig (2 ^ j - 1) := by
    intro c v hv hc _
    by_cases hd0 : done = 0
    · rw [hd0, add_zero, upd_eq]
      exact hv hd0
    · rw [upd_ne _ _ _ _ (by omega), hc]
      exact inv.first (by omega)
  rcases findMin_cases cola heads fi ins t with ⟨hall, hres⟩ | ⟨m, hm, hmne, _, hcase⟩
  · -- only `fi` is left
    rw [hres]
    dsimp only
    have hcnt := consumedTotal_all heads t hall
    have hc := inv.count
    have hflag : ¬ (ins = true ∨ done = 2 ^ t) := by
      intro hf
      rw [if_pos hf] at hc
      omega
    rw [if_neg hflag] at hc
    exact {
      runs := hkeep cola fi heads inv.runs
      count := by rw [if_pos (Or.inr (by omega))]; omega
      nonneg := by omega
      frame := hframe cola fi inv.frame
      start := fun h => by omega
      first := hfirst cola fi (fun _ => Or.inl rfl) rfl }
  · have hc := inv.count
    rcases hcase with ⟨hins, _, hres⟩ | ⟨hwhy, hres⟩
    · -- `fi` goes out before the least head
      rw [hres]
      dsimp only
      have hflag : ¬ (ins = true ∨ done = 2 ^ t) := by
        intro hf
        rcases hf with hf | hf
        · rw [hins] at hf; cases hf
        · omega
      rw [if_neg hflag] at hc
      exact {
        runs := hkeep cola fi heads inv.runs
        count := by rw [if_pos (Or.inl rfl)]; omega
        nonneg := by omega
        frame := hframe cola fi inv.frame
        start := fun h => by omega
        first := hfirst cola fi (fun _ => Or.inl rfl) rfl }
    · -- the least head goes out and is consumed
      rw [hres]
      dsimp only
      obtain ⟨hin, hintact⟩ := hb3 m hm hmne
      obtain ⟨a1, a2, a3, a4⟩ := advance_spec cola heads m hin
      have hcnt := consumedTotal_step heads (advance cola heads m).2 m a1 a2 t hm
      have hlt := consumedTotal_lt heads m (hb2 m hm hmne) t hm hb1
      have hruns : ∀ j, j < t →
          ((advance cola heads m).2 j = EMPTY ∧ runEmpty (advance cola heads m).1 j) ∨
          (inRun j ((advance cola heads m).2 j) ∧
            ∀ p, inRun j p → (advance cola heads m).1 p = orig p) := by
        intro j hj
        by_cases hjm : j = m
        · subst hjm
          rcases a4 with ⟨h1, h2⟩ | ⟨h1, h2, h3⟩
          · exact Or.inl ⟨h1, h2⟩
          · right
            rw [h1, h3]
            exact ⟨h2, hintact⟩
        · have hsame : ∀ p, inRun j p → (advance cola heads m).1 p = cola p :=
            fun p hp => a3 p (fun hmp => hjm (inRun_disjoint j m p hp hmp))
          rw [a1 j hjm]
          rcases inv.runs j hj with ⟨h1, h2⟩ | ⟨h1, h2⟩
          · exact Or.inl ⟨h1, fun p hp => by rw [hsame p hp]; exact h2 p hp⟩
          · exact Or.inr ⟨h1, fun p hp => by rw [hsame p hp]; exact h2 p hp⟩
      have hnotin : ∀ p, (p < 0 ∨ 2 ^ t - 1 ≤ p) → ¬ inRun m p := by
        intro p hp hmp
        have := lowRun_lt m t hm p hmp
        omega
      exact {
        runs := hkeep _ _ _ hruns
        count := by
          rw [hcnt]
          by_cases hf : ins = true ∨ done = 2 ^ t
          · rw [if_pos hf] at hc
            rcases hf with hf | hf
            · rw [if_pos (Or.inl hf)]; omega
            · omega
          · rw [if_neg hf] at hc
            rw [if_neg (by
              intro hf2
              rcases hf2 with hf2 | hf2
              · exact hf (Or.inl hf2)
              · omega)]
            omega
        nonneg := by omega
        frame := hframe _ _ (fun p hp => by
          rw [a3 p (hnotin p (by omega))]
          exact inv.frame p hp)
        start := fun h => by omega
        first := hfirst _ _ (fun hd0 => Or.inr ⟨m, hm, by
            rw [inv.start hd0 m hm, hintact _ (inRun_first m)]⟩)
          (a3 _ (hnotin _ (Or.inr (le_refl _)))) }

theorem merge_loop_runs (orig : Int → fileInfo) (fi : fileInfo) (t : Nat) :
    ∀ (n : Nat) (done : Int) (cola : Int → fileInfo) (heads : Nat → Int) (ins : Bool),
      MergeRuns orig fi t done cola heads ins → done + n = 2 ^ t →
      ∃ heads1 ins1,
        MergeRuns orig fi t (2 ^ t) (merge_loop (2 ^ t - 1) t fi n done cola heads ins)
          heads1 ins1 := by
  intro n
  induction n with
  | zero =>
    intro done cola heads ins inv hn
    have hd : done = 2 ^ t := by simpa using hn
    subst hd
    exact ⟨heads, ins, inv⟩
  | succ n ih =>
    intro done cola heads ins inv hn
    unfold merge_loop
    exact ih (done + 1) _ _ _
      (mergeRuns_step orig fi t done cola heads ins inv (by push_cast at hn; omega))
      (by push_cast at hn; omega)

theorem mergeRuns_init (cola : Int → fileInfo) (fi : fileInfo) (t : Nat) :
    MergeRuns cola fi t 0 cola (fun j => power 2 j - 1) false := by
  have hpt := two_pow_pos t
  exact {
    runs := fun j _ => Or.inr ⟨by simp only [power_two]; exact inRun_first j, fun _ _ => rfl⟩
    count := by
      rw [consumedTotal_init, if_neg (by
        intro h
        rcases h with h | h
        · cases h
        · omega)]
      rfl
    nonneg := le_refl _
    frame := fun _ _ => rfl
    start := fun _ j _ => by simp only [power_two]
    first := fun h => absurd h (lt_irrefl _) }

/-- What `merge` leaves on any array: the source runs are cleared, the first slot of
the target run holds the new element or the first element of a source run, and
nothing outside the runs `0 .. t` moves. -/
theorem merge_runs (cola : Int → fileInfo) (fi : fileInfo) (t : Nat) :
    (∀ j, j < t → runEmpty (merge (2 ^ t - 1) t fi cola) j) ∧
    (merge (2 ^ t - 1) t fi cola (2 ^ t - 1) = fi ∨
      ∃ j, j < t ∧ merge (2 ^ t - 1) t fi cola (2 ^ t - 1) = cola (2 ^ j - 1)) ∧
    ∀ p, (p < 0 ∨ 2 ^ (t + 1) - 1 ≤ p) → merge (2 ^ t - 1) t fi cola p = cola p := by
  obtain ⟨heads1, ins1, inv⟩ := merge_loop_runs cola fi t ((2 : Int) ^ t - 1 + 1).toNat 0
    cola _ false (mergeRuns_init cola fi t) (by rw [merge_fuel]; omega)
  have hpt := two_pow_pos t
  have hb1 : ∀ j, j < t → consumed heads1 j ≤ 2 ^ j :=
    fun j hj => (consumed_bounds cola _ heads1 j (inv.runs j hj)).1
  have hb2 : ∀ j, j < t → heads1 j ≠ EMPTY → consumed heads1 j < 2 ^ j :=
    fun j hj => (consumed_bounds cola _ heads1 j (inv.runs j hj)).2.1
  have hc := inv.count
  rw [if_pos (Or.inr rfl)] at hc
  have hall : ∀ j, j < t → heads1 j = EMPTY := by
    intro j hj
    by_contra hne
    have := consumedTotal_lt heads1 j (hb2 j hj hne) t hj hb1
    omega
  refine ⟨fun j hj => ?_, inv.first (by omega), inv.frame⟩
  rcases inv.runs j hj with ⟨_, h⟩ | ⟨h, _⟩
  · exact h
  · exfalso
    have := two_pow_pos j
    have he := hall j hj
    unfold inRun at h
    simp only [EMPTY] at he
    omega

/-- Shape of the array after a successful `insert`, on any array: the target is the
lowest unpopulated run, the runs below it are cleared, its first slot holds the new
element or the first element of a run below, and no slot above it moves. -/
theorem insert_runs (fi : fileInfo) (cola : Int → fileInfo) (h : (insert fi cola).1 = 1) :
    ∃ i, i < 15 ∧ ¬ populated cola i ∧ (∀ j, j < i → populated cola j) ∧
      (fi.blockNum ≠ EMPTY → populated (insert fi cola).2 i) ∧
      (∀ j, j < i → runEmpty (insert fi cola).2 j) ∧
      ∀ p, 2 ^ (i + 1) - 1 ≤ p → (insert fi cola).2 p = cola p := by
  rcases insert_cases fi cola with ⟨_, hres⟩ | ⟨t, ht, hne, hlow, hres⟩
  · rw [hres] at h
    have h01 : (0 : Int) ≠ 1 := by decide
    exact absurd h h01
  · rw [hres]
    dsimp only
    obtain ⟨s1, s2, s3⟩ := merge_runs cola fi t
    refine ⟨t, ht, hne, hlow, fun hfi => ?_, s1, fun p hp => s3 p (Or.inr hp)⟩
    unfold populated
    rcases s2 with s2 | ⟨j, hj, s2⟩
    · rw [s2]; exact hfi
    · rw [s2]; exact hlow j hj

/-! ## Return value of `cfs_mknod` -/

theorem search_ne_EMPTY (FAT : Int → Int)
    (hfree : ∃ b, 0 ≤ b ∧ b ≤ numOfFiles ∧ FAT b = EMPTY) : searchFAT FAT ≠ EMPTY := by
  obtain ⟨b, b0, b1, bE⟩ := hfree
  rcases searchFAT_spec FAT with ⟨_, h2⟩ | ⟨h1, _, _, _⟩
  · exact absurd bE (h2 b b0 b1)
  · simp only [EMPTY]
    omega

/-- A full COLA: `cfs_mknod` of a valid absent path returns `-ENOSPC` when
`searchFAT` finds a word. -/
theorem mknod_full_cola (st : State) (path : List Nat) (hpath : checkPath path = 0)
    (habs : find path.tail st.COLA = EMPTY)
    (hfree : ∃ b, 0 ≤ b ∧ b ≤ numOfFiles ∧ st.FAT b = EMPTY)
    (hall : ∀ t, t < 15 → populated st.COLA t) :
    (cfs_mknod st path).1 = -ENOSPC := by
  have hne := search_ne_EMPTY st.FAT hfree
  unfold cfs_mknod
  rw [if_neg (by rw [hpath]; simp), if_neg (by rw [habs]; simp)]
  dsimp only
  rw [if_neg hne]
  rcases insert_cases ⟨0, path.tail, searchFAT st.FAT⟩ st.COLA with ⟨_, hres⟩ | ⟨t, ht, hn, _, _⟩
  · rw [hres, if_pos rfl]
  · exact absurd (hall t ht) hn

/-- A COLA with an unpopulated run: `cfs_mknod` of a valid absent path returns 0 when
`searchFAT` finds a word. -/
theorem mknod_room (st : State) (path : List Nat) (hpath : checkPath path = 0)
    (habs : find path.tail st.COLA = EMPTY)
    (hfree : ∃ b, 0 ≤ b ∧ b ≤ numOfFiles ∧ st.FAT b = EMPTY)
    (hroom : ∃ t, t < 15 ∧ ¬ populated st.COLA t) :
    (cfs_mknod st path).1 = 0 := by
  have hne := search_ne_EMPTY st.FAT hfree
  have h10 : ¬ ((1 : Int) = 0) := by decide
  unfold cfs_mknod
  rw [if_neg (by rw [hpath]; simp), if_neg (by rw [habs]; simp)]
  dsimp only
  rw [if_neg hne]
  rcases insert_cases ⟨0, path.tail, searchFAT st.FAT⟩ st.COLA with ⟨hall, _⟩ | ⟨t, _, _, _, hres⟩
  · obtain ⟨t, ht, hn⟩ := hroom
    exact absurd (hall t ht) hn
  · rw [hres, if_neg h10]

theorem fullCola_populated (t : Nat) (_ht : t < 15) : populated fullColaState.COLA t :=
  sampleEntry_head _
/-! ## Allocation failure in the write path -/

theorem searchFAT_none (FAT : Int → Int)
    (h : ∀ k, 0 ≤ k → k ≤ numOfFiles → FAT k ≠ EMPTY) : searchFAT FAT = EMPTY := by
  rcases searchFAT_spec FAT with ⟨h1, _⟩ | ⟨h1, h2, h3, _⟩
  · exact h1
  · exact absurd h3 (h _ h1 h2)

theorem searchFAT_only (FAT : Int → Int) (b : Int) (hb0 : 0 ≤ b) (hb1 : b ≤ numOfFiles)
    (h : ∀ k, 0 ≤ k → k ≤ numOfFiles → (FAT k = EMPTY ↔ k = b)) : searchFAT FAT = b := by
  rcases searchFAT_spec FAT with ⟨_, h2⟩ | ⟨h1, h2, h3, _⟩
  · exact absurd ((h b hb0 hb1).2 rfl) (h2 b hb0 hb1)
  · exact (h _ h1 h2).1 h3

/-- One turn of the block loop of `cfs_write` with more than a block left. -/
theorem write_loop_more (block : Int) (buf : Int → Nat) (n : Nat) (FAT : Int → Int)
    (data : Int → Int → Nat) (b left written : Int) (hleft : left > 0) (hgt : left > block) :
    write_loop block buf (n + 1) FAT data b left written =
      if searchFAT FAT = EMPTY then
        some (WriteOut.noSpace (upd (upd FAT b (searchFAT FAT)) b END)
          (upd data b (memcpy (data b) 0 buf written block)))
      else
        write_loop block buf n (upd FAT b (searchFAT FAT))
          (upd data b (memcpy (data b) 0 buf written block)) (searchFAT FAT) (left - block)
          (written + block) := by
  rw [write_loop, if_pos hleft, if_pos hgt]
  dsimp only
  rw [upd_eq]

/-- Result of `cfs_write` when the first extension finds a block and the block loop
then ends for lack of one. -/
theorem write_loop_nomem (block : Int) (st : State) (path : List Nat) (buf : Int → Nat)
    (size offset cur tempOff : Int) (F : Int → Int) (D : Int → Int → Nat)
    (hpath : checkPath path = 0) (hfind : find path.tail st.COLA ≠ EMPTY)
    (hw : write_walk st.FAT block (toInt32 offset).toNat
      (st.COLA (find path.tail st.COLA)).blockNum (toInt32 offset) = (cur, tempOff))
    (hcross : tempOff + size > block) (hfree : searchFAT st.FAT ≠ EMPTY)
    (hloop : write_loop block buf (toInt32 (size - (block - tempOff))).toNat
      (upd st.FAT cur (searchFAT st.FAT))
      (upd st.data cur (memcpy (st.data cur) tempOff buf 0 (block - tempOff)))
      (searchFAT st.FAT) (toInt32 (size - (block - tempOff))) (block - tempOff) =
        some (WriteOut.noSpace F D)) :
    cfs_write block st path buf size offset = some (-ENOMEM, ⟨st.COLA, F, D⟩) := by
  unfold cfs_write
  rw [if_neg (by rw [hpath]; simp)]
  dsimp only
  rw [if_neg hfind, hw]
  dsimp only
  rw [if_pos hcross, upd_eq, if_neg hfree, hloop]

/-- In `oneFreeState` a write of four blocks to `/a` takes block 1 at the first
extension, links block 1 to itself at the second, and finds no block at the third:
it returns `-ENOMEM` from inside the block loop. -/
theorem oneFree_write :
    ∃ st1, cfs_write 4096 oneFreeState [47, 97] bytes3 16384 0 = some (-ENOMEM, st1) := by
  have hF : ∀ k, oneFreeState.FAT k = if k = 1 then EMPTY else END := fun _ => rfl
  have hEE : END ≠ EMPTY := by decide
  have h1E : (1 : Int) ≠ EMPTY := by decide
  have s0 : searchFAT oneFreeState.FAT = 1 := by
    refine searchFAT_only _ 1 (by decide) (by decide) (fun k _ _ => ?_)
    rw [hF]
    by_cases hk : k = 1
    · rw [if_pos hk]; exact ⟨fun _ => hk, fun _ => rfl⟩
    · rw [if_neg hk]; exact ⟨fun h => absurd h hEE, fun h => absurd h hk⟩
  have s1 : searchFAT (upd oneFreeState.FAT 0 1) = 1 := by
    refine searchFAT_only _ 1 (by decide) (by decide) (fun k _ _ => ?_)
    by_cases hk0 : k = 0
    · rw [hk0, upd_eq]
      exact ⟨fun h => absurd h h1E, fun h => absurd h (by decide)⟩
    · rw [upd_ne _ _ _ _ hk0, hF]
      by_cases hk : k = 1
      · rw [if_pos hk]; exact ⟨fun _ => hk, fun _ => rfl⟩
      · rw [if_neg hk]; exact ⟨fun h => absurd h hEE, fun h => absurd h hk⟩
  have s2 : searchFAT (upd (upd oneFreeState.FAT 0 1) 1 1) = EMPTY := by
    refine searchFAT_none _ (fun k _ _ => ?_)
    by_cases hk1 : k = 1
    · rw [hk1, upd_eq]; exact h1E
    · rw [upd_ne _ _ _ _ hk1]
      by_cases hk0 : k = 0
      · rw [hk0, upd_eq]; exact h1E
      · rw [upd_ne _ _ _ _ hk0, hF, if_neg hk1]; exact hEE
  have hleft : toInt32 (16384 - (4096 - 0)) = 12288 := rfl
  have hfuel : (12288 : Int).toNat = 12286 + 1 + 1 := rfl
  have hl : ∃ F D, write_loop 4096 bytes3 (toInt32 (16384 - (4096 - 0))).toNat
      (upd oneFreeState.FAT 0 (searchFAT oneFreeState.FAT))
      (upd oneFreeState.data 0 (memcpy (oneFreeState.data 0) 0 bytes3 0 (4096 - 0)))
      (searchFAT oneFreeState.FAT) (toInt32 (16384 - (4096 - 0))) (4096 - 0) =
        some (WriteOut.noSpace F D) := by
    rw [s0, hleft, hfuel, write_loop_more _ _ _ _ _ _ _ _ (by decide) (by decide), s1,
      if_neg h1E, write_loop_more _ _ _ _ _ _ _ _ (by decide) (by decide), s2, if_pos rfl]
    exact ⟨_, _, rfl⟩
  obtain ⟨F, D, hl⟩ := hl
  exact ⟨_, write_loop_nomem 4096 oneFreeState [47, 97] bytes3 16384 0 0 0 F D (by decide)
    (by decide) rfl (by decide) (by rw [s0]; exact h1E) hl⟩

/-! ## The claims -/

/-- C1. Insert followed by lookup behaves like a map update: on an array that
satisfies I1-I3 and has an empty run among the runs 0..14, for an entry `e` whose
head is not `EMPTY` and whose name no populated slot carries, `insert` returns 1,
`find e.name` afterwards returns a slot that holds `e`, and for every other name
`find` returns `EMPTY` exactly when it did before and otherwise a slot holding the
record it held before. -/
theorem C1_insert_then_find (cola : Int → fileInfo) (e : fileInfo) (hinv : colaInv cola)
    (hroom : ∃ t, t < 15 ∧ runEmpty cola t) (he : e.blockNum ≠ EMPTY)
    (hfresh : ¬ present cola e.name) :
    (insert e cola).1 = 1 ∧
    (find e.name (insert e cola).2 ≠ EMPTY ∧
      (insert e cola).2 (find e.name (insert e cola).2) = e) ∧
    ∀ n, n ≠ e.name →
      (find n (insert e cola).2 = EMPTY ↔ find n cola = EMPTY) ∧
      (find n cola ≠ EMPTY →
        (insert e cola).2 (find n (insert e cola).2) = cola (find n cola)) := by
  have hroom2 : ∃ t, t < 15 ∧ ¬ populated cola t := by
    obtain ⟨t, ht, hempty⟩ := hroom
    exact ⟨t, ht, fun hp => hp (hempty _ (inRun_first t))⟩
  exact ⟨(insert_ok cola e hinv hroom2 he hfresh).1, find_after_insert cola e hinv hroom2 he hfresh⟩

/-- Witness of C1: the entry `a` inserted into the array holding `b`. -/
theorem C1_insert_then_find_witness :
    colaInv cola1 ∧ (∃ t, t < 15 ∧ runEmpty cola1 t) ∧
    (insert ⟨0, [97], 3⟩ cola1).1 = 1 ∧
    (find [97] (insert ⟨0, [97], 3⟩ cola1).2 ≠ EMPTY ∧
      (insert ⟨0, [97], 3⟩ cola1).2 (find [97] (insert ⟨0, [97], 3⟩ cola1).2) = ⟨0, [97], 3⟩) ∧
    ∀ n, n ≠ [97] →
      (find n (insert ⟨0, [97], 3⟩ cola1).2 = EMPTY ↔ find n cola1 = EMPTY) ∧
      (find n cola1 ≠ EMPTY →
        (insert ⟨0, [97], 3⟩ cola1).2 (find n (insert ⟨0, [97], 3⟩ cola1).2) =
          cola1 (find n cola1)) :=
  ⟨colaInv_cola1, ⟨1, by decide, runEmpty_cola1⟩,
    C1_insert_then_find cola1 ⟨0, [97], 3⟩ colaInv_cola1 ⟨1, by decide, runEmpty_cola1⟩
      (by decide) not_present_cola1⟩

/-- C2. `insert` preserves the COLA invariants: if every run is entirely empty or
entirely populated (I3), every populated run is strictly ascending by name under
`strcmp` (I1) and no name occurs in two populated slots (I2), then after a successful
`insert` of an entry whose head is not `EMPTY` and whose name is not present, the
array satisfies I3, I1 and I2 again. -/
theorem C2_insert_preserves_invariants (cola : Int → fileInfo) (e : fileInfo)
    (hshape : colaShape cola) (hsorted : colaSorted cola) (hunique : colaUnique cola)
    (he : e.blockNum ≠ EMPTY) (hfresh : ¬ present cola e.name)
    (hsucc : (insert e cola).1 = 1) :
    colaShape (insert e cola).2 ∧ colaSorted (insert e cola).2 ∧
      colaUnique (insert e cola).2 := by
  have hroom : ∃ t, t < 15 ∧ ¬ populated cola t := by
    rcases insert_cases e cola with ⟨_, h⟩ | ⟨t, ht, hne, _, _⟩
    · rw [h] at hsucc
      have h01 : (0 : Int) ≠ 1 := by decide
      exact absurd hsucc h01
    · exact ⟨t, ht, hne⟩
  exact (insert_ok cola e ⟨hshape, hsorted, hunique⟩ hroom he hfresh).2.1

/-- Witness of C2: the entry `a` inserted into the array holding `b`. -/
theorem C2_insert_preserves_invariants_witness :
    (colaShape cola1 ∧ colaSorted cola1 ∧ colaUnique cola1) ∧
    (insert ⟨0, [97], 3⟩ cola1).1 = 1 ∧
    colaShape (insert ⟨0, [97], 3⟩ cola1).2 ∧ colaSorted (insert ⟨0, [97], 3⟩ cola1).2 ∧
      colaUnique (insert ⟨0, [97], 3⟩ cola1).2 :=
  ⟨colaInv_cola1, by decide,
    C2_insert_preserves_invariants cola1 ⟨0, [97], 3⟩ colaInv_cola1.1 colaInv_cola1.2.1
      colaInv_cola1.2.2 (by decide) not_present_cola1 (by decide)⟩

/-- C3. `find` is a correct lookup on an array satisfying I1-I3: it returns `EMPTY`
exactly when no slot of a populated run among the 15 runs carries the name;
otherwise it returns a slot of a populated run whose name is the one asked for, and
that slot is the only such one; it never returns a slot of an unpopulated run. -/
theorem C3_find_correct (cola : Int → fileInfo) (hinv : colaInv cola) (name : List Nat) :
    (find name cola = EMPTY ↔
      ¬ ∃ t j, t < 15 ∧ populated cola t ∧ inRun t j ∧ (cola j).name = name) ∧
    (find name cola ≠ EMPTY →
      ∃ t, t < 15 ∧ populated cola t ∧ inRun t (find name cola) ∧
        (cola (find name cola)).name = name) ∧
    (∀ t j, t < 15 → populated cola t → inRun t j → (cola j).name = name →
      find name cola = j) ∧
    (∀ t, t < 15 → ¬ populated cola t → ¬ inRun t (find name cola)) := by
  have hfound : find name cola ≠ EMPTY →
      ∃ t, t < 15 ∧ populated cola t ∧ inRun t (find name cola) ∧
        (cola (find name cola)).name = name := by
    intro h
    rcases find_spec name cola hinv with ⟨h1, _⟩ | h1
    · exact absurd h1 h
    · exact h1
  have huniq : ∀ t j, t < 15 → populated cola t → inRun t j → (cola j).name = name →
      find name cola = j := by
    intro t j ht hp hj hname
    exact find_unique cola hinv name j (inRun_bounds t ht j hj).1 (inRun_bounds t ht j hj).2
      (runFull_of_populated cola hinv.1 t ht hp j hj) hname
  refine ⟨⟨?_, ?_⟩, hfound, huniq, ?_⟩
  · intro h ⟨t, j, ht, hp, hj, hname⟩
    have := huniq t j ht hp hj hname
    have := (inRun_bounds t ht j hj).1
    simp only [EMPTY] at h
    omega
  · intro h
    by_contra hne
    obtain ⟨t, ht, hp, hr, hname⟩ := hfound hne
    exact h ⟨t, _, ht, hp, hr, hname⟩
  · intro t ht hnp hr
    by_cases hne : find name cola = EMPTY
    · have := (inRun_bounds t ht _ hr).1
      simp only [EMPTY] at hne
      omega
    · obtain ⟨s, _, hp, hs, _⟩ := hfound hne
      have := inRun_disjoint s t _ hs hr
      subst this
      exact hnp hp

/-- Witness of C3: looking up `b` in the array holding `b`. -/
theorem C3_find_correct_witness :
    colaInv cola1 ∧
    (find [98] cola1 = EMPTY ↔
      ¬ ∃ t j, t < 15 ∧ populated cola1 t ∧ inRun t j ∧ (cola1 j).name = [98]) ∧
    (find [98] cola1 ≠ EMPTY →
      ∃ t, t < 15 ∧ populated cola1 t ∧ inRun t (find [98] cola1) ∧
        (cola1 (find [98] cola1)).name = [98]) ∧
    (∀ t j, t < 15 → populated cola1 t → inRun t j → (cola1 j).name = [98] →
      find [98] cola1 = j) ∧
    (∀ t, t < 15 → ¬ populated cola1 t → ¬ inRun t (find [98] cola1)) :=
  ⟨colaInv_cola1, C3_find_correct cola1 colaInv_cola1 [98]⟩

/-- C4 (the code breaks the round trip). After `cfs_mknod /a` on the fresh state,
`cfs_write` of three 4096-byte blocks (`A`s, `B`s, `C`s) at offset 0 returns 12288,
yet the chain of the file has only two blocks, `0 -> 1 -> END`, the second block
holds the third block of the buffer, and `cfs_read` of 12288 bytes returns 12288
with `C` at position 4096 where the buffer has `B`. -/
theorem C4_three_block_write_loses_data :
    (cfs_mknod initState [47, 97]).1 = 0 ∧
    (cfs_write 4096 (cfs_mknod initState [47, 97]).2 [47, 97] bytes3 12288 0).map
      (fun r => r.1) = some 12288 ∧
    (cfs_write 4096 (cfs_mknod initState [47, 97]).2 [47, 97] bytes3 12288 0).map
      (fun r => (r.2.FAT 0, r.2.FAT 1, r.2.FAT 2)) = some (1, END, EMPTY) ∧
    (cfs_write 4096 (cfs_mknod initState [47, 97]).2 [47, 97] bytes3 12288 0).map
      (fun r => (cfs_read 4096 r.2 [47, 97] (fun _ => 0) 12288 0).1) = some 12288 ∧
    (cfs_write 4096 (cfs_mknod initState [47, 97]).2 [47, 97] bytes3 12288 0).map
      (fun r => (cfs_read 4096 r.2 [47, 97] (fun _ => 0) 12288 0).2 4096) = some 67 ∧
    bytes3 4096 = 66 := by
  refine ⟨by decide, by decide, by decide, by decide, by decide, by decide⟩

/-- C5. Double create: on a state whose COLA satisfies the invariants and is not
full and whose FAT has a free block, for a path that passes `checkPath` and is absent
from the index, the first create (`cfs_mknod`, likewise `cfs_mkdir`) returns 0 and a
second create of the same path, by either operation, returns `-EEXIST` and leaves
the state (COLA, FAT and data) as it was. -/
theorem C5_double_create (st : State) (path : List Nat) (hinv : colaInv st.COLA)
    (hroom : ∃ t, t < 15 ∧ ¬ populated st.COLA t)
    (hfree : ∃ b, 0 ≤ b ∧ b < numOfFiles ∧ st.FAT b = EMPTY)
    (hpath : checkPath path = 0) (habs : find path.tail st.COLA = EMPTY) :
    ((cfs_mknod st path).1 = 0 ∧
      cfs_mknod (cfs_mknod st path).2 path = (-EEXIST, (cfs_mknod st path).2) ∧
      cfs_mkdir (cfs_mknod st path).2 path = (-EEXIST, (cfs_mknod st path).2)) ∧
    ((cfs_mkdir st path).1 = 0 ∧
      cfs_mkdir (cfs_mkdir st path).2 path = (-EEXIST, (cfs_mkdir st path).2) ∧
      cfs_mknod (cfs_mkdir st path).2 path = (-EEXIST, (cfs_mkdir st path).2)) := by
  have hfresh := not_present_of_find st.COLA hinv _ habs
  obtain ⟨b0, _, _, _⟩ := searchFAT_free st.FAT hfree
  have hne : searchFAT st.FAT ≠ EMPTY := by simp only [EMPTY]; omega
  have hdir : (⟨0, path.tail, DIR⟩ : fileInfo).blockNum ≠ EMPTY := by
    show DIR ≠ EMPTY
    decide
  have f1 := (find_after_insert st.COLA ⟨0, path.tail, searchFAT st.FAT⟩ hinv hroom hne
    hfresh).1.1
  have f2 := (find_after_insert st.COLA ⟨0, path.tail, DIR⟩ hinv hroom hdir hfresh).1.1
  rw [mknod_ok st path hinv hroom hfree hpath habs, mkdir_ok st path hinv hroom hpath habs]
  exact ⟨⟨rfl, (create_existing _ path hpath f1).1, (create_existing _ path hpath f1).2⟩,
    ⟨rfl, (create_existing _ path hpath f2).2, (create_existing _ path hpath f2).1⟩⟩

/-- Witness of C5: creating `/a` twice on the fresh state. -/
theorem C5_double_create_witness :
    colaInv initState.COLA ∧ checkPath [47, 97] = 0 ∧ find [97] initState.COLA = EMPTY ∧
    ((cfs_mknod initState [47, 97]).1 = 0 ∧
      cfs_mknod (cfs_mknod initState [47, 97]).2 [47, 97] =
        (-EEXIST, (cfs_mknod initState [47, 97]).2) ∧
      cfs_mkdir (cfs_mknod initState [47, 97]).2 [47, 97] =
        (-EEXIST, (cfs_mknod initState [47, 97]).2)) ∧
    ((cfs_mkdir initState [47, 97]).1 = 0 ∧
      cfs_mkdir (cfs_mkdir initState [47, 97]).2 [47, 97] =
        (-EEXIST, (cfs_mkdir initState [47, 97]).2) ∧
      cfs_mknod (cfs_mkdir initState [47, 97]).2 [47, 97] =
        (-EEXIST, (cfs_mkdir initState [47, 97]).2)) :=
  ⟨colaInv_init, by decide, by decide,
    C5_double_create initState [47, 97] colaInv_init ⟨0, by decide, fun h => h rfl⟩
      ⟨0, by decide, by decide, rfl⟩ (by decide) (by decide)⟩

/-- C6. COLA capacity: `insert` returns 0 exactly when the first slot of every one of
the 15 runs is populated, and then leaves the array unchanged; in every other case it
returns 1. Consequently, starting from the all-`EMPTY` array, the first 32767 inserts
of entries all succeed and the next insert fails. An entry has a head other than
`EMPTY`, the mark of an unused slot: `cfs_mknod` returns before `insert` when
`searchFAT` gives `EMPTY`, and `cfs_mkdir` passes `DIR`. The names need not even be
distinct. -/
theorem C6_insert_capacity (es : Nat → fileInfo) (hes : ∀ n, (es n).blockNum ≠ EMPTY) :
    (∀ (fi : fileInfo) (cola : Int → fileInfo),
      ((insert fi cola).1 = 0 ↔ ∀ t, t < 15 → populated cola t) ∧
      ((insert fi cola).1 = 0 → (insert fi cola).2 = cola) ∧
      ((insert fi cola).1 ≠ 0 → (insert fi cola).1 = 1)) ∧
    (∀ n, n < 32767 → (insert (es n) (insertSeq es n)).1 = 1) ∧
    (insert (es 32767) (insertSeq es 32767)).1 = 0 := by
  have h01 : (1 : Int) ≠ 0 := by decide
  refine ⟨fun fi cola => ?_, fun n hn => ?_, ?_⟩
  · rcases insert_cases fi cola with ⟨hall, hres⟩ | ⟨t, ht, hne, _, hres⟩
    · rw [hres]
      exact ⟨⟨fun _ => hall, fun _ => rfl⟩, fun _ => rfl, fun h => absurd rfl h⟩
    · rw [hres]
      exact ⟨⟨fun h => absurd h h01, fun h => absurd (h t ht) hne⟩, fun h => absurd h h01,
        fun _ => rfl⟩
  · obtain ⟨h1, h2⟩ := insertSeq_count es hes n (by omega)
    have hroom : ∃ t, t < 15 ∧ ¬ populated (insertSeq es n) t := by
      by_contra hcon
      push_neg at hcon
      have := (all_populated_iff _).1 hcon
      omega
    exact (insert_shape (insertSeq es n) (es n) h1 (hes n) hroom).1
  · obtain ⟨_, h2⟩ := insertSeq_count es hes 32767 (le_refl _)
    have hall := (all_populated_iff (insertSeq es 32767)).2 (by rw [h2]; rfl)
    rcases insert_cases (es 32767) (insertSeq es 32767) with ⟨_, hres⟩ | ⟨t, ht, hne, _, _⟩
    · rw [hres]
    · exact absurd (hall t ht) hne

/-- Witness of C6: directory entries with the distinct names `sampleName n`. -/
theorem C6_insert_capacity_witness :
    (∀ m n, m ≠ n → (sampleEntry m).name ≠ (sampleEntry n).name) ∧
    (∀ n, (sampleEntry n).blockNum ≠ EMPTY) ∧
    (∀ (fi : fileInfo) (cola : Int → fileInfo),
      ((insert fi cola).1 = 0 ↔ ∀ t, t < 15 → populated cola t) ∧
      ((insert fi cola).1 = 0 → (insert fi cola).2 = cola) ∧
      ((insert fi cola).1 ≠ 0 → (insert fi cola).1 = 1)) ∧
    (∀ n, n < 32767 → (insert (sampleEntry n) (insertSeq sampleEntry n)).1 = 1) ∧
    (insert (sampleEntry 32767) (insertSeq sampleEntry 32767)).1 = 0 :=
  ⟨fun m n hmn hname => hmn (sampleName_inj m n hname), sampleEntry_head,
    C6_insert_capacity sampleEntry sampleEntry_head⟩

/-- C7. Create-file postcondition: on a state whose COLA satisfies I1-I3 and is not
full and whose FAT has an `EMPTY` entry in `[0, N)`, for a path that passes
`checkPath` and is absent, `cfs_mknod` returns 0; the block `b` it takes is the
smallest index in `[0, N)` whose FAT entry was `EMPTY`; afterwards `FAT[b] = END`,
every other FAT entry is unchanged, and `find` of the name yields the entry with the
path without its first byte as name, size 0 and head `b`. -/
theorem C7_mknod_postcondition (st : State) (path : List Nat) (hinv : colaInv st.COLA)
    (hroom : ∃ t, t < 15 ∧ ¬ populated st.COLA t)
    (hfree : ∃ b, 0 ≤ b ∧ b < numOfFiles ∧ st.FAT b = EMPTY)
    (hpath : checkPath path = 0) (habs : find path.tail st.COLA = EMPTY) :
    ∃ b, 0 ≤ b ∧ b < numOfFiles ∧ st.FAT b = EMPTY ∧
      (∀ k, 0 ≤ k → k < b → st.FAT k ≠ EMPTY) ∧
      (cfs_mknod st path).1 = 0 ∧
      (cfs_mknod st path).2.FAT b = END ∧
      (∀ k, k ≠ b → (cfs_mknod st path).2.FAT k = st.FAT k) ∧
      find path.tail (cfs_mknod st path).2.COLA ≠ EMPTY ∧
      (cfs_mknod st path).2.COLA (find path.tail (cfs_mknod st path).2.COLA) =
        ⟨0, path.tail, b⟩ := by
  have hfresh := not_present_of_find st.COLA hinv _ habs
  obtain ⟨b0, b1, b2, b3⟩ := searchFAT_free st.FAT hfree
  have hne : searchFAT st.FAT ≠ EMPTY := by simp only [EMPTY]; omega
  have f1 := (find_after_insert st.COLA ⟨0, path.tail, searchFAT st.FAT⟩ hinv hroom hne
    hfresh).1
  rw [mknod_ok st path hinv hroom hfree hpath habs]
  exact ⟨searchFAT st.FAT, b0, b1, b2, b3, rfl, upd_eq _ _ _, fun k hk => upd_ne _ _ _ _ hk,
    f1.1, f1.2⟩

/-- Witness of C7: creating `/a` on the fresh state. -/
theorem C7_mknod_postcondition_witness :
    colaInv initState.COLA ∧ checkPath [47, 97] = 0 ∧ find [97] initState.COLA = EMPTY ∧
    ∃ b, 0 ≤ b ∧ b < numOfFiles ∧ initState.FAT b = EMPTY ∧
      (∀ k, 0 ≤ k → k < b → initState.FAT k ≠ EMPTY) ∧
      (cfs_mknod initState [47, 97]).1 = 0 ∧
      (cfs_mknod initState [47, 97]).2.FAT b = END ∧
      (∀ k, k ≠ b → (cfs_mknod initState [47, 97]).2.FAT k = initState.FAT k) ∧
      find [97] (cfs_mknod initState [47, 97]).2.COLA ≠ EMPTY ∧
      (cfs_mknod initState [47, 97]).2.COLA (find [97] (cfs_mknod initState [47, 97]).2.COLA) =
        ⟨0, [97], b⟩ :=
  ⟨colaInv_init, by decide, by decide,
    C7_mknod_postcondition initState [47, 97] colaInv_init ⟨0, by decide, fun h => h rfl⟩
      ⟨0, by decide, by decide, rfl⟩ (by decide) (by decide)⟩

/-- C8 as stated fails: with every FAT word `END`, `cfs_mknod /a` on an empty index
returns `-ENOMEM`, which is not the `-ENOSPC` of a full COLA. -/
theorem C8_counterexample :
    (∀ b, 0 ≤ b → b < numOfFiles → fatFullState.FAT b ≠ EMPTY) ∧
    checkPath [47, 97] = 0 ∧ find [97] fatFullState.COLA = EMPTY ∧
    (cfs_mknod fatFullState [47, 97]).1 = -ENOMEM ∧
    (cfs_mknod fatFullState [47, 97]).1 ≠ -ENOSPC := by
  have h := mknod_no_block fatFullState [47, 97] (fun b _ _ => fatFull_no_free b) (by decide)
    (by decide)
  rw [h]
  exact ⟨fun b _ _ => fatFull_no_free b, by decide, by decide, rfl, by decide⟩

/-- C8, amended. Create file with an exhausted FAT: when no word that `searchFAT`
reads (indices 0 to N) is `EMPTY` and the path passes `checkPath` and is absent,
`cfs_mknod` fails with `-ENOMEM` and changes nothing: no block index is returned or
marked. This is an error kind other than the `-ENOSPC` that `cfs_mknod` returns when
a word is `EMPTY` and the COLA is full; with a word `EMPTY` and an unpopulated run it
returns 0. -/
theorem C8_mknod_fat_exhausted (st : State) (path : List Nat)
    (hpath : checkPath path = 0) (habs : find path.tail st.COLA = EMPTY) :
    ((∀ b, 0 ≤ b → b ≤ numOfFiles → st.FAT b ≠ EMPTY) → cfs_mknod st path = (-ENOMEM, st)) ∧
    ((∃ b, 0 ≤ b ∧ b ≤ numOfFiles ∧ st.FAT b = EMPTY) →
      ((∀ t, t < 15 → populated st.COLA t) → (cfs_mknod st path).1 = -ENOSPC) ∧
      ((∃ t, t < 15 ∧ ¬ populated st.COLA t) → (cfs_mknod st path).1 = 0)) ∧
    -ENOMEM ≠ -ENOSPC :=
  ⟨fun hfull => mknod_no_block st path hfull hpath habs,
    fun hfree => ⟨mknod_full_cola st path hpath habs hfree, mknod_room st path hpath habs hfree⟩,
    by decide⟩

/-- Witness of C8 amended: `/a` on the state whose FAT words are all `END`, where
`cfs_mknod` returns `-ENOMEM` and changes nothing, and on the state whose COLA is
full and whose FAT is free, where it returns `-ENOSPC`. -/
theorem C8_mknod_fat_exhausted_witness :
    (checkPath [47, 97] = 0 ∧ find [97] fatFullState.COLA = EMPTY ∧
      (∀ b, 0 ≤ b → b ≤ numOfFiles → fatFullState.FAT b ≠ EMPTY) ∧
      cfs_mknod fatFullState [47, 97] = (-ENOMEM, fatFullState)) ∧
    (find [97] fullColaState.COLA = EMPTY ∧ fullColaState.FAT 0 = EMPTY ∧
      (∀ t, t < 15 → populated fullColaState.COLA t) ∧
      (cfs_mknod fullColaState [47, 97]).1 = -ENOSPC) :=
  ⟨⟨by decide, by decide, fun b _ _ => fatFull_no_free b,
      (C8_mknod_fat_exhausted fatFullState [47, 97] (by decide) (by decide)).1
        (fun b _ _ => fatFull_no_free b)⟩,
    ⟨by decide, rfl, fullCola_populated,
      ((C8_mknod_fat_exhausted fullColaState [47, 97] (by decide) (by decide)).2.1
        ⟨0, by decide, by decide, rfl⟩).1 fullCola_populated⟩⟩

/-- C10. Path validation: for a path that begins with the separator, `checkPath`
returns 1 if and only if the part after the separator is longer than 30 bytes, or
that part begins with `.`, or the path contains `~`; otherwise it returns 0. A
31-byte name is rejected, a 30-byte name without leading `.` and without `~` is
accepted, and every facade operation answers a rejected path with `-EACCES`. -/
theorem C10_checkPath (rest : List Nat) :
    (checkPath (47 :: rest) = 1 ↔
      (rest.length > 30 ∨ rest.head? = some 46 ∨ 126 ∈ 47 :: rest)) ∧
    (checkPath (47 :: rest) ≠ 1 → checkPath (47 :: rest) = 0) ∧
    (rest.length = 31 → checkPath (47 :: rest) = 1) ∧
    (rest.length = 30 → rest.head? ≠ some 46 → 126 ∉ rest → checkPath (47 :: rest) = 0) ∧
    (checkPath (47 :: rest) = 1 →
      ∀ (st : State) (stbuf : Stat) (block : Int) (buf : Int → Nat) (size offset : Int),
        (cfs_getattr st (47 :: rest) stbuf).1 = -EACCES ∧
        (cfs_readdir st (47 :: rest)).1 = -EACCES ∧
        (cfs_mknod st (47 :: rest)).1 = -EACCES ∧
        cfs_utime (47 :: rest) = -EACCES ∧
        (cfs_mkdir st (47 :: rest)).1 = -EACCES ∧
        cfs_open st (47 :: rest) = -EACCES ∧
        cfs_write block st (47 :: rest) buf size offset = some (-EACCES, st) ∧
        (cfs_truncate st (47 :: rest) size).1 = -EACCES ∧
        (cfs_read block st (47 :: rest) buf size offset).1 = -EACCES) := by
  have hiff : checkPath (47 :: rest) = 1 ↔
      (rest.length > 30 ∨ rest.head? = some 46 ∨ 126 ∈ 47 :: rest) := by
    rw [checkPath_eq_one, second_byte]
    rfl
  have hzero : checkPath (47 :: rest) ≠ 1 → checkPath (47 :: rest) = 0 := by
    intro h
    rcases checkPath_values (47 :: rest) with h0 | h1
    · exact h0
    · exact absurd h1 h
  refine ⟨hiff, hzero, fun h => hiff.2 (Or.inl (by omega)), fun h1 h2 h3 => ?_, fun h => ?_⟩
  · apply hzero
    intro hc
    rcases hiff.1 hc with h | h | h
    · omega
    · exact h2 h
    · rcases List.mem_cons.1 h with h4 | h4
      · exact absurd h4 (by decide)
      · exact h3 h4
  · intro st stbuf block buf size offset
    have hne : checkPath (47 :: rest) ≠ 0 := by rw [h]; decide
    refine ⟨?_, ?_, ?_, ?_, ?_, ?_, ?_, ?_, ?_⟩
    · unfold cfs_getattr; rw [if_pos hne]
    · unfold cfs_readdir; rw [if_pos hne]
    · unfold cfs_mknod; rw [if_pos hne]
    · unfold cfs_utime; rw [if_pos hne]
    · unfold cfs_mkdir; rw [if_pos hne]
    · unfold cfs_open; rw [if_pos hne]
    · unfold cfs_write; rw [if_pos hne]
    · unfold cfs_truncate; rw [if_pos hne]
    · unfold cfs_read; rw [if_pos hne]

/-- C11. Write size accounting: when a `cfs_write` of `size` bytes at `offset` (both
at least 0, `offset + size < 2^31`) returns successfully, the path is an existing
file, the return value is `size`, and the COLA afterwards is the one before with the
size field of the file's slot set to `offset + size`, whatever it was; no other
field or slot changes. When the written range lies in the first block, the FAT is
unchanged and that block holds the buffer at `[offset, offset + size)` and its old
bytes elsewhere (3 bytes at offset 100 of a 10000-byte file: size 103). -/
theorem C11_write_size (block : Int) (st st1 : State) (path : List Nat) (buf : Int → Nat)
    (size offset ret : Int) (hb : 1 ≤ block) (hoff : 0 ≤ offset) (hsize : 0 ≤ size)
    (hsum : offset + size < 2147483648)
    (h : cfs_write block st path buf size offset = some (ret, st1)) (hret : 0 ≤ ret) :
    find path.tail st.COLA ≠ EMPTY ∧ ret = size ∧
    st1.COLA = upd st.COLA (find path.tail st.COLA)
      { st.COLA (find path.tail st.COLA) with size := offset + size } ∧
    (offset + size ≤ block →
      st1.FAT = st.FAT ∧
      ∀ b k, st1.data b k =
        if b = (st.COLA (find path.tail st.COLA)).blockNum ∧ offset ≤ k ∧ k < offset + size
        then buf (k - offset) else st.data b k) := by
  have hto : toInt32 offset = offset := toInt32_id _ (by omega) (by omega)
  have hts : toInt32 size = size := toInt32_id _ (by omega) (by omega)
  have htsum : ∀ w, w = size → toInt32 (w + offset) = offset + size := by
    intro w hw
    rw [hw, toInt32_id _ (by omega) (by omega)]
    omega
  unfold cfs_write at h
  by_cases hcp : checkPath path ≠ 0
  · rw [if_pos hcp] at h
    simp only [Option.some.injEq, Prod.mk.injEq, EACCES, ENOENT, ENOMEM] at h
    omega
  rw [if_neg hcp] at h
  dsimp only at h
  by_cases hfind : find path.tail st.COLA = EMPTY
  · rw [if_pos hfind] at h
    simp only [Option.some.injEq, Prod.mk.injEq, EACCES, ENOENT, ENOMEM] at h
    omega
  rw [if_neg hfind, hto, hts] at h
  refine ⟨hfind, ?_⟩
  obtain ⟨w0, w1⟩ := write_walk_bounds st.FAT block hb offset.toNat
    (st.COLA (find path.tail st.COLA)).blockNum offset hoff (by omega)
  by_cases hcross : (write_walk st.FAT block offset.toNat
      (st.COLA (find path.tail st.COLA)).blockNum offset).2 + size > block
  · rw [if_pos hcross] at h
    have hleft : toInt32 (size - (block - (write_walk st.FAT block offset.toNat
        (st.COLA (find path.tail st.COLA)).blockNum offset).2)) =
        size - (block - (write_walk st.FAT block offset.toNat
          (st.COLA (find path.tail st.COLA)).blockNum offset).2) :=
      toInt32_id _ (by omega) (by omega)
    rw [hleft] at h
    split at h
    · simp only [Option.some.injEq, Prod.mk.injEq, EACCES, ENOENT, ENOMEM] at h
      omega
    · split at h
      · cases h
      · simp only [Option.some.injEq, Prod.mk.injEq, EACCES, ENOENT, ENOMEM] at h
        omega
      · rename_i F D w hloop
        have hw := write_loop_written block buf hb _ _ _ _ _ _ F D w (by omega)
          (by omega) hloop
        simp only [Option.some.injEq, Prod.mk.injEq] at h
        obtain ⟨h1, h2⟩ := h
        refine ⟨h1.symm, ?_, fun hfit => by
          rw [write_walk_stay st.FAT block _ _ offset (by omega)] at hcross
          exact absurd hcross (by omega)⟩
        rw [← h2]
        dsimp only
        rw [htsum w (by omega)]
  · rw [if_neg hcross] at h
    simp only [Option.some.injEq, Prod.mk.injEq] at h
    obtain ⟨h1, h2⟩ := h
    refine ⟨h1.symm, ?_, fun hfit => ?_⟩
    · rw [← h2]
      dsimp only
      rw [htsum size rfl]
    · rw [← h2]
      dsimp only
      rw [write_walk_stay st.FAT block _ _ offset (by omega)]
      refine ⟨rfl, fun b k => ?_⟩
      dsimp only
      unfold upd memcpy
      by_cases hbk : b = (st.COLA (find path.tail st.COLA)).blockNum
      · rw [if_pos hbk]
        by_cases hk : offset ≤ k ∧ k < offset + size
        · rw [if_pos hk, if_pos ⟨hbk, hk⟩]
          congr 1
          omega
        · rw [if_neg hk, if_neg (fun hc => hk hc.2), hbk]
      · rw [if_neg hbk, if_neg (fun hc => hbk hc.1)]

/-- Witness of C11: the write of the three bytes `END` at offset 100 of `/a` in
`bigState` returns 3, records the size 103 and changes bytes 100..102 of block 0. -/
theorem C11_write_size_witness :
    cfs_write 4096 bigState [47, 97] bufEND 3 100 =
      some (3, ⟨upd bigState.COLA 0 ⟨103, [97], 0⟩, bigState.FAT,
        upd bigState.data 0 (memcpy (bigState.data 0) 100 bufEND 0 3)⟩) ∧
    find [97] bigState.COLA ≠ EMPTY ∧ (3 : Int) = 3 ∧
    upd bigState.COLA 0 ⟨103, [97], 0⟩ = upd bigState.COLA (find [97] bigState.COLA)
      { bigState.COLA (find [97] bigState.COLA) with size := 100 + 3 } ∧
    ((100 : Int) + 3 ≤ 4096 →
      bigState.FAT = bigState.FAT ∧
      ∀ b k, upd bigState.data 0 (memcpy (bigState.data 0) 100 bufEND 0 3) b k =
        if b = (bigState.COLA (find [97] bigState.COLA)).blockNum ∧ 100 ≤ k ∧ k < 100 + 3
        then bufEND (k - 100) else bigState.data b k) :=
  ⟨rfl, C11_write_size 4096 bigState _ [47, 97] bufEND 3 100 3 (by decide) (by decide)
    (by decide) (by decide) rfl (by decide)⟩

/-- C12 as stated fails: with no free FAT word, `cfs_write` of 8192 bytes at offset 0
of the one-block file `/a` (chain `0 -> END`, size 0) copies the first 4096 bytes
into block 0 and returns `-ENOMEM`, and the recorded size is still 0, not
`0 + 4096`. -/
theorem C12_counterexample :
    searchFAT noFreeState.FAT = EMPTY ∧
    (noFreeState.COLA (find [97] noFreeState.COLA)).blockNum = 0 ∧
    noFreeState.FAT 0 = END ∧
    (noFreeState.COLA (find [97] noFreeState.COLA)).size = 0 ∧
    (cfs_write 4096 noFreeState [47, 97] bytes3 8192 0).map
      (fun r => (r.1, r.2.data 0 0, r.2.data 0 4095, (r.2.COLA (find [97] r.2.COLA)).size)) =
      some (-ENOMEM, 65, 65, 0) ∧
    (0 : Int) ≠ 0 + 4096 := by
  refine ⟨noFree_search, by decide, rfl, by decide, ?_, by decide⟩
  rw [write_first_nomem 4096 noFreeState [47, 97] bytes3 8192 0 (by decide) (by decide)
    (by decide) noFree_search]
  decide

/-- C12, amended. Partial write on allocation failure, for `0 ≤ offset < 2^31` and
`size < 2^31`: whenever `cfs_write` returns `-ENOMEM`, from either of its two return
sites, the COLA is unchanged, so the recorded size is not updated. In particular,
when the path passes `checkPath` and is present, the write must extend the chain at
the block `cur` in which it starts (the data leaves `cur` from in-block position
`tempOff`, and `FAT[cur]` is `END`) and no word that `searchFAT` reads is `EMPTY`,
the operation returns `-ENOMEM`; the `p = B - tempOff` bytes copied into `cur` are in
the data region and no other data byte changes; the FAT is unchanged. -/
theorem C12_partial_write (block : Int) (st : State) (path : List Nat) (buf : Int → Nat)
    (size offset : Int) (hsize : 0 ≤ size ∧ size < 2147483648)
    (hoff : 0 ≤ offset ∧ offset < 2147483648) :
    (∀ ret st1, cfs_write block st path buf size offset = some (ret, st1) → ret = -ENOMEM →
      st1.COLA = st.COLA) ∧
    (∀ cur tempOff, checkPath path = 0 → find path.tail st.COLA ≠ EMPTY →
      write_walk st.FAT block offset.toNat (st.COLA (find path.tail st.COLA)).blockNum
        offset = (cur, tempOff) →
      tempOff + size > block → st.FAT cur = END →
      (∀ k, 0 ≤ k → k ≤ numOfFiles → st.FAT k ≠ EMPTY) →
      ∃ st1, cfs_write block st path buf size offset = some (-ENOMEM, st1) ∧
        st1.COLA = st.COLA ∧ st1.FAT = st.FAT ∧
        (∀ k, tempOff ≤ k → k < block → st1.data cur k = buf (k - tempOff)) ∧
        (∀ b k, ¬ (b = cur ∧ tempOff ≤ k ∧ k < block) → st1.data b k = st.data b k)) := by
  have hto : toInt32 offset = offset := toInt32_id _ (by omega) (by omega)
  refine ⟨fun ret st1 hres hret => ?_, fun cur tempOff hpath hfind hw hcross hend hfull => ?_⟩
  · rw [hret] at hres
    exact write_nomem_cola block st st1 path buf size offset hsize hres
  · rw [← hto] at hw
    have h := write_first_nomem block st path buf size offset hpath hfind
      (by rw [hw]; exact hcross) (searchFAT_none st.FAT hfull)
    rw [hw] at h
    dsimp only at h
    refine ⟨_, h, rfl, ?_, fun k h1 h2 => ?_, fun b k hn => ?_⟩
    · funext k
      dsimp only
      by_cases hk : k = cur
      · rw [hk, upd_eq, hend]
      · rw [upd_ne _ _ _ _ hk, upd_ne _ _ _ _ hk]
    · dsimp only
      rw [upd_eq]
      unfold memcpy
      rw [if_pos ⟨h1, by omega⟩]
      congr 1
      omega
    · dsimp only
      unfold upd memcpy
      by_cases hb : b = cur
      · rw [if_pos hb, if_neg (fun hc => hn ⟨hb, hc.1, by omega⟩), hb]
      · rw [if_neg hb]

/-- Witness of C12 amended: 8192 bytes written to the one-block file `/a` when the
FAT has no free word (failure at the first extension), and 16384 bytes written to it
when block 1 is the only free block (failure inside the block loop). -/
theorem C12_partial_write_witness :
    ((∀ k, 0 ≤ k → k ≤ numOfFiles → noFreeState.FAT k ≠ EMPTY) ∧
      noFreeState.FAT 0 = END ∧
      ∃ st1, cfs_write 4096 noFreeState [47, 97] bytes3 8192 0 = some (-ENOMEM, st1) ∧
        st1.COLA = noFreeState.COLA ∧ st1.FAT = noFreeState.FAT ∧
        (∀ k, 0 ≤ k → k < 4096 → st1.data 0 k = bytes3 (k - 0)) ∧
        (∀ b k, ¬ (b = 0 ∧ 0 ≤ k ∧ k < 4096) → st1.data b k = noFreeState.data b k)) ∧
    (∃ st1, cfs_write 4096 oneFreeState [47, 97] bytes3 16384 0 = some (-ENOMEM, st1) ∧
      st1.COLA = oneFreeState.COLA) := by
  have hEE : END ≠ EMPTY := by decide
  refine ⟨⟨fun _ _ _ => hEE, rfl,
    (C12_partial_write 4096 noFreeState [47, 97] bytes3 8192 0 (by decide) (by decide)).2 0 0
      (by decide) (by decide) rfl (by decide) rfl (fun _ _ _ => hEE)⟩, ?_⟩
  obtain ⟨st1, h⟩ := oneFree_write
  exact ⟨st1, h,
    (C12_partial_write 4096 oneFreeState [47, 97] bytes3 16384 0 (by decide) (by decide)).1
      _ st1 h rfl⟩

/-- C13. Root listing: on a COLA array that satisfies I1-I3 and whose entry names do
not begin with the separator, `cfs_readdir` of `/` returns 0 and hands to the filler
first `.` and `..` and then exactly the names of the populated slots whose name
contains no `/`, each once: a name is listed if and only if a populated slot carries
it and it has no `/`, so neither names under a subdirectory nor names left in slots
with head `EMPTY` are listed. -/
theorem C13_root_listing (st : State) (hinv : colaInv st.COLA)
    (hlead : ∀ j, 0 ≤ j → j < numOfFiles → (st.COLA j).blockNum ≠ EMPTY →
      (st.COLA j).name.head? ≠ some 47) :
    ∃ rest, cfs_readdir st [47] = (0, [46] :: [46, 46] :: rest) ∧ rest.Nodup ∧
      ∀ x, x ∈ rest ↔
        ∃ j, 0 ≤ j ∧ j < numOfFiles ∧ (st.COLA j).blockNum ≠ EMPTY ∧ (st.COLA j).name = x ∧
          47 ∉ x := by
  refine ⟨readdir_loop st.COLA [47] 32767 0, ?_,
    readdir_root_nodup st.COLA hinv.2.2 32767 0 (le_refl _) (by decide), fun x => ?_⟩
  · unfold cfs_readdir
    rw [if_neg (by decide), if_neg (by decide)]
  · rw [readdir_root_mem]
    constructor
    · rintro ⟨j, h1, h2, h3, h4, h5⟩
      have hj : j < numOfFiles := by simp only [numOfFiles]; push_cast at h2; omega
      refine ⟨j, h1, hj, h3, h5, ?_⟩
      rw [← h5]
      exact (slash_tail _ (hlead j h1 hj h3)).1 h4
    · rintro ⟨j, h1, h2, h3, h4, h5⟩
      refine ⟨j, h1, by simp only [numOfFiles] at h2; push_cast; omega, h3, ?_, h4⟩
      rw [← h4] at h5
      exact (slash_tail _ (hlead j h1 h2 h3)).2 h5

/-- Witness of C13: the array holding the single entry `b`. -/
theorem C13_root_listing_witness :
    colaInv cola1 ∧
    (∀ j, 0 ≤ j → j < numOfFiles → (cola1 j).blockNum ≠ EMPTY →
      (cola1 j).name.head? ≠ some 47) ∧
    ∃ rest, cfs_readdir ⟨cola1, initState.FAT, initState.data⟩ [47] =
        (0, [46] :: [46, 46] :: rest) ∧ rest.Nodup ∧
      ∀ x, x ∈ rest ↔
        ∃ j, 0 ≤ j ∧ j < numOfFiles ∧ (cola1 j).blockNum ≠ EMPTY ∧ (cola1 j).name = x ∧
          47 ∉ x :=
  ⟨colaInv_cola1, cola1_lead,
    C13_root_listing ⟨cola1, initState.FAT, initState.data⟩ colaInv_cola1 cola1_lead⟩

/-- C14. Binary-counter shape: a successful `insert` targets the lowest unpopulated
run `i`, the runs below `i` being populated; afterwards run `i` is populated (the new
element being an entry: its head is not `EMPTY`, the mark of an unused slot), the
runs below `i` are entirely `EMPTY`-headed, and no slot of a run above `i` is
modified. Hence, starting from the all-`EMPTY` array, `n <= 32767` inserts of entries
succeed and afterwards run `j` is populated iff bit `j` of `n` is 1. -/
theorem C14_binary_counter (es : Nat → fileInfo) (hes : ∀ n, (es n).blockNum ≠ EMPTY) :
    (∀ (cola : Int → fileInfo) (fi : fileInfo), (insert fi cola).1 = 1 →
      ∃ i, i < 15 ∧ ¬ populated cola i ∧ (∀ j, j < i → populated cola j) ∧
        (fi.blockNum ≠ EMPTY → populated (insert fi cola).2 i) ∧
        (∀ j, j < i → runEmpty (insert fi cola).2 j) ∧
        ∀ p, 2 ^ (i + 1) - 1 ≤ p → (insert fi cola).2 p = cola p) ∧
    (∀ n j, n ≤ 32767 → j < 15 →
      (∀ m, m < n → (insert (es m) (insertSeq es m)).1 = 1) ∧
      (populated (insertSeq es n) j ↔ n.testBit j = true)) := by
  refine ⟨fun cola fi hsucc => insert_runs fi cola hsucc,
    fun n j hn hj => ⟨fun m hm => ?_, ?_⟩⟩
  · obtain ⟨h1, h2⟩ := insertSeq_count es hes m (by omega)
    have hroom : ∃ t, t < 15 ∧ ¬ populated (insertSeq es m) t := by
      by_contra hcon
      push_neg at hcon
      have := (all_populated_iff _).1 hcon
      omega
    exact (insert_shape (insertSeq es m) (es m) h1 (hes m) hroom).1
  · exact populated_iff_testBit (insertSeq es n) n j hj (insertSeq_count es hes n hn).2

/-- Witness of C14: directory entries named `sampleName n`; after five of them the
runs 0 and 2 are populated and run 1 is not. -/
theorem C14_binary_counter_witness :
    (∀ n, (sampleEntry n).blockNum ≠ EMPTY) ∧
    ((∀ (cola : Int → fileInfo) (fi : fileInfo), (insert fi cola).1 = 1 →
      ∃ i, i < 15 ∧ ¬ populated cola i ∧ (∀ j, j < i → populated cola j) ∧
        (fi.blockNum ≠ EMPTY → populated (insert fi cola).2 i) ∧
        (∀ j, j < i → runEmpty (insert fi cola).2 j) ∧
        ∀ p, 2 ^ (i + 1) - 1 ≤ p → (insert fi cola).2 p = cola p) ∧
    (∀ n j, n ≤ 32767 → j < 15 →
      (∀ m, m < n → (insert (sampleEntry m) (insertSeq sampleEntry m)).1 = 1) ∧
      (populated (insertSeq sampleEntry n) j ↔ n.testBit j = true))) ∧
    (populated (insertSeq sampleEntry 5) 0 ∧ ¬ populated (insertSeq sampleEntry 5) 1 ∧
      populated (insertSeq sampleEntry 5) 2) :=
  ⟨sampleEntry_head, C14_binary_counter sampleEntry sampleEntry_head,
    ((C14_binary_counter sampleEntry sampleEntry_head).2 5 0 (by decide) (by decide)).2.2
      (by decide),
    fun h => absurd
      (((C14_binary_counter sampleEntry sampleEntry_head).2 5 1 (by decide) (by decide)).2.1 h)
      (by decide),
    ((C14_binary_counter sampleEntry sampleEntry_head).2 5 2 (by decide) (by decide)).2.2
      (by decide)⟩

/-- C15 (read maps file positions to chained blocks). For a file that `find` locates,
with recorded size `s` below `2^31`, and every `offset` with `0 ≤ offset < s`,
`cfs_read` returns the clamped length `c = min size (s - offset)`; for every `j < c`
byte `j` of the buffer is byte `(offset + j) mod B` of the block reached by following
the FAT `(offset + j) / B` times from the head; the buffer is unchanged outside
`[0, c)`; and the result is the same for every FAT that agrees with the stored one on
the links of the chain blocks before the block that holds position `offset + c - 1`.
The read returns no state: it changes none. -/
theorem C15_read_maps_positions (block : Int) (st : State) (path : List Nat)
    (buf : Int → Nat) (size offset : Int) (hb : 1 ≤ block) (hpath : checkPath path = 0)
    (hfind : find path.tail st.COLA ≠ EMPTY) (hoff : 0 ≤ offset)
    (hlt : offset < (st.COLA (find path.tail st.COLA)).size)
    (hs : (st.COLA (find path.tail st.COLA)).size < 2147483648) (hsize : 0 ≤ size) :
    (cfs_read block st path buf size offset).1 =
      min size ((st.COLA (find path.tail st.COLA)).size - offset) ∧
    (∀ j, 0 ≤ j → j < min size ((st.COLA (find path.tail st.COLA)).size - offset) →
      (cfs_read block st path buf size offset).2 j =
        st.data (chainAt st.FAT (st.COLA (find path.tail st.COLA)).blockNum
          ((offset + j) / block).toNat) ((offset + j) % block)) ∧
    (∀ j, ¬ (0 ≤ j ∧ j < min size ((st.COLA (find path.tail st.COLA)).size - offset)) →
      (cfs_read block st path buf size offset).2 j = buf j) ∧
    (∀ FAT1 : Int → Int,
      (∀ i : Nat, (i : Int) <
          (offset + min size ((st.COLA (find path.tail st.COLA)).size - offset) - 1) / block →
        FAT1 (chainAt st.FAT (st.COLA (find path.tail st.COLA)).blockNum i) =
          st.FAT (chainAt st.FAT (st.COLA (find path.tail st.COLA)).blockNum i)) →
      cfs_read block { st with FAT := FAT1 } path buf size offset =
        cfs_read block st path buf size offset) := by
  have h1 := read_spec block st path buf size offset hb hpath hfind hoff hlt hs hsize
  refine ⟨?_, ?_, ?_, ?_⟩
  · rw [h1]
  · intro j hj0 hj1
    rw [h1]
    dsimp only
    rw [if_pos ⟨hj0, hj1⟩]
  · intro j hj
    rw [h1]
    dsimp only
    rw [if_neg hj]
  · intro FAT1 hagree
    have h2 := read_spec block { st with FAT := FAT1 } path buf size offset hb hpath hfind
      hoff hlt hs hsize
    rw [h1, h2]
    dsimp only
    congr 1
    funext j
    by_cases hj : 0 ≤ j ∧ j < min size ((st.COLA (find path.tail st.COLA)).size - offset)
    · rw [if_pos hj, if_pos hj]
      have hmono : (offset + j) / block ≤
          (offset + min size ((st.COLA (find path.tail st.COLA)).size - offset) - 1) / block :=
        Int.ediv_le_ediv (by omega) (by omega)
      have hq : 0 ≤ (offset + j) / block := Int.ediv_nonneg (by omega) (by omega)
      rw [chainAt_congr FAT1 st.FAT (st.COLA (find path.tail st.COLA)).blockNum
        ((offset + min size ((st.COLA (find path.tail st.COLA)).size - offset) - 1) /
          block).toNat (fun i hi => hagree i (by omega)) _ (by omega)]
    · rw [if_neg hj, if_neg hj]

/-- Witness of C15: reading 5000 bytes at offset 100 of the three-block file `/a` of
`bigState` (size 10000, chain `0 -> 1 -> 2 -> END`, block size 4096). -/
theorem C15_read_maps_positions_witness :
    (cfs_read 4096 bigState [47, 97] (fun _ => 0) 5000 100).1 =
      min 5000 ((bigState.COLA (find [97] bigState.COLA)).size - 100) ∧
    (∀ j, 0 ≤ j → j < min 5000 ((bigState.COLA (find [97] bigState.COLA)).size - 100) →
      (cfs_read 4096 bigState [47, 97] (fun _ => 0) 5000 100).2 j =
        bigState.data (chainAt bigState.FAT (bigState.COLA (find [97] bigState.COLA)).blockNum
          ((100 + j) / 4096).toNat) ((100 + j) % 4096)) ∧
    (∀ j, ¬ (0 ≤ j ∧ j < min 5000 ((bigState.COLA (find [97] bigState.COLA)).size - 100)) →
      (cfs_read 4096 bigState [47, 97] (fun _ => 0) 5000 100).2 j = (fun _ => 0) j) ∧
    (∀ FAT1 : Int → Int,
      (∀ i : Nat, (i : Int) <
          (100 + min 5000 ((bigState.COLA (find [97] bigState.COLA)).size - 100) - 1) / 4096 →
        FAT1 (chainAt bigState.FAT (bigState.COLA (find [97] bigState.COLA)).blockNum i) =
          bigState.FAT (chainAt bigState.FAT
            (bigState.COLA (find [97] bigState.COLA)).blockNum i)) →
      cfs_read 4096 { bigState with FAT := FAT1 } [47, 97] (fun _ => 0) 5000 100 =
        cfs_read 4096 bigState [47, 97] (fun _ => 0) 5000 100) :=
  C15_read_maps_positions 4096 bigState [47, 97] (fun _ => 0) 5000 100 (by decide) (by decide)
    (by decide) (by decide) (by decide) (by decide) (by decide)

/-- C16 (the code builds a shorter chain). After `cfs_mknod /a` on the fresh state the
file has the one-block chain `0 -> END` and every other block is free; `cfs_write` of
`3 * 4096` bytes at offset 0 returns 12288, yet the chain from the head is
`0 -> 1 -> END`, two blocks instead of three, and byte 0 of chain block 1 is the `C`
of buffer position 8192, not the `B` of buffer position 4096. -/
theorem C16_three_block_chain_has_two_blocks :
    (cfs_mknod initState [47, 97]).1 = 0 ∧
    ((cfs_mknod initState [47, 97]).2.COLA
      (find [97] (cfs_mknod initState [47, 97]).2.COLA)).blockNum = 0 ∧
    (cfs_mknod initState [47, 97]).2.FAT 0 = END ∧
    (∀ k, k ≠ 0 → (cfs_mknod initState [47, 97]).2.FAT k = EMPTY) ∧
    (cfs_write 4096 (cfs_mknod initState [47, 97]).2 [47, 97] bytes3 12288 0).map
      (fun r => (r.1, (r.2.COLA (find [97] r.2.COLA)).blockNum,
        chainAt r.2.FAT 0 1, chainAt r.2.FAT 0 2, r.2.data (chainAt r.2.FAT 0 1) 0)) =
      some (12288, 0, 1, END, 67) ∧
    bytes3 (1 * 4096) = 66 := by
  refine ⟨by decide, by decide, by decide, ?_, by decide, by decide⟩
  intro k hk
  have h : (cfs_mknod initState [47, 97]).2.FAT = upd initState.FAT 0 END := rfl
  rw [h, upd_ne _ _ _ _ hk]
  rfl

/-- C17 (the code allocates although the chain continues). The file `/a` of `bigState`
has the chain `0 -> 1 -> 2 -> END` and block 3 is free; `cfs_write` of `3 * 4096`
bytes at offset 0 crosses from block 0, whose link is block 1, yet takes the free
block 3: afterwards the chain from the head is `0 -> 3 -> END`, while the former
chain blocks 1 and 2 keep the entries `2` and `END` and are not reachable. -/
theorem C17_overwrite_orphans_blocks :
    (bigState.COLA (find [97] bigState.COLA)).blockNum = 0 ∧
    (chainAt bigState.FAT 0 1, chainAt bigState.FAT 0 2, chainAt bigState.FAT 0 3) =
      (1, 2, END) ∧
    bigState.FAT 3 = EMPTY ∧
    (cfs_write 4096 bigState [47, 97] bytes3 12288 0).map
      (fun r => (r.1, (r.2.COLA (find [97] r.2.COLA)).blockNum,
        chainAt r.2.FAT 0 1, chainAt r.2.FAT 0 2, r.2.FAT 1, r.2.FAT 2)) =
      some (12288, 0, 3, END, 2, END) := by
  refine ⟨by decide, by decide, by decide, by decide⟩

/-- C18 (the single-block path does not trim). The file `/a` of `bigState` has the
chain `0 -> 1 -> 2 -> END`; `cfs_write` of 3 bytes at offset 100 ends in block 0 and
returns 3, and afterwards the entry of block 0 is still `1`, not `END`, and the
blocks 1 and 2 that followed keep the entries `2` and `END`, not `EMPTY`. -/
theorem C18_single_block_write_keeps_tail :
    (bigState.COLA (find [97] bigState.COLA)).blockNum = 0 ∧
    (bigState.FAT 0, bigState.FAT 1, bigState.FAT 2) = (1, 2, END) ∧
    (cfs_write 4096 bigState [47, 97] bufEND 3 100).map
      (fun r => (r.1, r.2.FAT 0, r.2.FAT 1, r.2.FAT 2)) = some (3, 1, 2, END) := by
  refine ⟨by decide, by decide, by decide⟩

/-- C19 (the trim uses the sentinel `EMPTY` as an index). In `wordBeforeState` the
file `/a` has the one-block chain `0 -> END`, every other FAT entry in `[0, N]` is
`EMPTY`, and the word in front of the table, at index `-1`, holds 7. `cfs_write` of
`4096 + 1` bytes at offset 0 returns 4097 and the word at index `-1` is now `EMPTY`:
the trim loop started from `FAT[1] = EMPTY = -1` and wrote there. -/
theorem C19_write_indexes_word_before_fat :
    (wordBeforeState.COLA (find [97] wordBeforeState.COLA)).blockNum = 0 ∧
    wordBeforeState.FAT 0 = END ∧
    (∀ k, 0 < k → k ≤ numOfFiles → wordBeforeState.FAT k = EMPTY) ∧
    searchFAT wordBeforeState.FAT = 1 ∧
    wordBeforeState.FAT (-1) = 7 ∧
    (cfs_write 4096 wordBeforeState [47, 97] bytes3 4097 0).map
      (fun r => (r.1, r.2.FAT (-1), r.2.FAT 0, r.2.FAT 1)) = some (4097, EMPTY, 1, END) := by
  refine ⟨by decide, by decide, ?_, by decide, by decide, by decide⟩
  intro k hk0 _
  show (if k = 0 then END else if k = -1 then 7 else EMPTY) = EMPTY
  rw [if_neg (by omega), if_neg (by omega)]

/-- C20 (the code writes through the index `EMPTY`). The path `/a` passes `checkPath`
and is absent from the fresh index, `find` returns `EMPTY = -1`, and `cfs_truncate`
to size 5 returns 0 after storing 5 in the size field at index `-1`, in front of the
array, where the fresh state held 0. -/
theorem C20_truncate_missing_path_writes_before_array :
    checkPath [47, 97] = 0 ∧
    find [97] initState.COLA = EMPTY ∧
    (initState.COLA (-1)).size = 0 ∧
    (cfs_truncate initState [47, 97] 5).1 = 0 ∧
    ((cfs_truncate initState [47, 97] 5).2.COLA (-1)).size = 5 := by
  refine ⟨by decide, by decide, by decide, by decide, by decide⟩

end CFS
